import Mathlib

/-!
Verification of the plainfields configuration-language implementation:
the lexical scanner (lex.go), the streaming grammar parser (parser.go,
package kaval version), and the value model (interface-based version with
NilValue/ZeroValue/BooleanValue/NumberValue/StringValue/IdentifierValue).

Modelling conventions:
* Input text is a list of characters (Go strings are byte slices holding
  UTF-8; positions are tracked in bytes via Char.utf8Size, columns in
  code points, exactly as the Go scanner does).
* The character class unicode.IsLetter depends on the Unicode tables,
  which are external to the repository; the whole development is
  parameterized by the predicate `letter`, so every theorem holds for
  every choice of that predicate, including the real Unicode one.
* Iterators (iter.Seq) are modelled by materialized lists; the consumer
  is assumed to pull every element (yield is constantly true), matching
  the claims, which are about the full emitted sequence.
* Loops in Go become fuel-indexed recursions.  The entry points supply
  enough fuel (proved in the progress lemmas), so the fuel is invisible
  in the statements.
* Go float64 values are modelled exactly: a finite double is a canonical
  dyadic rational (odd mantissa times a power of two, or zero), and all
  operations round to nearest, ties to even, as IEEE 754 and the Go
  runtime do.  Infinities and NaN are separate constructors.
* Go errors are modelled by Except with a small error kind type; the
  exact English error strings of strconv are irrelevant to the claims,
  but the parser and lexer diagnostic strings are reproduced because
  the repository tests pin them down.
-/

set_option exponentiation.threshold 4000
set_option maxRecDepth 8000

namespace Plainfields

/-- Byte offset plus 1-based code-point column, as in the Go Position struct. -/
structure Position where
  offset : Nat
  column : Nat
deriving DecidableEq, Repr

/-- Token kinds of the scanner (TokenType in Go).  The keyword kinds
TokenTrue, TokenFalse, TokenNil are spelled trueKw, falseKw, nilKw here. -/
inductive TokenType where
  | error
  | eof
  | booleanPrefix
  | identifier
  | assign
  | number
  | string
  | trueKw
  | falseKw
  | nilKw
  | fieldSeparator
  | listSeparator
  | pairSeparator
deriving DecidableEq, Repr

/-- A token: kind, starting position, and raw text (Token in Go). -/
structure Token where
  typ : TokenType
  pos : Position
  val : List Char
deriving DecidableEq, Repr

/-- Modelled from the spec: the kaval TokenType String method is not under
src/ (only the older plainfields variant is); the names follow that variant
together with the exact diagnostic strings pinned by parser_test.go
(for example "expected Identifier, got EOF"). -/
def typeName : TokenType → List Char
  | .error => "Error".data
  | .eof => "EOF".data
  | .booleanPrefix => "BooleanPrefix".data
  | .identifier => "Identifier".data
  | .assign => "Assign".data
  | .number => "Number".data
  | .string => "String".data
  | .trueKw => "True".data
  | .falseKw => "False".data
  | .nilKw => "Nil".data
  | .fieldSeparator => "FieldSeparator".data
  | .listSeparator => "ListSeparator".data
  | .pairSeparator => "PairSeparator".data

/-! ## Character classification (helpers file) -/

def isSpace (ch : Char) : Bool :=
  ch = ' ' || ch = '\t' || ch = '\n' || ch = '\r'

def isDigit (ch : Char) : Bool :=
  '0' ≤ ch && ch ≤ '9'

def isHexDigit (ch : Char) : Bool :=
  isDigit ch || ('a' ≤ ch && ch ≤ 'f') || ('A' ≤ ch && ch ≤ 'F')

def isOctalDigit (ch : Char) : Bool :=
  '0' ≤ ch && ch ≤ '7'

def isBinaryDigit (ch : Char) : Bool :=
  ch = '0' || ch = '1'

def isStringStart (ch : Char) : Bool :=
  ch = '"' || ch = '\''

def isNumericSign (ch : Char) : Bool :=
  ch = '+' || ch = '-'

section Lexer

-- letter stands for unicode.IsLetter, whose table is outside the repository.
variable (letter : Char → Bool)

def isIdentifierContinue (ch : Char) : Bool :=
  letter ch || isDigit ch || ch = '-' || ch = '_'

/-- Scanner state: the full input, the char index and byte/column position
of the current token start, and of the read position (lexer in Go; the
prev/undo pair only implements peek, which is modelled directly). -/
structure LState where
  input : List Char
  startIdx : Nat
  start : Position
  idx : Nat
  pos : Position
deriving Repr

/-- The rune at the read position, or none at end of input (peek in Go). -/
def lpeek (l : LState) : Option Char :=
  (l.input.drop l.idx).head?

/-- Consume one rune, advancing byte offset and column (next in Go). -/
def lnext (l : LState) : Option (Char × LState) :=
  match (l.input.drop l.idx).head? with
  | none => none
  | some c =>
      some (c, { l with idx := l.idx + 1,
                        pos := ⟨l.pos.offset + c.utf8Size, l.pos.column + 1⟩ })

/-- The raw text scanned since the last emission (text in Go). -/
def ltext (l : LState) : List Char :=
  (l.input.drop l.startIdx).take (l.idx - l.startIdx)

/-- Produce a token from the scanned span and reset the span start (emit in Go). -/
def lemit (typ : TokenType) (l : LState) : Token × LState :=
  (⟨typ, l.start, ltext l⟩, { l with startIdx := l.idx, start := l.pos })

/-- Skip the pending input before this point (ignore in Go). -/
def lignore (l : LState) : LState :=
  { l with startIdx := l.idx, start := l.pos }

/-- An error token carrying the message; the scanner then halts (errorf in Go). -/
def lerror (msg : List Char) (l : LState) : Token :=
  ⟨.error, l.start, msg⟩

/-- The scanner states (the stateFn values of lex.go).  The string states
carry the opening quote, which in Go lives in the lexString closure. -/
inductive LexFn where
  | top
  | identifierOrKeywordContinue
  | stringStart
  | stringContent (quote : Char)
  | stringEscape (quote : Char)
  | number
  | decimalDigits
  | decimalFraction
  | decimalFractionDigits
  | exponent
  | exponentDigits
  | hexDigits
  | hexDigitsContinue
  | hexFraction
  | hexFractionDigits
  | hexExponent
  | hexExponentDigits
  | octalDigits
  | octalDigitsContinue
  | binaryDigits
  | binaryDigitsContinue
deriving DecidableEq, Repr

/-- One result of a state function: tokens emitted now, and the follow-up
state, or none when lexing halts (returning nil / erroring in Go). -/
abbrev LexStep := List Token × Option (LexFn × LState)

/-- lexTop of lex.go: dispatch on the next character. -/
def lexTop (l : LState) : LexStep :=
  match lpeek l with
  | none =>
      let (t, _) := lemit .eof (lignore l)
      ([t], none)
  | some ch =>
    if isSpace ch then
      match lnext l with
      | none => ([], none)
      | some (_, l1) => ([], some (.top, lignore l1))
    else if ch = '^' || ch = '!' then
      match lnext l with
      | none => ([], none)
      | some (_, l1) => let (t, l2) := lemit .booleanPrefix l1; ([t], some (.top, l2))
    else if ch = '=' then
      match lnext l with
      | none => ([], none)
      | some (_, l1) => let (t, l2) := lemit .assign l1; ([t], some (.top, l2))
    else if ch = ',' then
      match lnext l with
      | none => ([], none)
      | some (_, l1) => let (t, l2) := lemit .fieldSeparator l1; ([t], some (.top, l2))
    else if ch = ';' then
      match lnext l with
      | none => ([], none)
      | some (_, l1) => let (t, l2) := lemit .listSeparator l1; ([t], some (.top, l2))
    else if ch = ':' then
      match lnext l with
      | none => ([], none)
      | some (_, l1) => let (t, l2) := lemit .pairSeparator l1; ([t], some (.top, l2))
    else if isStringStart ch then
      ([], some (.stringStart, l))
    else if isNumericSign ch || isDigit ch then
      ([], some (.number, l))
    else if letter ch then
      match lnext l with
      | none => ([], none)
      | some (_, l1) => ([], some (.identifierOrKeywordContinue, l1))
    else
      ([lerror ("unexpected character: ".data ++ [ch]) l], none)

/-- lexIdentifierOrKeywordContinue of lex.go. -/
def lexIdentifierOrKeywordContinue (l : LState) : LexStep :=
  match lpeek l with
  | some ch =>
    if isIdentifierContinue letter ch then
      match lnext l with
      | none => ([], none)
      | some (_, l1) => ([], some (.identifierOrKeywordContinue, l1))
    else
      let text := ltext l
      if text = "true".data then let (t, l1) := lemit .trueKw l; ([t], some (.top, l1))
      else if text = "false".data then let (t, l1) := lemit .falseKw l; ([t], some (.top, l1))
      else if text = "nil".data then let (t, l1) := lemit .nilKw l; ([t], some (.top, l1))
      else let (t, l1) := lemit .identifier l; ([t], some (.top, l1))
  | none =>
      let text := ltext l
      if text = "true".data then let (t, l1) := lemit .trueKw l; ([t], some (.top, l1))
      else if text = "false".data then let (t, l1) := lemit .falseKw l; ([t], some (.top, l1))
      else if text = "nil".data then let (t, l1) := lemit .nilKw l; ([t], some (.top, l1))
      else let (t, l1) := lemit .identifier l; ([t], some (.top, l1))

/-- lexString of lex.go: consume the opening quote; the Go closure over
the quote becomes the stringContent state argument.  (If the input were
exhausted here, Go would read the eof rune as the quote and the content
state would immediately report an unterminated string; this state is only
ever entered with a quote available.) -/
def lexString (l : LState) : LexStep :=
  match lnext l with
  | none => ([lerror "unterminated string".data l], none)
  | some (quote, l1) => ([], some (.stringContent quote, l1))

/-- lexStringContent of lex.go. -/
def lexStringContent (quote : Char) (l : LState) : LexStep :=
  match lnext l with
  | none => ([lerror "unterminated string".data l], none)
  | some (ch, l1) =>
    if ch = quote then
      let (t, l2) := lemit .string l1
      ([t], some (.top, l2))
    else if ch = '\\' then
      ([], some (.stringEscape quote, l1))
    else
      ([], some (.stringContent quote, l1))

/-- lexStringEscape of lex.go: the escaped character is consumed unconditionally. -/
def lexStringEscape (quote : Char) (l : LState) : LexStep :=
  match lnext l with
  | none => ([lerror "unterminated escape sequence".data l], none)
  | some (_, l1) => ([], some (.stringContent quote, l1))

/-- lexNumber of lex.go: optional sign, then base-prefix dispatch on a
leading zero. -/
def lexNumber (l : LState) : LexStep :=
  let l :=
    match lpeek l with
    | some ch =>
        if isNumericSign ch then
          match lnext l with
          | none => l
          | some (_, l1) => l1
        else l
    | none => l
  if lpeek l = some '0' then
    match lnext l with
    | none => ([], none)
    | some (_, l1) =>
      match lpeek l1 with
      | some ch =>
        if ch = 'x' || ch = 'X' then
          match lnext l1 with
          | none => ([], none)
          | some (_, l2) => ([], some (.hexDigits, l2))
        else if ch = 'o' || ch = 'O' then
          match lnext l1 with
          | none => ([], none)
          | some (_, l2) => ([], some (.octalDigits, l2))
        else if ch = 'b' || ch = 'B' then
          match lnext l1 with
          | none => ([], none)
          | some (_, l2) => ([], some (.binaryDigits, l2))
        else if isDigit ch || ch = '_' then
          ([], some (.decimalDigits, l1))
        else if ch = '.' then
          ([], some (.decimalFraction, l1))
        else
          let (t, l2) := lemit .number l1
          ([t], some (.top, l2))
      | none =>
          let (t, l2) := lemit .number l1
          ([t], some (.top, l2))
  else ([], some (.decimalDigits, l))

/-- lexDecimalDigits of lex.go. -/
def lexDecimalDigits (l : LState) : LexStep :=
  match lpeek l with
  | some ch =>
    if isDigit ch || ch = '_' then
      match lnext l with
      | none => ([], none)
      | some (_, l1) => ([], some (.decimalDigits, l1))
    else if ch = '.' then ([], some (.decimalFraction, l))
    else if ch = 'e' || ch = 'E' then ([], some (.exponent, l))
    else let (t, l1) := lemit .number l; ([t], some (.top, l1))
  | none => let (t, l1) := lemit .number l; ([t], some (.top, l1))

/-- lexDecimalFraction of lex.go: consume the dot (at end of input the
Go next call is a no-op and scanning falls through to the digit state). -/
def lexDecimalFraction (l : LState) : LexStep :=
  match lnext l with
  | none => ([], some (.decimalFractionDigits, l))
  | some (_, l1) => ([], some (.decimalFractionDigits, l1))

/-- lexDecimalFractionDigits of lex.go. -/
def lexDecimalFractionDigits (l : LState) : LexStep :=
  match lpeek l with
  | some ch =>
    if isDigit ch || ch = '_' then
      match lnext l with
      | none => ([], none)
      | some (_, l1) => ([], some (.decimalFractionDigits, l1))
    else if ch = 'e' || ch = 'E' then ([], some (.exponent, l))
    else let (t, l1) := lemit .number l; ([t], some (.top, l1))
  | none => let (t, l1) := lemit .number l; ([t], some (.top, l1))

/-- lexExponent of lex.go: consume the marker and optional sign; at least
one digit must follow. -/
def lexExponent (l : LState) : LexStep :=
  match lnext l with
  | none => ([lerror "expected digit after exponent".data l], none)
  | some (_, l1) =>
    let l2 :=
      match lpeek l1 with
      | some ch =>
          if isNumericSign ch then
            match lnext l1 with
            | none => l1
            | some (_, la) => la
          else l1
      | none => l1
    match lpeek l2 with
    | some ch =>
        if isDigit ch then ([], some (.exponentDigits, l2))
        else ([lerror "expected digit after exponent".data l2], none)
    | none => ([lerror "expected digit after exponent".data l2], none)

/-- lexExponentDigits of lex.go. -/
def lexExponentDigits (l : LState) : LexStep :=
  match lpeek l with
  | some ch =>
    if isDigit ch || ch = '_' then
      match lnext l with
      | none => ([], none)
      | some (_, l1) => ([], some (.exponentDigits, l1))
    else let (t, l1) := lemit .number l; ([t], some (.top, l1))
  | none => let (t, l1) := lemit .number l; ([t], some (.top, l1))

/-- lexHexDigits of lex.go: at least one hex digit is required. -/
def lexHexDigits (l : LState) : LexStep :=
  match lpeek l with
  | some ch =>
      if isHexDigit ch then ([], some (.hexDigitsContinue, l))
      else ([lerror "expected hex digit".data l], none)
  | none => ([lerror "expected hex digit".data l], none)

/-- lexHexDigitsContinue of lex.go. -/
def lexHexDigitsContinue (l : LState) : LexStep :=
  match lpeek l with
  | some ch =>
    if isHexDigit ch || ch = '_' then
      match lnext l with
      | none => ([], none)
      | some (_, l1) => ([], some (.hexDigitsContinue, l1))
    else if ch = '.' then ([], some (.hexFraction, l))
    else if ch = 'p' || ch = 'P' then ([], some (.hexExponent, l))
    else let (t, l1) := lemit .number l; ([t], some (.top, l1))
  | none => let (t, l1) := lemit .number l; ([t], some (.top, l1))

/-- lexHexFraction of lex.go: consume the dot (at end of input the Go
next call is a no-op and scanning falls through to the digit state). -/
def lexHexFraction (l : LState) : LexStep :=
  match lnext l with
  | none => ([], some (.hexFractionDigits, l))
  | some (_, l1) => ([], some (.hexFractionDigits, l1))

/-- lexHexFractionDigits of lex.go. -/
def lexHexFractionDigits (l : LState) : LexStep :=
  match lpeek l with
  | some ch =>
    if isHexDigit ch || ch = '_' then
      match lnext l with
      | none => ([], none)
      | some (_, l1) => ([], some (.hexFractionDigits, l1))
    else if ch = 'p' || ch = 'P' then ([], some (.hexExponent, l))
    else let (t, l1) := lemit .number l; ([t], some (.top, l1))
  | none => let (t, l1) := lemit .number l; ([t], some (.top, l1))

/-- lexHexExponent of lex.go. -/
def lexHexExponent (l : LState) : LexStep :=
  match lnext l with
  | none => ([lerror "expected digit after hex exponent".data l], none)
  | some (_, l1) =>
    let l2 :=
      match lpeek l1 with
      | some ch =>
          if isNumericSign ch then
            match lnext l1 with
            | none => l1
            | some (_, la) => la
          else l1
      | none => l1
    match lpeek l2 with
    | some ch =>
        if isDigit ch then ([], some (.hexExponentDigits, l2))
        else ([lerror "expected digit after hex exponent".data l2], none)
    | none => ([lerror "expected digit after hex exponent".data l2], none)

/-- lexHexExponentDigits of lex.go. -/
def lexHexExponentDigits (l : LState) : LexStep :=
  match lpeek l with
  | some ch =>
    if isDigit ch || ch = '_' then
      match lnext l with
      | none => ([], none)
      | some (_, l1) => ([], some (.hexExponentDigits, l1))
    else let (t, l1) := lemit .number l; ([t], some (.top, l1))
  | none => let (t, l1) := lemit .number l; ([t], some (.top, l1))

/-- lexOctalDigits of lex.go. -/
def lexOctalDigits (l : LState) : LexStep :=
  match lpeek l with
  | some ch =>
      if isOctalDigit ch then ([], some (.octalDigitsContinue, l))
      else ([lerror "expected octal digit".data l], none)
  | none => ([lerror "expected octal digit".data l], none)

/-- lexOctalDigitsContinue of lex.go. -/
def lexOctalDigitsContinue (l : LState) : LexStep :=
  match lpeek l with
  | some ch =>
    if isOctalDigit ch || ch = '_' then
      match lnext l with
      | none => ([], none)
      | some (_, l1) => ([], some (.octalDigitsContinue, l1))
    else let (t, l1) := lemit .number l; ([t], some (.top, l1))
  | none => let (t, l1) := lemit .number l; ([t], some (.top, l1))

/-- lexBinaryDigits of lex.go. -/
def lexBinaryDigits (l : LState) : LexStep :=
  match lpeek l with
  | some ch =>
      if isBinaryDigit ch then ([], some (.binaryDigitsContinue, l))
      else ([lerror "expected binary digit".data l], none)
  | none => ([lerror "expected binary digit".data l], none)

/-- lexBinaryDigitsContinue of lex.go. -/
def lexBinaryDigitsContinue (l : LState) : LexStep :=
  match lpeek l with
  | some ch =>
    if isBinaryDigit ch || ch = '_' then
      match lnext l with
      | none => ([], none)
      | some (_, l1) => ([], some (.binaryDigitsContinue, l1))
    else let (t, l1) := lemit .number l; ([t], some (.top, l1))
  | none => let (t, l1) := lemit .number l; ([t], some (.top, l1))

/-- Dispatch a state to its state function. -/
def lexStep : LexFn → LState → LexStep
  | .top => lexTop letter
  | .identifierOrKeywordContinue => lexIdentifierOrKeywordContinue letter
  | .stringStart => lexString
  | .stringContent q => lexStringContent q
  | .stringEscape q => lexStringEscape q
  | .number => lexNumber
  | .decimalDigits => lexDecimalDigits
  | .decimalFraction => lexDecimalFraction
  | .decimalFractionDigits => lexDecimalFractionDigits
  | .exponent => lexExponent
  | .exponentDigits => lexExponentDigits
  | .hexDigits => lexHexDigits
  | .hexDigitsContinue => lexHexDigitsContinue
  | .hexFraction => lexHexFraction
  | .hexFractionDigits => lexHexFractionDigits
  | .hexExponent => lexHexExponent
  | .hexExponentDigits => lexHexExponentDigits
  | .octalDigits => lexOctalDigits
  | .octalDigitsContinue => lexOctalDigitsContinue
  | .binaryDigits => lexBinaryDigits
  | .binaryDigitsContinue => lexBinaryDigitsContinue

/-- runPattern of lex.go: iterate state functions until one halts.
The fuel only forces totality; Lex supplies enough (lex_run_fuelFree). -/
def runPattern : Nat → LexFn → LState → List Token
  | 0, _, _ => []
  | fuel + 1, fn, l =>
    match lexStep letter fn l with
    | (ts, none) => ts
    | (ts, some (fn2, l2)) => ts ++ runPattern fuel fn2 l2

/-- Initial scanner state over an input. -/
def initLState (input : List Char) : LState :=
  ⟨input, 0, ⟨0, 1⟩, 0, ⟨0, 1⟩⟩

/-- Lex of lex.go: the full token sequence for an input. -/
def Lex (input : List Char) : List Token :=
  runPattern letter (6 * input.length + 6) .top (initLState input)

end Lexer

/-! ## Value model (the interface-based kaval version) -/

/-- The closed set of value variants (NilValue, ZeroValue, BooleanValue,
NumberValue, StringValue, IdentifierValue in Go), each carrying its raw
text where the Go struct does. -/
inductive Value where
  | nilValue
  | zeroValue
  | booleanValue (raw : List Char)
  | numberValue (raw : List Char)
  | stringValue (raw : List Char)
  | identifierValue (raw : List Char)
deriving DecidableEq, Repr

/-- valueFromToken of the kaval value file; the default case yields the
nil Go interface value, modelled as none. -/
def valueFromToken (t : Token) : Option Value :=
  match t.typ with
  | .string => some (.stringValue t.val)
  | .number => some (.numberValue t.val)
  | .identifier => some (.identifierValue t.val)
  | .falseKw | .trueKw => some (.booleanValue t.val)
  | .nilKw => some .nilValue
  | _ => none

/-! ## Grammar parser (parser.go, package kaval) -/

/-- Parser events (ParserEvent in Go).  ValueEvent is called value here;
the Go events embed a Value interface, which can in principle be nil,
hence Option Value. -/
inductive ParserEvent where
  | listStart
  | listEnd
  | mapStart
  | mapEnd
  | mapKey (v : Option Value)
  | value (v : Option Value)
  | error (pos : Position) (msg : List Char)
deriving DecidableEq, Repr

/-- The top-level parser states (parserState in Go, an iota enum ordered
startState < orderedState < labeledState < eofState). -/
inductive ParserState where
  | start
  | ordered
  | labeled
  | eofState
deriving DecidableEq, Repr

/-- Numeric value of the iota enum, used by the Go comparison state > orderedState. -/
def ParserState.toNat : ParserState → Nat
  | .start => 0
  | .ordered => 1
  | .labeled => 2
  | .eofState => 3

/-- Parser state (Parser in Go).  rest is the unread part of the token
sequence; peeked is the one-token lookahead buffer.  The consumer always
pulls, so done stays false and emit appends unconditionally. -/
structure PState where
  allowOrdered : Bool
  rest : List Token
  peeked : Option Token
  current : Token
  hasToken : Bool
  state : ParserState
  events : List ParserEvent
deriving Repr

/-- emit of parser.go (yield is constantly true). -/
def pemit (ev : ParserEvent) (s : PState) : PState :=
  { s with events := s.events ++ [ev] }

/-- errorf of parser.go: emit an error event at the current token position. -/
def perrorf (msg : List Char) (s : PState) : PState :=
  pemit (.error s.current.pos msg) s

/-- peek of parser.go: fill the one-token buffer from the sequence. -/
def ppeek (s : PState) : Option Token × PState :=
  match s.peeked with
  | some t => (some t, s)
  | none =>
    match s.rest with
    | t :: ts => (some t, { s with peeked := some t, rest := ts })
    | [] => (none, s)

/-- isNext of parser.go: whether the next token has one of the given types. -/
def isNext (typs : List TokenType) (s : PState) : Bool × PState :=
  match ppeek s with
  | (some t, s1) => (typs.contains t.typ, s1)
  | (none, s1) => (false, s1)

/-- advance of parser.go: consume the peeked token or pull the next one. -/
def padvance (s : PState) : PState × Bool :=
  match s.peeked with
  | some t => ({ s with current := t, peeked := none, hasToken := true }, true)
  | none =>
    match s.rest with
    | t :: ts => ({ s with current := t, rest := ts, hasToken := true }, true)
    | [] => ({ s with hasToken := false }, false)

/-- isToken of parser.go: check the current token type, erroring otherwise. -/
def isToken (typ : TokenType) (s : PState) : PState × Bool :=
  if !s.hasToken then
    (perrorf "unexpected end of input".data s, false)
  else if s.current.typ ≠ typ then
    (perrorf ("expected ".data ++ typeName typ ++ ", got ".data ++ typeName s.current.typ) s, false)
  else (s, true)

/-- toValue of parser.go. -/
def toValue (s : PState) : Option Value :=
  valueFromToken s.current

/-- updateState of parser.go: emit the structural bracket events implied
by a top-level state transition. -/
def updateState (newState : ParserState) (s : PState) : PState :=
  let s1 :=
    if s.state = .start ∧ newState = .ordered then pemit .listStart s
    else if s.state = .start ∧ newState = .labeled then pemit .mapStart s
    else if s.state = .ordered ∧ newState = .labeled then pemit .mapStart (pemit .listEnd s)
    else if newState = .eofState then
      if s.state = .ordered then pemit .listEnd s
      else if s.state = .labeled then pemit .mapEnd s
      else s
    else s
  { s1 with state := newState }

/-- isValue of parser.go: whether the current token is a scalar value token. -/
def isValue (s : PState) : PState × Bool :=
  match s.current.typ with
  | .identifier | .number | .string | .trueKw | .falseKw | .nilKw => (s, true)
  | t => (perrorf ("expected value, got ".data ++ typeName t) s, false)

/-- parseBooleanPrefix of parser.go: a BooleanPrefix token must be
followed by an identifier; emits the key and the synthesized boolean. -/
def parseBooleanPrefix (s : PState) : PState × Bool :=
  let prefixVal := s.current.val
  match padvance s with
  | (s1, false) => (s1, false)
  | (s1, true) =>
    match isToken .identifier s1 with
    | (s2, false) => (s2, false)
    | (s2, true) =>
      let s3 := pemit (.mapKey (toValue s2)) s2
      let s4 := pemit (.value (some (.booleanValue
        (if prefixVal = "^".data then "true".data else "false".data)))) s3
      padvance s4

/-- parseDictPair of parser.go: one key, a PairSeparator, one value. -/
def parseDictPair (s : PState) : PState × Bool :=
  match isValue s with
  | (s1, false) => (s1, false)
  | (s1, true) =>
    let s2 := pemit (.mapKey (toValue s1)) s1
    match padvance s2 with
    | (s3, false) => (s3, false)
    | (s3, true) =>
      match isToken .pairSeparator s3 with
      | (s4, false) => (s4, false)
      | (s4, true) =>
        match padvance s4 with
        | (s5, false) => (s5, false)
        | (s5, true) =>
          match isValue s5 with
          | (s6, false) => (s6, false)
          | (s6, true) =>
            let s7 := pemit (.value (toValue s6)) s6
            padvance s7

/-- parseDictEntry of parser.go: a pair or a boolean-prefix entry. -/
def parseDictEntry (s : PState) : PState × Bool :=
  if s.current.typ = .booleanPrefix then parseBooleanPrefix s
  else parseDictPair s

/-- The loop of parseDictValue of parser.go: further entries while the
current token is a ListSeparator; on exit emit MapEnd. -/
def parseDictLoop : Nat → PState → PState × Bool
  | 0, s => (s, false)
  | fuel + 1, s =>
    if s.current.typ = .listSeparator then
      match padvance s with
      | (s1, false) => (s1, false)
      | (s1, true) =>
        match parseDictEntry s1 with
        | (s2, false) => (s2, false)
        | (s2, true) => parseDictLoop fuel s2
    else (pemit .mapEnd s, true)

/-- parseDictValue of parser.go: MapStart, a first entry, the loop. -/
def parseDictValue (fuel : Nat) (s : PState) : PState × Bool :=
  let s1 := pemit .mapStart s
  match parseDictEntry s1 with
  | (s2, false) => (s2, false)
  | (s2, true) => parseDictLoop fuel s2

/-- The loop of parseListValue of parser.go: further values while the
current token is a ListSeparator; on exit emit ListEnd. -/
def parseListLoop : Nat → PState → PState × Bool
  | 0, s => (s, false)
  | fuel + 1, s =>
    if s.hasToken ∧ s.current.typ = .listSeparator then
      match padvance s with
      | (s1, false) => (s1, false)
      | (s1, true) =>
        match isValue s1 with
        | (s2, false) => (s2, false)
        | (s2, true) =>
          let s3 := pemit (.value (toValue s2)) s2
          let (s4, _) := padvance s3
          parseListLoop fuel s4
    else (pemit .listEnd s, true)

/-- parseListValue of parser.go: ListStart, the first value, the loop. -/
def parseListValue (fuel : Nat) (s : PState) : PState × Bool :=
  let s1 := pemit .listStart s
  let s2 := pemit (.value (toValue s1)) s1
  let (s3, _) := padvance s2
  parseListLoop fuel s3

/-- parseValueContent of parser.go: one scalar, then lookahead decides
between map, list, or a single value. -/
def parseValueContent (fuel : Nat) (s : PState) : PState × Bool :=
  if s.current.typ = .booleanPrefix then parseDictValue fuel s
  else
    match isValue s with
    | (s1, false) => (s1, false)
    | (s1, true) =>
      match isNext [.pairSeparator] s1 with
      | (true, s2) => parseDictValue fuel s2
      | (false, s2) =>
        match isNext [.listSeparator] s2 with
        | (true, s3) => parseListValue fuel s3
        | (false, s3) =>
          let s4 := pemit (.value (toValue s3)) s3
          let (s5, _) := padvance s4
          (s5, true)

/-- parseAssignment of parser.go: the key was the current token; consume
the Assign, then either a Zero value for an empty assignment or value
content. -/
def parseAssignment (fuel : Nat) (s : PState) : PState × Bool :=
  let s1 := pemit (.mapKey (toValue s)) s
  let (s2, _) := padvance s1
  match isNext [.fieldSeparator, .eof] s2 with
  | (true, s3) =>
    let (s4, _) := padvance s3
    (pemit (.value (some .zeroValue)) s4, true)
  | (false, s3) =>
    match padvance s3 with
    | (s4, false) => (s4, false)
    | (s4, true) => parseValueContent fuel s4

/-- The shared ordered-value body of parseField of parser.go (the
TokenFieldSeparator / value-token case, which the TokenIdentifier case
falls through into). -/
def parseFieldOrdered (fuel : Nat) (s : PState) : PState × Bool :=
  if !s.allowOrdered || s.state.toNat > ParserState.ordered.toNat then
    (perrorf "ordered value not allowed here".data s, false)
  else
    let s1 := updateState .ordered s
    if s1.current.typ = .fieldSeparator then
      (pemit (.value (some .zeroValue)) s1, true)
    else
      parseValueContent fuel s1

/-- parseField of parser.go. -/
def parseField (fuel : Nat) (s : PState) : PState × Bool :=
  match s.current.typ with
  | .booleanPrefix => parseBooleanPrefix (updateState .labeled s)
  | .identifier =>
    (match isNext [.assign] s with
     | (true, s1) => parseAssignment fuel (updateState .labeled s1)
     | (false, s1) => parseFieldOrdered fuel s1)
  | .fieldSeparator | .string | .number | .trueKw | .falseKw | .nilKw =>
    parseFieldOrdered fuel s
  | t => (perrorf ("expected field prefix, identifier, or value, got ".data ++ typeName t) s, false)

/-- The loop of parseFieldList of parser.go.  The boolean is true when the
loop finished by exhausting the input or reaching EOF (so that the final
eofState transition runs) and false on the early error return. -/
def parseFieldLoop : Nat → PState → PState × Bool
  | 0, s => (s, false)
  | fuel + 1, s =>
    match padvance s with
    | (s1, false) => (s1, true)
    | (s1, true) =>
      if s1.current.typ = .eof then (s1, true)
      else
        match parseField fuel s1 with
        | (s2, false) => (s2, false)
        | (s2, true) => parseFieldLoop fuel s2

/-- parseFieldList of parser.go: the loop, then the eofState transition
(skipped when a field failed, exactly as the Go early return skips it). -/
def parseFieldList (fuel : Nat) (s : PState) : PState :=
  match parseFieldLoop fuel s with
  | (s1, true) => updateState .eofState s1
  | (s1, false) => s1

/-- Initial parser state over a token sequence.  The zero Go Token has
type TokenError and zero position. -/
def initPState (allowOrdered : Bool) (tokens : List Token) : PState :=
  ⟨allowOrdered, tokens, none, ⟨.error, ⟨0, 0⟩, []⟩, false, .start, []⟩

/-- ParseTokens of parser.go (the consumer pulls every event). -/
def ParseTokens (tokens : List Token) (allowOrdered : Bool := true) : List ParserEvent :=
  (parseFieldList (tokens.length + 1) (initPState allowOrdered tokens)).events

/-- Parse of parser.go: lex then parse, with the default options. -/
def Parse (letter : Char → Bool) (input : List Char)
    (allowOrdered : Bool := true) : List ParserEvent :=
  ParseTokens (Lex letter input) allowOrdered

/-! ## Go strconv integer parsing (as used by the value model) -/

/-- Error kinds of the conversions.  strconv messages are collapsed to
their kind (ErrSyntax / ErrRange); the not-convertible failure of the
free conversion functions keeps the value-type and target names. -/
inductive GoErr where
  | syntaxErr
  | rangeErr
  | notConvertible (vt target : List Char)
  | invalidBoolean (raw : List Char)
deriving DecidableEq, Repr

deriving instance DecidableEq for Except

/-- lower of strconv: force the ASCII case bit. -/
def goLower (c : Char) : Char :=
  Char.ofNat (c.toNat ||| 0x20)

/-- Digit value of a character as strconv sees it (0-9, a-z, A-Z). -/
def digitVal (c : Char) : Option Nat :=
  if '0' ≤ c ∧ c ≤ '9' then some (c.toNat - '0'.toNat)
  else if 'a' ≤ c ∧ c ≤ 'z' then some (c.toNat - 'a'.toNat + 10)
  else if 'A' ≤ c ∧ c ≤ 'Z' then some (c.toNat - 'A'.toNat + 10)
  else none

/-- underscoreOK of strconv/atoi.go: underscores must separate digits
(the base prefix counting as a digit). -/
def underscoreOK (s : List Char) : Bool :=
  let s1 := match s with
    | c :: rest => if c = '-' || c = '+' then rest else s
    | [] => s
  let (hex, saw0, s2) : Bool × Bool × List Char :=
    match s1 with
    | c0 :: c1 :: rest =>
        if c0 = '0' ∧ (goLower c1 = 'b' ∨ goLower c1 = 'o' ∨ goLower c1 = 'x') then
          (goLower c1 = 'x', true, rest)
        else (false, false, s1)
    | _ => (false, false, s1)
  -- saw tracks the class of the previous character: 0 = digit, 1 = underscore,
  -- 2 = anything else, 3 = beginning of the number.
  let rec go (hex : Bool) (saw : Nat) : List Char → Bool
    | [] => saw ≠ 1
    | c :: rest =>
        if ('0' ≤ c ∧ c ≤ '9') ∨ (hex ∧ 'a' ≤ goLower c ∧ goLower c ≤ 'f') then
          go hex 0 rest
        else if c = '_' then
          if saw ≠ 0 then false else go hex 1 rest
        else if saw = 1 then false
        else go hex 2 rest
  go hex (if saw0 then 0 else 3) s2

/-- Digit fold of strconv.ParseUint: fold the digit characters, skipping
underscores only when the caller passed base 0 (base0), rejecting digits
that do not fit the base.  The accumulated value is exact; the 64-bit
overflow cutoff is applied by the caller. -/
def foldDigits (base : Nat) (base0 : Bool) : List Char → Except GoErr Nat → Except GoErr Nat
  | [], acc => acc
  | c :: rest, acc =>
      match acc with
      | .error e => .error e
      | .ok n =>
        if c = '_' then
          if base0 then foldDigits base base0 rest (.ok n)
          else .error .syntaxErr
        else
          match digitVal c with
          | none => .error .syntaxErr
          | some d =>
              if d ≥ base then .error .syntaxErr
              else foldDigits base base0 rest (.ok (n * base + d))

/-- strconv.ParseUint with bitSize 64.  Base 0 detects 0b/0o/0x prefixes
and the legacy leading-zero octal form and permits underscores subject to
underscoreOK; an explicit base forbids underscores.  Values of 2^64 or
more are a range error (Go detects the overflow inside the loop; the
resulting error kind is identical). -/
def goParseUint (s : List Char) (base : Nat) : Except GoErr Nat :=
  if s = [] then .error .syntaxErr
  else
    let (effBase, digits, base0) : Nat × List Char × Bool :=
      if base ≠ 0 then (base, s, false)
      else
        match s with
        | c0 :: c1 :: rest =>
            if c0 = '0' ∧ goLower c1 = 'b' ∧ rest ≠ [] then (2, rest, true)
            else if c0 = '0' ∧ goLower c1 = 'o' ∧ rest ≠ [] then (8, rest, true)
            else if c0 = '0' ∧ goLower c1 = 'x' ∧ rest ≠ [] then (16, rest, true)
            else if c0 = '0' then (8, c1 :: rest, true)
            else (10, s, true)
        | [c0] => if c0 = '0' then (8, [], true) else (10, s, true)
        | [] => (10, s, true)
    match foldDigits effBase base0 digits (.ok 0) with
    | .error e => .error e
    | .ok n =>
        if n ≥ Nat.pow 2 64 then .error .rangeErr
        else if base0 ∧ s.contains '_' ∧ ¬ underscoreOK s then .error .syntaxErr
        else .ok n

/-- strconv.ParseInt with base 0 and bitSize 64: optional sign, then
ParseUint, then the signed 64-bit range check. -/
def goParseInt (s : List Char) : Except GoErr ℤ :=
  if s = [] then .error .syntaxErr
  else
    let (neg, rest) : Bool × List Char :=
      match s with
      | '+' :: r => (false, r)
      | '-' :: r => (true, r)
      | _ => (false, s)
    match goParseUint rest 0 with
    | .error e => .error e
    | .ok un =>
        if ¬ neg ∧ un ≥ Nat.pow 2 63 then .error .rangeErr
        else if neg ∧ un > Nat.pow 2 63 then .error .rangeErr
        else .ok (if neg then -(un : ℤ) else (un : ℤ))

/-! ## IEEE 754 binary64 model

A Go float64 is modelled exactly.  A finite double is written in the
canonical form m·2^k with m odd (or m = 0 and k = 0); every arithmetic
result is obtained by rounding the exact rational value to the nearest
representable double, ties to even, as IEEE 754 and the Go runtime
specify.  All computations are over integers so that the kernel can
evaluate them. -/

/-- A Go float64 value. -/
inductive GoFloat where
  | finite (m : ℤ) (k : ℤ)
  | inf (neg : Bool)
  | nan
deriving DecidableEq, Repr

/-- Whether a float compares equal to zero (Go x == 0). -/
def GoFloat.isZeroVal : GoFloat → Bool
  | .finite m _ => m = 0
  | _ => false

/-- Fuel-driven floor of the base-2 logarithm of a positive natural;
numbers of 64 bits or more are halved 64 bits at a time so that the
recursion depth stays small even for astronomic inputs. -/
def ilog2F : Nat → Nat → Nat
  | 0, _ => 0
  | fuel + 1, n =>
      if n ≤ 1 then 0
      else if 18446744073709551616 ≤ n then
        ilog2F fuel (n / 18446744073709551616) + 64
      else ilog2F fuel (n / 2) + 1

/-- Floor of the base-2 logarithm (0 at 0, by convention of the fuel). -/
def ilog2 (n : Nat) : Nat := ilog2F n n

/-- Whether n/d < 2^e, by cross-multiplication (d > 0). -/
def fracLtTwoPow (n d : Nat) (e : ℤ) : Bool :=
  if 0 ≤ e then n < Nat.pow 2 e.toNat * d else n * Nat.pow 2 (-e).toNat < d

/-- Floor of the base-2 logarithm of n/d for n, d ≥ 1. -/
def flog2 (n d : Nat) : ℤ :=
  let e1 : ℤ := (ilog2 n : ℤ) - (ilog2 d : ℤ)
  if fracLtTwoPow n d e1 then e1 - 1 else e1

/-- Round num/den (den > 0) to the nearest integer, ties to even. -/
def rne (num den : Nat) : Nat :=
  let q := num / den
  let r := num % den
  if 2 * r < den then q
  else if den < 2 * r then q + 1
  else if q % 2 = 0 then q else q + 1

/-- Round (n/d)·2^scale to the nearest integer, ties to even. -/
def rneScaled (n d : Nat) (scale : ℤ) : Nat :=
  if 0 ≤ scale then rne (n * Nat.pow 2 scale.toNat) d else rne n (d * Nat.pow 2 (-scale).toNat)

/-- Round the positive rational n/d onto the binary64 grid: returns the
rounded mantissa and the binary exponent (value = mantissa·2^exponent).
Normal numbers use a 53-bit significand; below 2^-1022 the grid is the
fixed subnormal grid 2^-1074. -/
def roundPos (n d : Nat) : Nat × ℤ :=
  let e := flog2 n d
  let scale : ℤ := if e < -1022 then 1074 else 52 - e
  (rneScaled n d scale, -scale)

/-- Whether m·2^k ≥ 2^t (m : ℕ). -/
def dyGeTwoPow (m : Nat) (k t : ℤ) : Bool :=
  if t ≤ k then m ≥ 1 else m ≥ Nat.pow 2 (t - k).toNat

/-- Reduce a dyadic to canonical form (odd mantissa). -/
def oddify : Nat → Nat → ℤ → Nat × ℤ
  | 0, m, k => (m, k)
  | fuel + 1, m, k => if m % 2 = 0 ∧ m ≠ 0 then oddify fuel (m / 2) (k + 1) else (m, k)

/-- Build the canonical finite double of value ±m0·2^k. -/
def canonFloat (neg : Bool) (m0 : Nat) (k : ℤ) : GoFloat :=
  if m0 = 0 then .finite 0 0
  else
    let (m, k2) := oddify m0 m0 k
    .finite (if neg then -(m : ℤ) else (m : ℤ)) k2

/-- Round the exact value ±n/d to a double the way a float64 arithmetic
operation does: overflow produces an infinity, underflow produces zero. -/
def roundTotal (neg : Bool) (n d : Nat) : GoFloat :=
  if n = 0 then .finite 0 0
  else
    let (m0, k) := roundPos n d
    if dyGeTwoPow m0 k 1024 then .inf neg
    else canonFloat neg m0 k

/-- Round the exact value ±n/d the way strconv.ParseFloat does: overflow
and underflow to zero are range errors. -/
def roundParsed (neg : Bool) (n d : Nat) : Except GoErr GoFloat :=
  if n = 0 then .ok (.finite 0 0)
  else
    match roundTotal neg n d with
    | .inf _ => .error .rangeErr
    | .finite m k => if m = 0 then .error .rangeErr else .ok (.finite m k)
    | .nan => .ok .nan

/-- Round the exact dyadic value N·2^k as a parse result. -/
def roundDyadicParsed (neg : Bool) (N : Nat) (k : ℤ) : Except GoErr GoFloat :=
  if 0 ≤ k then roundParsed neg (N * Nat.pow 2 k.toNat) 1
  else roundParsed neg N (Nat.pow 2 (-k).toNat)

/-- The Go conversion float64(v) of an unsigned integer (rounds to
nearest, ties to even). -/
def floatOfNat (v : Nat) : GoFloat :=
  roundTotal false v 1

/-- IEEE addition of doubles (only the finite cases occur in this code). -/
def fadd : GoFloat → GoFloat → GoFloat
  | .finite m1 k1, .finite m2 k2 =>
      let kmin := min k1 k2
      let N : ℤ := m1 * (Nat.pow 2 (k1 - kmin).toNat : ℕ) + m2 * (Nat.pow 2 (k2 - kmin).toNat : ℕ)
      if 0 ≤ kmin then roundTotal (decide (N < 0)) (N.natAbs * Nat.pow 2 kmin.toNat) 1
      else roundTotal (decide (N < 0)) N.natAbs (Nat.pow 2 (-kmin).toNat)
  | .nan, _ => .nan
  | _, .nan => .nan
  | .inf b1, .inf b2 => if b1 = b2 then .inf b1 else .nan
  | .inf b, _ => .inf b
  | _, .inf b => .inf b

/-- IEEE division of doubles (only finite/power-of-two occurs here). -/
def fdiv : GoFloat → GoFloat → GoFloat
  | .finite m1 k1, .finite m2 k2 =>
      if m2 = 0 then (if m1 = 0 then .nan else .inf (m1 < 0))
      else
        let neg := (m1 < 0) ≠ (m2 < 0)
        let k := k1 - k2
        if m1 = 0 then .finite 0 0
        else if 0 ≤ k then roundTotal neg (m1.natAbs * Nat.pow 2 k.toNat) m2.natAbs
        else roundTotal neg m1.natAbs (m2.natAbs * Nat.pow 2 (-k).toNat)
  | .nan, _ => .nan
  | _, .nan => .nan
  | .inf _, .inf _ => .nan
  | .inf b, .finite m2 _ => .inf (b ≠ (m2 < 0))
  | .finite _ _, .inf _ => .finite 0 0

/-- math.Pow(16, k) for a natural k: the exact power of two 2^(4k)
(exactly representable, and math.Pow is exact on it). -/
def pow16 (k : Nat) : GoFloat :=
  .finite 1 (4 * k)

/-! ## strconv.ParseFloat model (64-bit) -/

/-- Numeric value of a list of digit characters in a base (characters
are assumed valid for the base, as produced by takeWhile). -/
def digitsVal (base : Nat) (l : List Char) : Nat :=
  l.foldl (fun acc c => acc * base + ((digitVal c).getD 0)) 0

/-- strconv.ParseFloat for 64 bits on an underscore-free string: sign,
the special spellings inf/infinity/nan, hexadecimal floats (which require
a p exponent), or decimal/scientific notation; the whole string must be
consumed; the exact mantissa-and-exponent value is rounded to the nearest
double, with overflow and underflow-to-zero as range errors. -/
def goParseFloat (s : List Char) : Except GoErr GoFloat :=
  if s = [] then .error .syntaxErr
  else
    let (neg, r0) : Bool × List Char :=
      match s with
      | '+' :: r => (false, r)
      | '-' :: r => (true, r)
      | _ => (false, s)
    let low := r0.map goLower
    if low = "inf".data ∨ low = "infinity".data then .ok (.inf neg)
    else if low = "nan".data then .ok .nan
    else
      match r0 with
      | '0' :: c1 :: r1 =>
        if goLower c1 = 'x' then
          -- hexadecimal mantissa with required binary exponent
          let a := r1.takeWhile isHexDigit
          let r2 := r1.drop a.length
          let (b, r3) : List Char × List Char :=
            match r2 with
            | '.' :: r2a => (r2a.takeWhile isHexDigit, r2a.drop (r2a.takeWhile isHexDigit).length)
            | _ => ([], r2)
          if a = [] ∧ b = [] then .error .syntaxErr
          else
            match r3 with
            | p :: r4 =>
              if goLower p = 'p' then
                let (eneg, r5) : Bool × List Char :=
                  match r4 with
                  | '+' :: r => (false, r)
                  | '-' :: r => (true, r)
                  | _ => (false, r4)
                let ds := r5.takeWhile isDigit
                if ds = [] ∨ r5.drop ds.length ≠ [] then .error .syntaxErr
                else
                  let mant := digitsVal 16 (a ++ b)
                  let e : ℤ := (if eneg then -(digitsVal 10 ds : ℤ) else (digitsVal 10 ds : ℤ))
                    - 4 * b.length
                  roundDyadicParsed neg mant e
              else .error .syntaxErr
            | [] => .error .syntaxErr
        else
          goParseFloatDecimal neg r0
      | _ => goParseFloatDecimal neg r0
where
  /-- The decimal/scientific branch. -/
  goParseFloatDecimal (neg : Bool) (r0 : List Char) : Except GoErr GoFloat :=
    let a := r0.takeWhile isDigit
    let r1 := r0.drop a.length
    let (b, r2) : List Char × List Char :=
      match r1 with
      | '.' :: r1a => (r1a.takeWhile isDigit, r1a.drop (r1a.takeWhile isDigit).length)
      | _ => ([], r1)
    if a = [] ∧ b = [] then .error .syntaxErr
    else
      let finish (e10 : ℤ) : Except GoErr GoFloat :=
        let mant := digitsVal 10 (a ++ b)
        let e : ℤ := e10 - b.length
        if 0 ≤ e then roundParsed neg (mant * Nat.pow 10 e.toNat) 1
        else roundParsed neg mant (Nat.pow 10 (-e).toNat)
      match r2 with
      | [] => finish 0
      | m :: r3 =>
        if m = 'e' ∨ m = 'E' then
          let (eneg, r4) : Bool × List Char :=
            match r3 with
            | '+' :: r => (false, r)
            | '-' :: r => (true, r)
            | _ => (false, r3)
          let ds := r4.takeWhile isDigit
          if ds = [] ∨ r4.drop ds.length ≠ [] then .error .syntaxErr
          else finish (if eneg then -(digitsVal 10 ds : ℤ) else (digitsVal 10 ds : ℤ))
        else .error .syntaxErr

/-! ## NumberValue conversions -/

/-- parseHexFloat of the value file: split the text after the 0x prefix
at the first dot; the integer part is parsed as a hex uint64 and
converted to float64; the fractional part is parsed the same way,
divided by 16 to the power of its digit count (each operation with IEEE
rounding), and added. -/
def parseHexFloat (s : List Char) : Except GoErr GoFloat :=
  let mantissaStr := s.drop 2
  let intPart := mantissaStr.takeWhile (· ≠ '.')
  let fracPart := (mantissaStr.drop intPart.length).drop 1
  let withInt : Except GoErr GoFloat :=
    if intPart ≠ [] then
      match goParseUint intPart 16 with
      | .error e => .error e
      | .ok v => .ok (floatOfNat v)
    else .ok (.finite 0 0)
  match withInt with
  | .error e => .error e
  | .ok mantissa =>
    if fracPart ≠ [] then
      match goParseUint fracPart 16 with
      | .error e => .error e
      | .ok v => .ok (fadd mantissa (fdiv (floatOfNat v) (pow16 fracPart.length)))
    else .ok mantissa

namespace NumberValue

/-- NumberValue.ToUint: ParseUint with base detection. -/
def ToUint (raw : List Char) : Except GoErr Nat :=
  goParseUint raw 0

/-- NumberValue.ToInt: ParseInt with base detection. -/
def ToInt (raw : List Char) : Except GoErr ℤ :=
  goParseInt raw

/-- NumberValue.ToFloat: strip underscores, then dispatch on the base
prefix; hex with a p exponent goes to ParseFloat, hex with a dot to
parseHexFloat, plain hex/octal/binary through ParseUint and the float64
conversion, everything else to ParseFloat. -/
def ToFloat (raw : List Char) : Except GoErr GoFloat :=
  let s := raw.filter (· ≠ '_')
  if 2 < s.length ∧ s.head? = some '0' then
    match s.get? 1 with
    | some c =>
      if c = 'x' ∨ c = 'X' then
        if s.contains 'p' ∨ s.contains 'P' then goParseFloat s
        else if s.contains '.' then parseHexFloat s
        else
          match goParseUint (s.drop 2) 16 with
          | .error e => .error e
          | .ok v => .ok (floatOfNat v)
      else if c = 'o' ∨ c = 'O' then
        match goParseUint (s.drop 2) 8 with
        | .error e => .error e
        | .ok v => .ok (floatOfNat v)
      else if c = 'b' ∨ c = 'B' then
        match goParseUint (s.drop 2) 2 with
        | .error e => .error e
        | .ok v => .ok (floatOfNat v)
      else goParseFloat s
    | none => goParseFloat s
  else goParseFloat s

/-- NumberValue.IsZero: the float conversion succeeds and compares equal
to zero. -/
def IsZero (raw : List Char) : Bool :=
  match ToFloat raw with
  | .ok f => f.isZeroVal
  | .error _ => false

end NumberValue

/-! ## strconv.Unquote model -/

/-- strconv.UnquoteChar: decode one (possibly escaped) character of a
quoted string body.  A bare quote character is rejected (the caller
ended the literal there); escapes follow the Go rules.  The Go function
can yield a raw byte for hex and octal escapes at or above 0x80, which
this character-level model represents as the code point of that byte. -/
def unquoteChar (quote : Char) : List Char → Except GoErr (Char × List Char)
  | [] => .error .syntaxErr
  | c :: rest =>
    if c = quote then .error .syntaxErr
    else if c ≠ '\\' then .ok (c, rest)
    else
      match rest with
      | [] => .error .syntaxErr
      | e :: r2 =>
        if e = 'a' then .ok ('\x07', r2)
        else if e = 'b' then .ok ('\x08', r2)
        else if e = 'f' then .ok ('\x0C', r2)
        else if e = 'n' then .ok ('\n', r2)
        else if e = 'r' then .ok ('\r', r2)
        else if e = 't' then .ok ('\t', r2)
        else if e = 'v' then .ok ('\x0B', r2)
        else if e = '\\' then .ok ('\\', r2)
        else if e = '\'' ∨ e = '"' then
          if e ≠ quote then .error .syntaxErr else .ok (e, r2)
        else if e = 'x' then
          match r2 with
          | h1 :: h2 :: r3 =>
            (match digitVal h1, digitVal h2 with
             | some d1, some d2 =>
                if d1 < 16 ∧ d2 < 16 then .ok (Char.ofNat (d1 * 16 + d2), r3)
                else .error .syntaxErr
             | _, _ => .error .syntaxErr)
          | _ => .error .syntaxErr
        else if '0' ≤ e ∧ e ≤ '7' then
          match r2 with
          | o2 :: o3 :: r3 =>
            if ('0' ≤ o2 ∧ o2 ≤ '7') ∧ ('0' ≤ o3 ∧ o3 ≤ '7') then
              let v := (e.toNat - '0'.toNat) * 64 + (o2.toNat - '0'.toNat) * 8
                + (o3.toNat - '0'.toNat)
              if v > 255 then .error .syntaxErr else .ok (Char.ofNat v, r3)
            else .error .syntaxErr
          | _ => .error .syntaxErr
        else if e = 'u' then
          match r2 with
          | h1 :: h2 :: h3 :: h4 :: r3 =>
            (match digitVal h1, digitVal h2, digitVal h3, digitVal h4 with
             | some d1, some d2, some d3, some d4 =>
                if d1 < 16 ∧ d2 < 16 ∧ d3 < 16 ∧ d4 < 16 then
                  let v := ((d1 * 16 + d2) * 16 + d3) * 16 + d4
                  if 0xD800 ≤ v ∧ v < 0xE000 then .error .syntaxErr
                  else .ok (Char.ofNat v, r3)
                else .error .syntaxErr
             | _, _, _, _ => .error .syntaxErr)
          | _ => .error .syntaxErr
        else if e = 'U' then
          match r2 with
          | h1 :: h2 :: h3 :: h4 :: h5 :: h6 :: h7 :: h8 :: r3 =>
            (match digitVal h1, digitVal h2, digitVal h3, digitVal h4,
                   digitVal h5, digitVal h6, digitVal h7, digitVal h8 with
             | some d1, some d2, some d3, some d4, some d5, some d6, some d7, some d8 =>
                if d1 < 16 ∧ d2 < 16 ∧ d3 < 16 ∧ d4 < 16 ∧ d5 < 16 ∧ d6 < 16
                    ∧ d7 < 16 ∧ d8 < 16 then
                  let v := ((((((d1 * 16 + d2) * 16 + d3) * 16 + d4) * 16 + d5) * 16 + d6)
                    * 16 + d7) * 16 + d8
                  if (0xD800 ≤ v ∧ v < 0xE000) ∨ v > 0x10FFFF then .error .syntaxErr
                  else .ok (Char.ofNat v, r3)
                else .error .syntaxErr
             | _, _, _, _, _, _, _, _ => .error .syntaxErr)
          | _ => .error .syntaxErr
        else .error .syntaxErr

/-- The double-quote decoding loop of strconv.unquote (the fuel is the
body length; each step consumes at least one character). -/
def unquoteRun (quote : Char) : Nat → List Char → Except GoErr (List Char)
  | _, [] => .ok []
  | 0, _ :: _ => .error .syntaxErr
  | fuel + 1, l =>
    match unquoteChar quote l with
    | .error e => .error e
    | .ok (c, rest) =>
      match unquoteRun quote fuel rest with
      | .error e => .error e
      | .ok cs => .ok (c :: cs)

/-- strconv.Unquote: strip matching quotes; backquoted strings take their
body verbatim (carriage returns removed, embedded backquotes rejected);
single- and double-quoted strings reject embedded newlines and decode
escapes, a single-quoted string having exactly one character. -/
def goUnquote (s : List Char) : Except GoErr (List Char) :=
  if s.length < 2 then .error .syntaxErr
  else
    match s.head?, s.getLast? with
    | some quote, some lastc =>
      if quote ≠ lastc then .error .syntaxErr
      else
        let inner := (s.drop 1).take (s.length - 2)
        if quote = '`' then
          if inner.contains '`' then .error .syntaxErr
          else .ok (inner.filter (· ≠ '\r'))
        else if quote = '"' ∨ quote = '\'' then
          if inner.contains '\n' then .error .syntaxErr
          else if quote = '\'' then
            match unquoteChar quote inner with
            | .error e => .error e
            | .ok (c, rest) => if rest ≠ [] then .error .syntaxErr else .ok [c]
          else unquoteRun quote inner.length inner
        else .error .syntaxErr
    | _, _ => .error .syntaxErr

/-! ## The free conversion functions over Value (capability dispatch) -/

/-- The lower-case value type names (ValueType.String in Go). -/
def valueTypeName : Value → List Char
  | .nilValue => "nil".data
  | .zeroValue => "zero".data
  | .booleanValue _ => "boolean".data
  | .numberValue _ => "number".data
  | .stringValue _ => "string".data
  | .identifierValue _ => "identifier".data

/-- The zero predicate IsZero: dispatches to the variant methods; a
variant without the capability (IdentifierValue) reports false.
NilValue.IsZero and ZeroValue.IsZero return true; BooleanValue.IsZero
compares the raw text with "false"; StringValue.IsZero is a raw length
below 2; NumberValue.IsZero goes through the float conversion. -/
def IsZero : Value → Bool
  | .zeroValue => true
  | .nilValue => true
  | .booleanValue raw => raw = "false".data
  | .numberValue raw => NumberValue.IsZero raw
  | .stringValue raw => raw.length < 2
  | .identifierValue _ => false

/-- The free ToString: only IdentifierValue (raw text unchanged) and
StringValue (strconv.Unquote) implement the capability; every other
variant is not string-convertible. -/
def ToString : Value → Except GoErr (List Char)
  | .identifierValue raw => .ok raw
  | .stringValue raw => goUnquote raw
  | v => .error (.notConvertible (valueTypeName v) "string".data)

/-- The free ToInt: only NumberValue implements the capability. -/
def ToInt : Value → Except GoErr ℤ
  | .numberValue raw => NumberValue.ToInt raw
  | v => .error (.notConvertible (valueTypeName v) "int".data)

/-- The free ToUint: only NumberValue implements the capability. -/
def ToUint : Value → Except GoErr Nat
  | .numberValue raw => NumberValue.ToUint raw
  | v => .error (.notConvertible (valueTypeName v) "uint".data)

/-- The free ToFloat: only NumberValue implements the capability. -/
def ToFloat : Value → Except GoErr GoFloat
  | .numberValue raw => NumberValue.ToFloat raw
  | v => .error (.notConvertible (valueTypeName v) "float".data)

/-- The free ToBool: only BooleanValue implements the capability, and
only the exact raw texts true and false convert. -/
def ToBool : Value → Except GoErr Bool
  | .booleanValue raw =>
      if raw = "true".data then .ok true
      else if raw = "false".data then .ok false
      else .error (.invalidBoolean raw)
  | v => .error (.notConvertible (valueTypeName v) "bool".data)

/-- The exact rational value of a finite double (none for infinities and
NaN); used to state numeric agreement semantically. -/
def GoFloat.toRatVal : GoFloat → Option ℚ
  | .finite m k => some ((m : ℚ) * (2 : ℚ) ^ k)
  | _ => none

/-- unicode.IsLetter agrees with ASCII alphabetic classification on every
ASCII character, which is all the concrete statements below use. -/
def asciiLetter (c : Char) : Bool := c.isAlpha

/-! ## Claim C3: the zero predicate -/

/-- C3 counterexample: the claim states that the zero predicate returns
false for every Nil value, but NilValue.IsZero in the code returns true
(and the repository test for input nil expects wantZero = true). -/
theorem C3_nil_iszero_true : IsZero Value.nilValue = true := by decide

/-- C3 amended: the zero predicate returns true for the synthesized Zero
value; for a Boolean value true iff its raw text is "false"; for a Number
value true iff its float conversion succeeds and the result compares
equal to zero; true (not false) for every Nil value; false for every
Identifier value; and for a String value true iff its raw text is shorter
than two characters, hence false for every String the lexer can produce
(whose raw text keeps both quotes). -/
theorem C3_zero_predicate :
    IsZero Value.zeroValue = true
    ∧ (∀ raw, IsZero (Value.booleanValue raw) = true ↔ raw = "false".data)
    ∧ (∀ raw, IsZero (Value.numberValue raw) = true ↔
        ∃ f, NumberValue.ToFloat raw = .ok f ∧ f.isZeroVal = true)
    ∧ IsZero Value.nilValue = true
    ∧ (∀ raw, IsZero (Value.identifierValue raw) = false)
    ∧ (∀ raw, 2 ≤ raw.length → IsZero (Value.stringValue raw) = false) := by
  refine ⟨rfl, ?_, ?_, rfl, fun _ => rfl, ?_⟩
  · intro raw
    simp [IsZero]
  · intro raw
    unfold IsZero NumberValue.IsZero
    cases h : NumberValue.ToFloat raw <;> simp [h]
  · intro raw h
    simp [IsZero]
    omega

/-- C3 witness: the string clause applied at the two-character raw text
of an empty quoted string. -/
theorem C3_zero_predicate_witness :
    (2 ≤ ("\"\"".data : List Char).length) ∧
      IsZero (Value.stringValue "\"\"".data) = false :=
  ⟨by decide, C3_zero_predicate.2.2.2.2.2 "\"\"".data (by decide)⟩

/-! ## Claim C5: the string conversion -/

theorem contains_eq_false_of_not_mem {l : List Char} {a : Char}
    (h : ∀ c ∈ l, c ≠ a) : l.contains a = false := by
  induction l with
  | nil => rfl
  | cons x xs ih =>
      have hx := h x (by simp)
      have hxs := ih (fun c hc => h c (by simp [hc]))
      rw [List.contains_cons, hxs, Bool.or_false, beq_eq_false_iff_ne]
      exact Ne.symm hx

theorem unquoteChar_plain (quote c : Char) (rest : List Char)
    (hq : c ≠ quote) (hb : c ≠ '\\') :
    unquoteChar quote (c :: rest) = .ok (c, rest) := by
  simp [unquoteChar, hq, hb]

theorem unquoteRun_plain (quote : Char) :
    ∀ (fuel : Nat) (body : List Char), body.length ≤ fuel →
      (∀ c ∈ body, c ≠ quote ∧ c ≠ '\\') →
      unquoteRun quote fuel body = .ok body := by
  intro fuel
  induction fuel with
  | zero =>
      intro body hlen _
      cases body with
      | nil => rfl
      | cons c rest => simp at hlen
  | succ n ih =>
      intro body hlen hplain
      cases body with
      | nil => rfl
      | cons c rest =>
          have hc := hplain c (by simp)
          have hr := ih rest (by simpa using Nat.le_of_succ_le_succ hlen)
            (fun x hx => hplain x (by simp [hx]))
          simp [unquoteRun, unquoteChar_plain quote c rest hc.1 hc.2, hr]

theorem goUnquote_quoted (quote : Char) (body : List Char)
    (hq : quote = '"' ∨ quote = '\'') :
    goUnquote (quote :: body ++ [quote]) =
      (if body.contains '\n' then .error .syntaxErr
       else if quote = '\'' then
        match unquoteChar quote body with
        | .error e => .error e
        | .ok (c, rest) => if rest ≠ [] then .error .syntaxErr else .ok [c]
       else unquoteRun quote body.length body) := by
  have hlen : (quote :: body ++ [quote]).length = body.length + 2 := by
    simp
  have hhead : (quote :: body ++ [quote]).head? = some quote := rfl
  have hlast : (quote :: body ++ [quote]).getLast? = some quote := by
    rw [show quote :: body ++ [quote] = (quote :: body) ++ [quote] from rfl]
    exact List.getLast?_concat _
  have hinner : ((quote :: body ++ [quote]).drop 1).take
      ((quote :: body ++ [quote]).length - 2) = body := by
    simp [hlen, List.take_left']
  have hnotlt : ¬ (quote :: body ++ [quote]).length < 2 := by omega
  have hback : quote ≠ '`' := by rcases hq with h | h <;> subst h <;> decide
  have hqq : quote = '"' ∨ quote = '\'' := hq
  unfold goUnquote
  rw [if_neg hnotlt, hhead, hlast]
  simp only [if_neg (by simp : ¬ quote ≠ quote), hinner, if_neg hback, if_pos hqq]

/-- C5 counterexample: the claim states that the string conversion of a
Number value returns the raw text unchanged, but NumberValue has no
string capability, so the free conversion fails with not-convertible
(the repository test for input -42 expects exactly this failure). -/
theorem C5_number_toString_fails :
    ToString (Value.numberValue "23".data)
      = .error (.notConvertible "number".data "string".data) := by decide

/-- C5 amended: the string conversion returns the raw text unchanged on
Identifier values only; on Number values (and Nil, Zero, Boolean) it
fails with a not-convertible error; on String values it applies the Go
unquoting rules, so a double-quoted lexer string whose body has no
backslash, quote or newline is returned with the quotes removed,
recognized backslash escapes are interpreted, a single-quoted string of
exactly one plain character succeeds, and a single-quoted string with
two or more body characters fails (Go single-quote literals hold exactly
one character). -/
theorem C5_toString_spec :
    (∀ raw, ToString (Value.identifierValue raw) = .ok raw)
    ∧ (∀ raw, ToString (Value.numberValue raw)
        = .error (.notConvertible "number".data "string".data))
    ∧ ToString Value.nilValue = .error (.notConvertible "nil".data "string".data)
    ∧ ToString Value.zeroValue = .error (.notConvertible "zero".data "string".data)
    ∧ (∀ raw, ToString (Value.booleanValue raw)
        = .error (.notConvertible "boolean".data "string".data))
    ∧ (∀ raw, ToString (Value.stringValue raw) = goUnquote raw)
    ∧ (∀ body, (∀ c ∈ body, c ≠ '"' ∧ c ≠ '\\' ∧ c ≠ '\n') →
        ToString (Value.stringValue ('"' :: body ++ ['"'])) = .ok body)
    ∧ (∀ c, c ≠ '\'' → c ≠ '\\' → c ≠ '\n' →
        ToString (Value.stringValue ['\'', c, '\'']) = .ok [c])
    ∧ (∀ body, 2 ≤ body.length → (∀ c ∈ body, c ≠ '\'' ∧ c ≠ '\\') →
        ∃ e, ToString (Value.stringValue ('\'' :: body ++ ['\''])) = .error e)
    ∧ ToString (Value.stringValue "\"a\\nb\"".data) = .ok "a\nb".data := by
  refine ⟨fun _ => rfl, fun _ => rfl, rfl, rfl, fun _ => rfl, fun _ => rfl, ?_, ?_, ?_, by decide⟩
  · intro body hplain
    show goUnquote ('"' :: body ++ ['"']) = .ok body
    rw [goUnquote_quoted '"' body (Or.inl rfl)]
    rw [if_neg (by
      simp only [Bool.not_eq_true]
      exact contains_eq_false_of_not_mem (fun c hc => (hplain c hc).2.2))]
    rw [if_neg (by decide)]
    exact unquoteRun_plain '"' body.length body le_rfl
      (fun c hc => ⟨(hplain c hc).1, (hplain c hc).2.1⟩)
  · intro c hq hb hn
    show goUnquote ('\'' :: [c] ++ ['\'']) = .ok [c]
    rw [goUnquote_quoted '\'' [c] (Or.inr rfl)]
    rw [if_neg (by simp [Ne.symm hn]), if_pos rfl, unquoteChar_plain '\'' c [] hq hb]
    rfl
  · intro body hlen hplain
    show ∃ e, goUnquote ('\'' :: body ++ ['\'']) = .error e
    rw [goUnquote_quoted '\'' body (Or.inr rfl)]
    by_cases hn : body.contains '\n'
    · exact ⟨.syntaxErr, by rw [if_pos hn]⟩
    · rw [if_neg hn, if_pos rfl]
      cases body with
      | nil => simp at hlen
      | cons c rest =>
          have hc := hplain c (by simp)
          rw [unquoteChar_plain '\'' c rest hc.1 hc.2]
          have : rest ≠ [] := by
            cases rest with
            | nil => simp at hlen
            | cons _ _ => simp
          exact ⟨.syntaxErr, by simp [this]⟩

/-- C5 witness: the double-quote clause at body hi, and the single-quote
failure clause at body ab. -/
theorem C5_toString_spec_witness :
    ToString (Value.stringValue "\"hi\"".data) = .ok "hi".data
    ∧ ∃ e, ToString (Value.stringValue "'ab'".data) = .error e :=
  ⟨C5_toString_spec.2.2.2.2.2.2.1 "hi".data (by decide),
   C5_toString_spec.2.2.2.2.2.2.2.2.1 "ab".data (by decide) (by decide)⟩

/-! ## Claim C7: hexadecimal float conversion -/

/-- C7 counterexample: the claim states that a hex Number with a
fractional part and no exponent converts to the IEEE value of the hex
fraction, but for 0x10000000000000000.0 (whose IEEE value is exactly
2^64) the conversion fails with a range error, because parseHexFloat
parses the integer digit group through a 64-bit ParseUint. -/
theorem C7_hexFloat_overflow :
    NumberValue.ToFloat "0x10000000000000000.0".data = .error .rangeErr
    ∧ GoFloat.toRatVal (.finite 1 64) = some ((2 : ℚ) ^ (64 : ℕ)) := by
  refine ⟨by decide, ?_⟩
  simp [GoFloat.toRatVal]
  norm_num

/-- C7 amended: the conversion of a hex Number with a fractional part
and no exponent computes float64(integer part) plus
float64(fraction part) divided by 16 to the digit count, each operation
with IEEE double rounding, and fails when either digit group exceeds
uint64; on the claim's examples it agrees exactly with the IEEE value:
0x23.1 is 561·2^-4 = 35.0625, 0x1.8p1 is 3.0, and 0x1.8p-1 is
3·2^-2 = 0.75. -/
theorem C7_hexFloat_values :
    NumberValue.ToFloat "0x23.1".data = .ok (.finite 561 (-4))
    ∧ GoFloat.toRatVal (.finite 561 (-4)) = some (35.0625 : ℚ)
    ∧ NumberValue.ToFloat "0x1.8p1".data = .ok (.finite 3 0)
    ∧ GoFloat.toRatVal (.finite 3 0) = some (3 : ℚ)
    ∧ NumberValue.ToFloat "0x1.8p-1".data = .ok (.finite 3 (-2))
    ∧ GoFloat.toRatVal (.finite 3 (-2)) = some (0.75 : ℚ) := by
  refine ⟨by decide, ?_, by decide, ?_, by decide, ?_⟩ <;>
    · simp only [GoFloat.toRatVal, Option.some_inj]
      norm_num

/-! ## Characterization lemmas for the parser operations -/

/-- The bracket events updateState appends, per state transition. -/
def updateEvents : ParserState → ParserState → List ParserEvent
  | .start, .ordered => [.listStart]
  | .start, .labeled => [.mapStart]
  | .ordered, .labeled => [.listEnd, .mapStart]
  | .ordered, .eofState => [.listEnd]
  | .labeled, .eofState => [.mapEnd]
  | _, _ => []

@[simp] theorem pemit_current (ev : ParserEvent) (s : PState) :
    (pemit ev s).current = s.current := rfl
@[simp] theorem pemit_hasToken (ev : ParserEvent) (s : PState) :
    (pemit ev s).hasToken = s.hasToken := rfl
@[simp] theorem pemit_rest (ev : ParserEvent) (s : PState) :
    (pemit ev s).rest = s.rest := rfl
@[simp] theorem pemit_peeked (ev : ParserEvent) (s : PState) :
    (pemit ev s).peeked = s.peeked := rfl
@[simp] theorem pemit_state (ev : ParserEvent) (s : PState) :
    (pemit ev s).state = s.state := rfl
@[simp] theorem pemit_allowOrdered (ev : ParserEvent) (s : PState) :
    (pemit ev s).allowOrdered = s.allowOrdered := rfl
@[simp] theorem pemit_events (ev : ParserEvent) (s : PState) :
    (pemit ev s).events = s.events ++ [ev] := rfl

@[simp] theorem updateState_current (ns : ParserState) (s : PState) :
    (updateState ns s).current = s.current := by
  unfold updateState; split_ifs <;> rfl
@[simp] theorem updateState_hasToken (ns : ParserState) (s : PState) :
    (updateState ns s).hasToken = s.hasToken := by
  unfold updateState; split_ifs <;> rfl
@[simp] theorem updateState_rest (ns : ParserState) (s : PState) :
    (updateState ns s).rest = s.rest := by
  unfold updateState; split_ifs <;> rfl
@[simp] theorem updateState_peeked (ns : ParserState) (s : PState) :
    (updateState ns s).peeked = s.peeked := by
  unfold updateState; split_ifs <;> rfl
@[simp] theorem updateState_allowOrdered (ns : ParserState) (s : PState) :
    (updateState ns s).allowOrdered = s.allowOrdered := by
  unfold updateState; split_ifs <;> rfl
@[simp] theorem updateState_state (ns : ParserState) (s : PState) :
    (updateState ns s).state = ns := by
  unfold updateState; split_ifs <;> rfl
@[simp] theorem updateState_events (ns : ParserState) (s : PState) :
    (updateState ns s).events = s.events ++ updateEvents s.state ns := by
  cases hs : s.state <;> cases ns <;>
    simp [updateState, updateEvents, hs]

theorem padvance_peeked_some {s : PState} {t : Token} (h : s.peeked = some t) :
    padvance s = ({ s with current := t, peeked := none, hasToken := true }, true) := by
  unfold padvance; rw [h]

theorem padvance_rest_cons {s : PState} {t : Token} {ts : List Token}
    (h1 : s.peeked = none) (h2 : s.rest = t :: ts) :
    padvance s = ({ s with current := t, rest := ts, hasToken := true }, true) := by
  unfold padvance; rw [h1, h2]

theorem padvance_empty {s : PState} (h1 : s.peeked = none) (h2 : s.rest = []) :
    padvance s = ({ s with hasToken := false }, false) := by
  unfold padvance; rw [h1, h2]

/-! ## Claim C2: empty segments -/

/-- The token types accepted by the isValue check of the parser. -/
def isValueType : TokenType → Bool
  | .identifier | .number | .string | .trueKw | .falseKw | .nilKw => true
  | _ => false

/-- C2 counterexample: the claim states that every bare-separator field
segment yields an explicit Zero FieldValue, but on a=1; the parser emits
an error event (the repository test expects exactly "expected value, got
EOF") and no Zero value at all; and on a=1,, the bare comma after the
labeled field also yields no Zero but the error "ordered value not
allowed here" (likewise pinned by the repository tests). -/
theorem C2_list_empty_segment_errors :
    Parse asciiLetter "a=1;".data =
      [.mapStart, .mapKey (some (.identifierValue "a".data)),
       .listStart, .value (some (.numberValue "1".data)),
       .error ⟨4, 5⟩ "expected value, got EOF".data]
    ∧ ParserEvent.value (some .zeroValue) ∉ Parse asciiLetter "a=1;".data
    ∧ Parse asciiLetter "a=1,,".data =
      [.mapStart, .mapKey (some (.identifierValue "a".data)),
       .value (some (.numberValue "1".data)),
       .error ⟨4, 5⟩ "ordered value not allowed here".data]
    ∧ ParserEvent.value (some .zeroValue) ∉ Parse asciiLetter "a=1,,".data := by
  exact ⟨by decide, by decide, by decide, by decide⟩

/-- C2 amended: an empty top-level comma segment yields an explicit Zero
FieldValue exactly when ordered values are allowed at that point: with
allowOrdered enabled and no labeled field parsed yet (parser state Start
or Ordered) the bare comma produces the Zero value; otherwise (ordered
values disabled, or a labeled field already parsed) it produces the
"ordered value not allowed here" error event.  An empty ListSeparator
segment inside a semicolon list never yields a Zero: the parser stops
with an expected-value error.  In all cases the empty segment is not
silently dropped: it yields either the explicit Zero value or an error
event. -/
theorem C2_empty_segments :
    Parse asciiLetter ",".data = [.listStart, .value (some .zeroValue), .listEnd]
    ∧ (∀ (fuel : Nat) (s : PState), s.current.typ = .fieldSeparator →
        s.allowOrdered = true → (s.state = .start ∨ s.state = .ordered) →
        ∃ s2, parseField fuel s = (s2, true) ∧
          s2.events = s.events ++ (if s.state = .start then [.listStart] else [])
            ++ [.value (some .zeroValue)])
    ∧ (∀ (fuel : Nat) (s : PState), s.current.typ = .fieldSeparator →
        (s.allowOrdered = false ∨ s.state.toNat > ParserState.ordered.toNat) →
        parseField fuel s =
          (perrorf "ordered value not allowed here".data s, false))
    ∧ (∀ (fuel : Nat) (s : PState) (t : Token) (rest : List Token),
        s.hasToken = true → s.current.typ = .listSeparator →
        s.peeked = none → s.rest = t :: rest → isValueType t.typ = false →
        ∃ s2, parseListLoop (fuel + 1) s = (s2, false) ∧
          s2.events = s.events ++
            [.error t.pos ("expected value, got ".data ++ typeName t.typ)]) := by
  refine ⟨by decide, ?_, ?_, ?_⟩
  · intro fuel s hcur hallow hstate
    refine ⟨pemit (.value (some .zeroValue)) (updateState .ordered s), ?_, ?_⟩
    · unfold parseField
      rw [hcur]
      unfold parseFieldOrdered
      rw [if_neg (by rcases hstate with hs | hs <;> simp [hallow, hs, ParserState.toNat])]
      rw [if_pos (by simp [hcur])]
    · rcases hstate with hs | hs <;> simp [hs, updateEvents]
  · intro fuel s hcur hbad
    unfold parseField
    rw [hcur]
    unfold parseFieldOrdered
    rw [if_pos (show (!s.allowOrdered ||
        decide (s.state.toNat > ParserState.ordered.toNat)) = true by
      rcases hbad with hb | hb
      · rw [hb]
        rfl
      · simp [hb])]
  · intro fuel s t rest hhas hcur hpeek hrest hval
    rcases t with ⟨typ, pos, val⟩
    refine ⟨perrorf ("expected value, got ".data ++ typeName typ)
        ({ s with current := ⟨typ, pos, val⟩, rest := rest, hasToken := true }), ?_,
      by simp [perrorf]⟩
    unfold parseListLoop
    rw [if_pos (by simp [hhas, hcur])]
    rw [padvance_rest_cons hpeek hrest]
    cases typ <;> simp_all [isValueType, isValue, perrorf, pemit]

/-- C2 witness: the Zero clause applied to a parser sitting on a
FieldSeparator in the start state, the error clause applied to one in
the labeled state, and the list clause applied to a parser sitting on a
ListSeparator whose next token is EOF. -/
theorem C2_empty_segments_witness :
    (∃ s2, parseField 5 (⟨true, [⟨.eof, ⟨1, 2⟩, []⟩], none,
        ⟨.fieldSeparator, ⟨0, 1⟩, ",".data⟩, true, .start, []⟩ : PState) = (s2, true) ∧
      s2.events = [.listStart, .value (some .zeroValue)])
    ∧ parseField 5 (⟨true, [⟨.eof, ⟨4, 5⟩, []⟩], none,
        ⟨.fieldSeparator, ⟨3, 4⟩, ",".data⟩, true, .labeled, []⟩ : PState) =
      (perrorf "ordered value not allowed here".data
        (⟨true, [⟨.eof, ⟨4, 5⟩, []⟩], none,
          ⟨.fieldSeparator, ⟨3, 4⟩, ",".data⟩, true, .labeled, []⟩ : PState), false)
    ∧ (∃ s2, parseListLoop (5 + 1) (⟨true, [⟨.eof, ⟨4, 5⟩, []⟩], none,
        ⟨.listSeparator, ⟨3, 4⟩, ";".data⟩, true, .labeled, []⟩ : PState) = (s2, false) ∧
      s2.events = [.error ⟨4, 5⟩ "expected value, got EOF".data]) :=
  ⟨C2_empty_segments.2.1 5 _ rfl rfl (Or.inl rfl),
   C2_empty_segments.2.2.1 5 _ rfl (Or.inr (by decide)),
   C2_empty_segments.2.2.2 5 _ ⟨.eof, ⟨4, 5⟩, []⟩ [] rfl rfl rfl rfl (by decide)⟩

/-! ## Scanner metatheory: termination measure, positions, spans -/

/-- Whether a token ends the stream (Error or EOF). -/
def terminalTok (t : Token) : Bool :=
  t.typ = .error || t.typ = .eof

/-- UTF-8 byte length of a character sequence. -/
def utf8Len (l : List Char) : Nat :=
  (l.map Char.utf8Size).sum

/-- A token's raw text is the verbatim span of the input whose preceding
prefix has exactly the token's byte offset. -/
def SpanOK (input : List Char) (t : Token) : Prop :=
  ∃ pre post, input = pre ++ t.val ++ post ∧ t.pos.offset = utf8Len pre

/-- Scanner state invariant: indices in range and byte offsets coherent
with the consumed prefixes. -/
def LInv (l : LState) : Prop :=
  l.startIdx ≤ l.idx ∧ l.idx ≤ l.input.length
  ∧ l.start.offset = utf8Len (l.input.take l.startIdx)
  ∧ l.pos.offset = utf8Len (l.input.take l.idx)

/-- Rank of the lexTop state by pending character: a dispatch without
consumption can pass through lexNumber (two further steps on a digit)
or lexString (one) before a character is consumed. -/
def rkTop : Option Char → Nat
  | none => 1
  | some c =>
      if isNumericSign c then 2
      else if isDigit c then 3
      else if isStringStart c then 2
      else 1

/-- Rank of lexDecimalDigits: it may hand over to the fraction or
exponent scanners, or emit and return to lexTop. -/
def rkDD : Option Char → Nat
  | some c =>
      if isDigit c || c = '_' then 1
      else if c = '.' || c = 'e' || c = 'E' then 2
      else rkTop (some c) + 1
  | none => rkTop none + 1

/-- Rank of every scanner state: an upper bound on the number of steps
the scanner can take at this state before consuming a character or
halting, used in the termination measure. -/
def rk (fn : LexFn) (c? : Option Char) : Nat :=
  match fn with
  | .top => rkTop c?
  | .number =>
      (match c? with
       | some c => if isNumericSign c || c = '0' then 1 else rkDD c? + 1
       | none => rkDD none + 1)
  | .decimalDigits => rkDD c?
  | .hexDigits | .octalDigits | .binaryDigits => rkTop c? + 2
  | .stringStart | .stringContent _ | .stringEscape _ => 1
  | .decimalFraction | .hexFraction =>
      (match c? with
       | none => rkTop none + 2
       | some _ => 1)
  | .exponent | .hexExponent => 1
  | _ => rkTop c? + 1

/-- The scanner's termination measure: six per unread character plus the
state rank. -/
def lexMeasure (fn : LexFn) (l : LState) : Nat :=
  6 * (l.input.length - l.idx) + rk fn (lpeek l)

theorem rkTop_le (c? : Option Char) : 1 ≤ rkTop c? ∧ rkTop c? ≤ 3 := by
  cases c? with
  | none => simp [rkTop]
  | some c => simp only [rkTop]; split_ifs <;> omega

theorem rkDD_le (c? : Option Char) : 1 ≤ rkDD c? ∧ rkDD c? ≤ 4 := by
  cases c? with
  | none => have := rkTop_le (none : Option Char); simp only [rkDD]; omega
  | some c =>
      have := rkTop_le (some c)
      simp only [rkDD]
      split_ifs <;> omega

theorem rk_le (fn : LexFn) (c? : Option Char) : 1 ≤ rk fn c? ∧ rk fn c? ≤ 5 := by
  cases c? with
  | none =>
      have h1 := rkTop_le (none : Option Char)
      have hdd := rkDD_le (none : Option Char)
      cases fn <;> simp only [rk] <;> omega
  | some c =>
      have h1 := rkTop_le (some c)
      have hdd := rkDD_le (some c)
      cases fn <;> simp only [rk] <;> (try split_ifs) <;> omega

theorem isDigit_not_sign {c : Char} (h : isDigit c = true) : isNumericSign c = false := by
  unfold isNumericSign
  simp only [Bool.or_eq_false_iff, decide_eq_false_iff_not]
  constructor <;> rintro rfl <;> exact absurd h (by decide)

theorem lpeek_head {l : LState} {c : Char} (h : lpeek l = some c) :
    l.idx < l.input.length := by
  unfold lpeek at h
  by_contra hlt
  rw [List.drop_eq_nil_of_le (by omega)] at h
  simp at h

/-- The successor state after consuming the peeked character. -/
def lstep (c : Char) (l : LState) : LState :=
  { l with idx := l.idx + 1, pos := ⟨l.pos.offset + c.utf8Size, l.pos.column + 1⟩ }

theorem lnext_of_lpeek {l : LState} {c : Char} (h : lpeek l = some c) :
    lnext l = some (c, lstep c l) := by
  unfold lnext lstep
  unfold lpeek at h
  rw [h]

theorem lnext_none_of_lpeek {l : LState} (h : lpeek l = none) : lnext l = none := by
  unfold lnext
  unfold lpeek at h
  rw [h]

theorem utf8Len_append (a b : List Char) :
    utf8Len (a ++ b) = utf8Len a + utf8Len b := by
  simp [utf8Len]

theorem lpeek_eq_getElem (l : LState) : lpeek l = l.input[l.idx]? := by
  unfold lpeek
  exact List.head?_drop l.input l.idx

theorem take_succ_of_lpeek {l : LState} {c : Char} (h : lpeek l = some c) :
    l.input.take (l.idx + 1) = l.input.take l.idx ++ [c] := by
  have hget : l.input[l.idx]? = some c := by rw [← lpeek_eq_getElem]; exact h
  rw [List.take_succ, hget]
  rfl

theorem drop_cons_of_lpeek {l : LState} {c : Char} (h : lpeek l = some c) :
    l.input.drop l.idx = c :: l.input.drop (l.idx + 1) := by
  have hget : l.input[l.idx]? = some c := by rw [← lpeek_eq_getElem]; exact h
  have hlt := lpeek_head h
  rw [List.drop_eq_getElem_cons hlt]
  have : l.input[l.idx] = c := by
    have := List.getElem?_eq_getElem hlt
    rw [this] at hget
    exact Option.some_injective _ hget
  rw [this]

theorem lnext_inv {l : LState} {c : Char} (h : lpeek l = some c) (inv : LInv l) :
    LInv (lstep c l) := by
  obtain ⟨i1, i2, i3, i4⟩ := inv
  have hlt := lpeek_head h
  refine ⟨by simp [lstep]; omega, by simp [lstep]; omega, by simpa [lstep] using i3, ?_⟩
  show l.pos.offset + c.utf8Size = utf8Len (l.input.take (l.idx + 1))
  rw [take_succ_of_lpeek h, utf8Len_append, ← i4]
  simp [utf8Len]

theorem lignore_inv {l : LState} (inv : LInv l) : LInv (lignore l) := by
  obtain ⟨i1, i2, i3, i4⟩ := inv
  exact ⟨le_refl _, i2, i4, i4⟩

theorem lemit_inv {l : LState} (typ : TokenType) (inv : LInv l) :
    LInv (lemit typ l).2 := by
  obtain ⟨i1, i2, i3, i4⟩ := inv
  exact ⟨le_refl _, i2, i4, i4⟩

theorem lemit_span {l : LState} (typ : TokenType) (inv : LInv l) :
    SpanOK l.input (lemit typ l).1 := by
  obtain ⟨i1, i2, i3, i4⟩ := inv
  refine ⟨l.input.take l.startIdx, l.input.drop l.idx, ?_, i3⟩
  show l.input = l.input.take l.startIdx ++ ltext l ++ l.input.drop l.idx
  unfold ltext
  rw [List.append_assoc]
  have h1 : (l.input.drop l.startIdx).take (l.idx - l.startIdx) ++ l.input.drop l.idx
      = l.input.drop l.startIdx := by
    have : l.input.drop l.idx = (l.input.drop l.startIdx).drop (l.idx - l.startIdx) := by
      rw [List.drop_drop]
      congr 1
      omega
    rw [this, List.take_append_drop]
  rw [h1, List.take_append_drop]

@[simp] theorem lstep_input (c : Char) (l : LState) : (lstep c l).input = l.input := rfl
@[simp] theorem lstep_idx (c : Char) (l : LState) : (lstep c l).idx = l.idx + 1 := rfl
@[simp] theorem lstep_startIdx (c : Char) (l : LState) :
    (lstep c l).startIdx = l.startIdx := rfl
@[simp] theorem lemit_input (typ : TokenType) (l : LState) :
    (lemit typ l).2.input = l.input := rfl
@[simp] theorem lemit_idx (typ : TokenType) (l : LState) : (lemit typ l).2.idx = l.idx := rfl
@[simp] theorem lemit_typ (typ : TokenType) (l : LState) : (lemit typ l).1.typ = typ := rfl
@[simp] theorem lignore_input (l : LState) : (lignore l).input = l.input := rfl
@[simp] theorem lignore_idx (l : LState) : (lignore l).idx = l.idx := rfl
@[simp] theorem lstep_start (c : Char) (l : LState) : (lstep c l).start = l.start := rfl
@[simp] theorem lemit_startIdx (typ : TokenType) (l : LState) :
    (lemit typ l).2.startIdx = l.idx := rfl
@[simp] theorem lemit_start (typ : TokenType) (l : LState) :
    (lemit typ l).2.start = l.pos := rfl
@[simp] theorem lemit_tokpos (typ : TokenType) (l : LState) :
    (lemit typ l).1.pos = l.start := rfl
@[simp] theorem lemit_tokval (typ : TokenType) (l : LState) :
    (lemit typ l).1.val = ltext l := rfl
@[simp] theorem lemit_pos (typ : TokenType) (l : LState) :
    (lemit typ l).2.pos = l.pos := rfl

theorem lpeek_congr {l l2 : LState} (hinp : l2.input = l.input) (hidx : l2.idx = l.idx) :
    lpeek l2 = lpeek l := by
  unfold lpeek
  rw [hinp, hidx]

/-- Any transition that consumed at least one character shrinks the measure. -/
theorem lexMeasure_consume {l l2 : LState} {c : Char} (h : lpeek l = some c)
    (fn1 fn2 : LexFn) (hinp : l2.input = l.input) (hidx : l.idx < l2.idx) :
    lexMeasure fn2 l2 < lexMeasure fn1 l := by
  have hlt := lpeek_head h
  have h2 := rk_le fn2 (lpeek l2)
  have h1 := rk_le fn1 (lpeek l)
  unfold lexMeasure
  rw [hinp]
  omega

/-- A transition that did not consume shrinks the measure when the rank
drops at the pending character. -/
theorem lexMeasure_rank {l l2 : LState} (fn1 fn2 : LexFn)
    (hinp : l2.input = l.input) (hidx : l2.idx = l.idx)
    (hrk : rk fn2 (lpeek l) < rk fn1 (lpeek l)) :
    lexMeasure fn2 l2 < lexMeasure fn1 l := by
  unfold lexMeasure
  rw [hinp, hidx, lpeek_congr hinp hidx]
  omega

section LexerMeta

variable (letter : Char → Bool)

/-- The step obligations: a halting step emits exactly one terminal
token; a continuing step keeps the input, shrinks the measure, preserves
the state invariant and emits only non-terminal tokens whose raw text is
the exact input span at their recorded byte offset. -/
def StepOK (fn : LexFn) (l : LState) : Prop :=
  match lexStep letter fn l with
  | (ts, none) => ∃ t, ts = [t] ∧ terminalTok t = true
  | (ts, some (fn2, l2)) =>
      l2.input = l.input ∧ lexMeasure fn2 l2 < lexMeasure fn l ∧
      (LInv l → LInv l2) ∧
      (LInv l → ∀ t ∈ ts, terminalTok t = false ∧ SpanOK l.input t)

theorem stepOK_stringStart (l : LState) : StepOK letter .stringStart l := by
  unfold StepOK
  simp only [lexStep]
  unfold lexString
  cases hpk : lpeek l with
  | none =>
      rw [lnext_none_of_lpeek hpk]
      exact ⟨_, rfl, rfl⟩
  | some ch =>
      rw [lnext_of_lpeek hpk]
      exact ⟨rfl, lexMeasure_consume hpk _ _ rfl (by simp only [lstep_idx, lemit_idx, lignore_idx]; omega), fun inv => lnext_inv hpk inv,
        fun _ t ht => by simp at ht⟩

theorem stepOK_stringContent (q : Char) (l : LState) : StepOK letter (.stringContent q) l := by
  unfold StepOK
  simp only [lexStep]
  unfold lexStringContent
  cases hpk : lpeek l with
  | none =>
      rw [lnext_none_of_lpeek hpk]
      exact ⟨_, rfl, rfl⟩
  | some ch =>
      rw [lnext_of_lpeek hpk]
      by_cases hq : ch = q
      · subst hq
        simp only [if_pos rfl]
        refine ⟨rfl, lexMeasure_consume hpk _ _ rfl (by simp only [lstep_idx, lemit_idx, lignore_idx]; omega), ?_, ?_⟩
        · intro inv; exact lemit_inv _ (lnext_inv hpk inv)
        · intro inv t ht
          simp only [List.mem_singleton] at ht
          subst ht
          exact ⟨rfl, lemit_span _ (lnext_inv hpk inv)⟩
      · by_cases hb : ch = '\\'
        · subst hb
          simp only [if_neg hq, if_pos rfl]
          exact ⟨rfl, lexMeasure_consume hpk _ _ rfl (by simp only [lstep_idx, lemit_idx, lignore_idx]; omega),
            fun inv => lnext_inv hpk inv, fun _ t ht => by simp at ht⟩
        · simp only [if_neg hq, if_neg hb]
          exact ⟨rfl, lexMeasure_consume hpk _ _ rfl (by simp only [lstep_idx, lemit_idx, lignore_idx]; omega),
            fun inv => lnext_inv hpk inv, fun _ t ht => by simp at ht⟩

theorem stepOK_stringEscape (q : Char) (l : LState) : StepOK letter (.stringEscape q) l := by
  unfold StepOK
  simp only [lexStep]
  unfold lexStringEscape
  cases hpk : lpeek l with
  | none =>
      rw [lnext_none_of_lpeek hpk]
      exact ⟨_, rfl, rfl⟩
  | some ch =>
      rw [lnext_of_lpeek hpk]
      exact ⟨rfl, lexMeasure_consume hpk _ _ rfl (by simp only [lstep_idx, lemit_idx, lignore_idx]; omega), fun inv => lnext_inv hpk inv,
        fun _ t ht => by simp at ht⟩

theorem stepOK_decimalFraction (l : LState) : StepOK letter .decimalFraction l := by
  unfold StepOK
  simp only [lexStep]
  unfold lexDecimalFraction
  cases hpk : lpeek l with
  | none =>
      rw [lnext_none_of_lpeek hpk]
      refine ⟨rfl, lexMeasure_rank _ _ rfl rfl ?_, fun inv => inv, fun _ t ht => by simp at ht⟩
      rw [hpk]
      simp [rk, rkTop]
  | some ch =>
      rw [lnext_of_lpeek hpk]
      exact ⟨rfl, lexMeasure_consume hpk _ _ rfl (by simp only [lstep_idx, lemit_idx, lignore_idx]; omega), fun inv => lnext_inv hpk inv,
        fun _ t ht => by simp at ht⟩

theorem stepOK_hexFraction (l : LState) : StepOK letter .hexFraction l := by
  unfold StepOK
  simp only [lexStep]
  unfold lexHexFraction
  cases hpk : lpeek l with
  | none =>
      rw [lnext_none_of_lpeek hpk]
      refine ⟨rfl, lexMeasure_rank _ _ rfl rfl ?_, fun inv => inv, fun _ t ht => by simp at ht⟩
      rw [hpk]
      simp [rk, rkTop]
  | some ch =>
      rw [lnext_of_lpeek hpk]
      exact ⟨rfl, lexMeasure_consume hpk _ _ rfl (by simp only [lstep_idx, lemit_idx, lignore_idx]; omega), fun inv => lnext_inv hpk inv,
        fun _ t ht => by simp at ht⟩

/-- Obligations of a non-consuming transition that emits one token and
returns to lexTop. -/
theorem contOK_emit_top (fn1 : LexFn) (typ : TokenType) (l : LState)
    (hrk : rk .top (lpeek l) < rk fn1 (lpeek l))
    (hterm : terminalTok (lemit typ l).1 = false) :
    (lemit typ l).2.input = l.input ∧
    lexMeasure .top (lemit typ l).2 < lexMeasure fn1 l ∧
    (LInv l → LInv (lemit typ l).2) ∧
    (LInv l → ∀ t ∈ [(lemit typ l).1], terminalTok t = false ∧ SpanOK l.input t) :=
  ⟨rfl, lexMeasure_rank _ _ rfl rfl hrk, fun inv => lemit_inv _ inv,
   fun inv t ht => by
     simp only [List.mem_singleton] at ht
     subst ht
     exact ⟨hterm, lemit_span _ inv⟩⟩

/-- Obligations of a consuming transition that emits nothing. -/
theorem contOK_consume_silent {l : LState} {c : Char} (hpk : lpeek l = some c)
    (fn1 fn2 : LexFn) :
    (lstep c l).input = l.input ∧
    lexMeasure fn2 (lstep c l) < lexMeasure fn1 l ∧
    (LInv l → LInv (lstep c l)) ∧
    (LInv l → ∀ t ∈ ([] : List Token), terminalTok t = false ∧ SpanOK l.input t) :=
  ⟨rfl, lexMeasure_consume hpk _ _ rfl (by simp only [lstep_idx, lemit_idx, lignore_idx]; omega), fun inv => lnext_inv hpk inv,
   fun _ t ht => by simp at ht⟩

/-- Obligations of a transition that consumes one character, emits one
token and moves on. -/
theorem contOK_consume_emit {l : LState} {c : Char} (hpk : lpeek l = some c)
    (fn1 fn2 : LexFn) (typ : TokenType)
    (hterm : terminalTok (lemit typ (lstep c l)).1 = false) :
    (lemit typ (lstep c l)).2.input = l.input ∧
    lexMeasure fn2 (lemit typ (lstep c l)).2 < lexMeasure fn1 l ∧
    (LInv l → LInv (lemit typ (lstep c l)).2) ∧
    (LInv l → ∀ t ∈ [(lemit typ (lstep c l)).1],
      terminalTok t = false ∧ SpanOK l.input t) :=
  ⟨rfl, lexMeasure_consume hpk _ _ rfl (by simp only [lstep_idx, lemit_idx, lignore_idx]; omega),
   fun inv => lemit_inv _ (lnext_inv hpk inv),
   fun inv t ht => by
     simp only [List.mem_singleton] at ht
     subst ht
     exact ⟨hterm, lemit_span _ (lnext_inv hpk inv)⟩⟩

theorem stepOK_decimalFractionDigits (l : LState) :
    StepOK letter .decimalFractionDigits l := by
  unfold StepOK
  simp only [lexStep]
  unfold lexDecimalFractionDigits
  cases hpk : lpeek l with
  | none => exact contOK_emit_top _ _ _ (by simp only [rk]; omega) rfl
  | some ch =>
      simp only []
      by_cases h1 : (isDigit ch || ch = '_') = true
      · rw [if_pos h1, lnext_of_lpeek hpk]
        exact contOK_consume_silent hpk _ _
      · rw [if_neg h1]
        by_cases h2 : (ch = 'e' || ch = 'E') = true
        · rw [if_pos h2]
          exact ⟨rfl, lexMeasure_rank _ _ rfl rfl
            (by have := rkTop_le (lpeek l); simp only [rk]; omega),
            fun inv => inv, fun _ t ht => by simp at ht⟩
        · rw [if_neg h2]
          exact contOK_emit_top _ _ _ (by simp only [rk]; omega) rfl

theorem stepOK_exponentDigits (l : LState) : StepOK letter .exponentDigits l := by
  unfold StepOK
  simp only [lexStep]
  unfold lexExponentDigits
  cases hpk : lpeek l with
  | none => exact contOK_emit_top _ _ _ (by simp only [rk]; omega) rfl
  | some ch =>
      simp only []
      by_cases h1 : (isDigit ch || ch = '_') = true
      · rw [if_pos h1, lnext_of_lpeek hpk]
        exact contOK_consume_silent hpk _ _
      · rw [if_neg h1]
        exact contOK_emit_top _ _ _ (by simp only [rk]; omega) rfl

theorem stepOK_hexExponentDigits (l : LState) : StepOK letter .hexExponentDigits l := by
  unfold StepOK
  simp only [lexStep]
  unfold lexHexExponentDigits
  cases hpk : lpeek l with
  | none => exact contOK_emit_top _ _ _ (by simp only [rk]; omega) rfl
  | some ch =>
      simp only []
      by_cases h1 : (isDigit ch || ch = '_') = true
      · rw [if_pos h1, lnext_of_lpeek hpk]
        exact contOK_consume_silent hpk _ _
      · rw [if_neg h1]
        exact contOK_emit_top _ _ _ (by simp only [rk]; omega) rfl

theorem stepOK_octalDigitsContinue (l : LState) :
    StepOK letter .octalDigitsContinue l := by
  unfold StepOK
  simp only [lexStep]
  unfold lexOctalDigitsContinue
  cases hpk : lpeek l with
  | none => exact contOK_emit_top _ _ _ (by simp only [rk]; omega) rfl
  | some ch =>
      simp only []
      by_cases h1 : (isOctalDigit ch || ch = '_') = true
      · rw [if_pos h1, lnext_of_lpeek hpk]
        exact contOK_consume_silent hpk _ _
      · rw [if_neg h1]
        exact contOK_emit_top _ _ _ (by simp only [rk]; omega) rfl

theorem stepOK_binaryDigitsContinue (l : LState) :
    StepOK letter .binaryDigitsContinue l := by
  unfold StepOK
  simp only [lexStep]
  unfold lexBinaryDigitsContinue
  cases hpk : lpeek l with
  | none => exact contOK_emit_top _ _ _ (by simp only [rk]; omega) rfl
  | some ch =>
      simp only []
      by_cases h1 : (isBinaryDigit ch || ch = '_') = true
      · rw [if_pos h1, lnext_of_lpeek hpk]
        exact contOK_consume_silent hpk _ _
      · rw [if_neg h1]
        exact contOK_emit_top _ _ _ (by simp only [rk]; omega) rfl

theorem stepOK_hexFractionDigits (l : LState) :
    StepOK letter .hexFractionDigits l := by
  unfold StepOK
  simp only [lexStep]
  unfold lexHexFractionDigits
  cases hpk : lpeek l with
  | none => exact contOK_emit_top _ _ _ (by simp only [rk]; omega) rfl
  | some ch =>
      simp only []
      by_cases h1 : (isHexDigit ch || ch = '_') = true
      · rw [if_pos h1, lnext_of_lpeek hpk]
        exact contOK_consume_silent hpk _ _
      · rw [if_neg h1]
        by_cases h2 : (ch = 'p' || ch = 'P') = true
        · rw [if_pos h2]
          exact ⟨rfl, lexMeasure_rank _ _ rfl rfl
            (by have := rkTop_le (lpeek l); simp only [rk]; omega),
            fun inv => inv, fun _ t ht => by simp at ht⟩
        · rw [if_neg h2]
          exact contOK_emit_top _ _ _ (by simp only [rk]; omega) rfl

theorem stepOK_hexDigitsContinue (l : LState) :
    StepOK letter .hexDigitsContinue l := by
  unfold StepOK
  simp only [lexStep]
  unfold lexHexDigitsContinue
  cases hpk : lpeek l with
  | none => exact contOK_emit_top _ _ _ (by simp only [rk]; omega) rfl
  | some ch =>
      simp only []
      by_cases h1 : (isHexDigit ch || ch = '_') = true
      · rw [if_pos h1, lnext_of_lpeek hpk]
        exact contOK_consume_silent hpk _ _
      · rw [if_neg h1]
        by_cases h2 : ch = '.'
        · rw [if_pos h2]
          exact ⟨rfl, lexMeasure_rank _ _ rfl rfl
            (by rw [hpk]; have := rkTop_le (some ch); simp only [rk]; omega),
            fun inv => inv, fun _ t ht => by simp at ht⟩
        · rw [if_neg h2]
          by_cases h3 : (ch = 'p' || ch = 'P') = true
          · rw [if_pos h3]
            exact ⟨rfl, lexMeasure_rank _ _ rfl rfl
              (by have := rkTop_le (lpeek l); simp only [rk]; omega),
              fun inv => inv, fun _ t ht => by simp at ht⟩
          · rw [if_neg h3]
            exact contOK_emit_top _ _ _ (by simp only [rk]; omega) rfl

theorem stepOK_identifierOrKeywordContinue (l : LState) :
    StepOK letter .identifierOrKeywordContinue l := by
  unfold StepOK
  simp only [lexStep]
  unfold lexIdentifierOrKeywordContinue
  cases hpk : lpeek l with
  | none =>
      simp only []
      split_ifs <;>
        exact contOK_emit_top _ _ _ (by simp only [rk]; omega) rfl
  | some ch =>
      simp only []
      by_cases h1 : isIdentifierContinue letter ch = true
      · rw [if_pos h1, lnext_of_lpeek hpk]
        exact contOK_consume_silent hpk _ _
      · rw [if_neg h1]
        split_ifs <;>
          exact contOK_emit_top _ _ _ (by simp only [rk]; omega) rfl
theorem stepOK_hexDigits (l : LState) : StepOK letter .hexDigits l := by
  unfold StepOK
  simp only [lexStep]
  unfold lexHexDigits
  cases hpk : lpeek l with
  | none => exact ⟨_, rfl, rfl⟩
  | some ch =>
      simp only []
      by_cases h1 : isHexDigit ch = true
      · rw [if_pos h1]
        exact ⟨rfl, lexMeasure_rank _ _ rfl rfl (by simp only [rk]; omega),
          fun inv => inv, fun _ t ht => by simp at ht⟩
      · rw [if_neg h1]
        exact ⟨_, rfl, rfl⟩

theorem stepOK_octalDigits (l : LState) : StepOK letter .octalDigits l := by
  unfold StepOK
  simp only [lexStep]
  unfold lexOctalDigits
  cases hpk : lpeek l with
  | none => exact ⟨_, rfl, rfl⟩
  | some ch =>
      simp only []
      by_cases h1 : isOctalDigit ch = true
      · rw [if_pos h1]
        exact ⟨rfl, lexMeasure_rank _ _ rfl rfl (by simp only [rk]; omega),
          fun inv => inv, fun _ t ht => by simp at ht⟩
      · rw [if_neg h1]
        exact ⟨_, rfl, rfl⟩

theorem stepOK_binaryDigits (l : LState) : StepOK letter .binaryDigits l := by
  unfold StepOK
  simp only [lexStep]
  unfold lexBinaryDigits
  cases hpk : lpeek l with
  | none => exact ⟨_, rfl, rfl⟩
  | some ch =>
      simp only []
      by_cases h1 : isBinaryDigit ch = true
      · rw [if_pos h1]
        exact ⟨rfl, lexMeasure_rank _ _ rfl rfl (by simp only [rk]; omega),
          fun inv => inv, fun _ t ht => by simp at ht⟩
      · rw [if_neg h1]
        exact ⟨_, rfl, rfl⟩

theorem stepOK_decimalDigits (l : LState) : StepOK letter .decimalDigits l := by
  unfold StepOK
  simp only [lexStep]
  unfold lexDecimalDigits
  cases hpk : lpeek l with
  | none => exact contOK_emit_top _ _ _ (by rw [hpk]; decide) rfl
  | some ch =>
      simp only []
      by_cases h1 : (isDigit ch || ch = '_') = true
      · rw [if_pos h1, lnext_of_lpeek hpk]
        exact contOK_consume_silent hpk _ _
      · rw [if_neg h1]
        by_cases h2 : ch = '.'
        · rw [if_pos h2]
          subst h2
          exact ⟨rfl, lexMeasure_rank _ _ rfl rfl (by rw [hpk]; decide),
            fun inv => inv, fun _ t ht => by simp at ht⟩
        · rw [if_neg h2]
          by_cases h3 : (ch = 'e' || ch = 'E') = true
          · rw [if_pos h3]
            refine ⟨rfl, lexMeasure_rank _ _ rfl rfl ?_, fun inv => inv,
              fun _ t ht => by simp at ht⟩
            rw [hpk]
            simp only [Bool.or_eq_true, decide_eq_true_eq] at h3
            rcases h3 with rfl | rfl <;> decide
          · rw [if_neg h3]
            refine contOK_emit_top _ _ _ ?_ rfl
            rw [hpk]
            simp only [rk, rkDD]
            split_ifs with hA
            · exfalso
              simp only [Bool.or_eq_true, decide_eq_true_eq, h2, false_or] at hA
              rcases hA with rfl | rfl <;> exact absurd (by decide) h3
            · omega

theorem stepOK_exponent (l : LState) : StepOK letter .exponent l := by
  unfold StepOK
  simp only [lexStep]
  unfold lexExponent
  cases hpk : lpeek l with
  | none =>
      rw [lnext_none_of_lpeek hpk]
      exact ⟨_, rfl, rfl⟩
  | some c =>
      rw [lnext_of_lpeek hpk]
      simp only []
      cases hpk2 : lpeek (lstep c l) with
      | none =>
          rw [hpk2]
          exact ⟨_, rfl, rfl⟩
      | some c2 =>
          simp only []
          by_cases hs : isNumericSign c2 = true
          · rw [if_pos hs, lnext_of_lpeek hpk2]
            simp only []
            cases hpk3 : lpeek (lstep c2 (lstep c l)) with
            | none => exact ⟨_, rfl, rfl⟩
            | some c3 =>
                simp only []
                by_cases hd : isDigit c3 = true
                · rw [if_pos hd]
                  exact ⟨rfl, lexMeasure_consume hpk _ _ rfl (by simp only [lstep_idx, lemit_idx, lignore_idx]; omega),
                    fun inv => lnext_inv hpk2 (lnext_inv hpk inv),
                    fun _ t ht => by simp at ht⟩
                · rw [if_neg hd]
                  exact ⟨_, rfl, rfl⟩
          · rw [if_neg hs, hpk2]
            simp only []
            by_cases hd : isDigit c2 = true
            · rw [if_pos hd]
              exact ⟨rfl, lexMeasure_consume hpk _ _ rfl (by simp only [lstep_idx, lemit_idx, lignore_idx]; omega),
                fun inv => lnext_inv hpk inv,
                fun _ t ht => by simp at ht⟩
            · rw [if_neg hd]
              exact ⟨_, rfl, rfl⟩

theorem stepOK_hexExponent (l : LState) : StepOK letter .hexExponent l := by
  unfold StepOK
  simp only [lexStep]
  unfold lexHexExponent
  cases hpk : lpeek l with
  | none =>
      rw [lnext_none_of_lpeek hpk]
      exact ⟨_, rfl, rfl⟩
  | some c =>
      rw [lnext_of_lpeek hpk]
      simp only []
      cases hpk2 : lpeek (lstep c l) with
      | none =>
          rw [hpk2]
          exact ⟨_, rfl, rfl⟩
      | some c2 =>
          simp only []
          by_cases hs : isNumericSign c2 = true
          · rw [if_pos hs, lnext_of_lpeek hpk2]
            simp only []
            cases hpk3 : lpeek (lstep c2 (lstep c l)) with
            | none => exact ⟨_, rfl, rfl⟩
            | some c3 =>
                simp only []
                by_cases hd : isDigit c3 = true
                · rw [if_pos hd]
                  exact ⟨rfl, lexMeasure_consume hpk _ _ rfl (by simp only [lstep_idx, lemit_idx, lignore_idx]; omega),
                    fun inv => lnext_inv hpk2 (lnext_inv hpk inv),
                    fun _ t ht => by simp at ht⟩
                · rw [if_neg hd]
                  exact ⟨_, rfl, rfl⟩
          · rw [if_neg hs, hpk2]
            simp only []
            by_cases hd : isDigit c2 = true
            · rw [if_pos hd]
              exact ⟨rfl, lexMeasure_consume hpk _ _ rfl (by simp only [lstep_idx, lemit_idx, lignore_idx]; omega),
                fun inv => lnext_inv hpk inv,
                fun _ t ht => by simp at ht⟩
            · rw [if_neg hd]
              exact ⟨_, rfl, rfl⟩

theorem stepOK_number (l : LState) : StepOK letter .number l := by
  unfold StepOK
  simp only [lexStep]
  unfold lexNumber
  cases hpk : lpeek l with
  | none =>
      simp only []
      rw [hpk, if_neg (by simp)]
      exact ⟨rfl, lexMeasure_rank _ _ rfl rfl (by rw [hpk]; decide),
        fun inv => inv, fun _ t ht => by simp at ht⟩
  | some c =>
      simp only []
      by_cases hs : isNumericSign c = true
      · rw [if_pos hs, lnext_of_lpeek hpk]
        simp only []
        by_cases hz : lpeek (lstep c l) = some '0'
        · rw [if_pos hz, lnext_of_lpeek hz]
          simp only []
          cases hpk3 : lpeek (lstep '0' (lstep c l)) with
          | none =>
              exact ⟨rfl, lexMeasure_consume hpk _ _ rfl (by simp only [lstep_idx, lemit_idx, lignore_idx]; omega),
                fun inv => lemit_inv _ (lnext_inv hz (lnext_inv hpk inv)),
                fun inv t ht => by
                  simp only [List.mem_singleton] at ht
                  subst ht
                  exact ⟨rfl, lemit_span _ (lnext_inv hz (lnext_inv hpk inv))⟩⟩
          | some c3 =>
              simp only []
              by_cases hx : (c3 = 'x' || c3 = 'X') = true
              · rw [if_pos hx, lnext_of_lpeek hpk3]
                exact ⟨rfl, lexMeasure_consume hpk _ _ rfl (by simp only [lstep_idx, lemit_idx, lignore_idx]; omega),
                  fun inv => lnext_inv hpk3 (lnext_inv hz (lnext_inv hpk inv)),
                  fun _ t ht => by simp at ht⟩
              · rw [if_neg hx]
                by_cases ho : (c3 = 'o' || c3 = 'O') = true
                · rw [if_pos ho, lnext_of_lpeek hpk3]
                  exact ⟨rfl, lexMeasure_consume hpk _ _ rfl (by simp only [lstep_idx, lemit_idx, lignore_idx]; omega),
                    fun inv => lnext_inv hpk3 (lnext_inv hz (lnext_inv hpk inv)),
                    fun _ t ht => by simp at ht⟩
                · rw [if_neg ho]
                  by_cases hb : (c3 = 'b' || c3 = 'B') = true
                  · rw [if_pos hb, lnext_of_lpeek hpk3]
                    exact ⟨rfl, lexMeasure_consume hpk _ _ rfl (by simp only [lstep_idx, lemit_idx, lignore_idx]; omega),
                      fun inv => lnext_inv hpk3 (lnext_inv hz (lnext_inv hpk inv)),
                      fun _ t ht => by simp at ht⟩
                  · rw [if_neg hb]
                    by_cases hd : (isDigit c3 || c3 = '_') = true
                    · rw [if_pos hd]
                      exact ⟨rfl, lexMeasure_consume hpk _ _ rfl (by simp only [lstep_idx, lemit_idx, lignore_idx]; omega),
                        fun inv => lnext_inv hz (lnext_inv hpk inv),
                        fun _ t ht => by simp at ht⟩
                    · rw [if_neg hd]
                      by_cases hdot : c3 = '.'
                      · rw [if_pos hdot]
                        exact ⟨rfl, lexMeasure_consume hpk _ _ rfl (by simp only [lstep_idx, lemit_idx, lignore_idx]; omega),
                          fun inv => lnext_inv hz (lnext_inv hpk inv),
                          fun _ t ht => by simp at ht⟩
                      · rw [if_neg hdot]
                        exact ⟨rfl, lexMeasure_consume hpk _ _ rfl (by simp only [lstep_idx, lemit_idx, lignore_idx]; omega),
                          fun inv => lemit_inv _ (lnext_inv hz (lnext_inv hpk inv)),
                          fun inv t ht => by
                            simp only [List.mem_singleton] at ht
                            subst ht
                            exact ⟨rfl,
                              lemit_span _ (lnext_inv hz (lnext_inv hpk inv))⟩⟩
        · rw [if_neg hz]
          exact ⟨rfl, lexMeasure_consume hpk _ _ rfl (by simp only [lstep_idx, lemit_idx, lignore_idx]; omega),
            fun inv => lnext_inv hpk inv, fun _ t ht => by simp at ht⟩
      · rw [if_neg hs, hpk]
        by_cases hz : c = '0'
        · subst hz
          rw [if_pos rfl, lnext_of_lpeek hpk]
          simp only []
          cases hpk3 : lpeek (lstep '0' l) with
          | none =>
              exact ⟨rfl, lexMeasure_consume hpk _ _ rfl (by simp only [lstep_idx, lemit_idx, lignore_idx]; omega),
                fun inv => lemit_inv _ (lnext_inv hpk inv),
                fun inv t ht => by
                  simp only [List.mem_singleton] at ht
                  subst ht
                  exact ⟨rfl, lemit_span _ (lnext_inv hpk inv)⟩⟩
          | some c3 =>
              simp only []
              by_cases hx : (c3 = 'x' || c3 = 'X') = true
              · rw [if_pos hx, lnext_of_lpeek hpk3]
                exact ⟨rfl, lexMeasure_consume hpk _ _ rfl (by simp only [lstep_idx, lemit_idx, lignore_idx]; omega),
                  fun inv => lnext_inv hpk3 (lnext_inv hpk inv),
                  fun _ t ht => by simp at ht⟩
              · rw [if_neg hx]
                by_cases ho : (c3 = 'o' || c3 = 'O') = true
                · rw [if_pos ho, lnext_of_lpeek hpk3]
                  exact ⟨rfl, lexMeasure_consume hpk _ _ rfl (by simp only [lstep_idx, lemit_idx, lignore_idx]; omega),
                    fun inv => lnext_inv hpk3 (lnext_inv hpk inv),
                    fun _ t ht => by simp at ht⟩
                · rw [if_neg ho]
                  by_cases hb : (c3 = 'b' || c3 = 'B') = true
                  · rw [if_pos hb, lnext_of_lpeek hpk3]
                    exact ⟨rfl, lexMeasure_consume hpk _ _ rfl (by simp only [lstep_idx, lemit_idx, lignore_idx]; omega),
                      fun inv => lnext_inv hpk3 (lnext_inv hpk inv),
                      fun _ t ht => by simp at ht⟩
                  · rw [if_neg hb]
                    by_cases hd : (isDigit c3 || c3 = '_') = true
                    · rw [if_pos hd]
                      exact ⟨rfl, lexMeasure_consume hpk _ _ rfl (by simp only [lstep_idx, lemit_idx, lignore_idx]; omega),
                        fun inv => lnext_inv hpk inv, fun _ t ht => by simp at ht⟩
                    · rw [if_neg hd]
                      by_cases hdot : c3 = '.'
                      · rw [if_pos hdot]
                        exact ⟨rfl, lexMeasure_consume hpk _ _ rfl (by simp only [lstep_idx, lemit_idx, lignore_idx]; omega),
                          fun inv => lnext_inv hpk inv, fun _ t ht => by simp at ht⟩
                      · rw [if_neg hdot]
                        exact ⟨rfl, lexMeasure_consume hpk _ _ rfl (by simp only [lstep_idx, lemit_idx, lignore_idx]; omega),
                          fun inv => lemit_inv _ (lnext_inv hpk inv),
                          fun inv t ht => by
                            simp only [List.mem_singleton] at ht
                            subst ht
                            exact ⟨rfl, lemit_span _ (lnext_inv hpk inv)⟩⟩
        · rw [if_neg (fun h => hz (Option.some.inj h))]
          refine ⟨rfl, lexMeasure_rank _ _ rfl rfl ?_, fun inv => inv,
            fun _ t ht => by simp at ht⟩
          rw [hpk]
          have h1 : isNumericSign c = false := Bool.eq_false_iff.mpr hs
          have h2 : decide (c = '0') = false := decide_eq_false hz
          simp only [rk, h1, h2, Bool.or_self, Bool.false_eq_true, if_false]
          omega

theorem stepOK_top (l : LState) : StepOK letter .top l := by
  unfold StepOK
  simp only [lexStep]
  unfold lexTop
  cases hpk : lpeek l with
  | none => exact ⟨_, rfl, rfl⟩
  | some c =>
      simp only []
      by_cases h1 : isSpace c = true
      · rw [if_pos h1, lnext_of_lpeek hpk]
        exact ⟨rfl, lexMeasure_consume hpk _ _ rfl (by simp only [lstep_idx, lemit_idx, lignore_idx]; omega),
          fun inv => lignore_inv (lnext_inv hpk inv), fun _ t ht => by simp at ht⟩
      · rw [if_neg h1]
        by_cases h2 : (c = '^' || c = '!') = true
        · rw [if_pos h2, lnext_of_lpeek hpk]
          exact contOK_consume_emit hpk _ _ _ rfl
        · rw [if_neg h2]
          by_cases h3 : c = '='
          · rw [if_pos h3, lnext_of_lpeek hpk]
            exact contOK_consume_emit hpk _ _ _ rfl
          · rw [if_neg h3]
            by_cases h4 : c = ','
            · rw [if_pos h4, lnext_of_lpeek hpk]
              exact contOK_consume_emit hpk _ _ _ rfl
            · rw [if_neg h4]
              by_cases h5 : c = ';'
              · rw [if_pos h5, lnext_of_lpeek hpk]
                exact contOK_consume_emit hpk _ _ _ rfl
              · rw [if_neg h5]
                by_cases h6 : c = ':'
                · rw [if_pos h6, lnext_of_lpeek hpk]
                  exact contOK_consume_emit hpk _ _ _ rfl
                · rw [if_neg h6]
                  by_cases h7 : isStringStart c = true
                  · rw [if_pos h7]
                    refine ⟨rfl, lexMeasure_rank _ _ rfl rfl ?_, fun inv => inv,
                      fun _ t ht => by simp at ht⟩
                    rw [hpk]
                    simp only [rk, rkTop]
                    split_ifs <;> first | omega | exact absurd h7 (by assumption)
                  · rw [if_neg h7]
                    by_cases h8 : (isNumericSign c || isDigit c) = true
                    · rw [if_pos h8]
                      refine ⟨rfl, lexMeasure_rank _ _ rfl rfl ?_, fun inv => inv,
                        fun _ t ht => by simp at ht⟩
                      rw [hpk]
                      simp only [Bool.or_eq_true] at h8
                      rcases h8 with hsn | hd
                      · simp [rk, rkTop, hsn] <;> omega
                      · have hns := isDigit_not_sign hd
                        by_cases hz : c = '0'
                        · subst hz; decide
                        · simp [rk, rkTop, rkDD, hd, hns, decide_eq_false hz] <;>
                            omega
                    · rw [if_neg h8]
                      by_cases h9 : letter c = true
                      · rw [if_pos h9, lnext_of_lpeek hpk]
                        exact ⟨rfl, lexMeasure_consume hpk _ _ rfl (by simp only [lstep_idx, lemit_idx, lignore_idx]; omega),
                          fun inv => lnext_inv hpk inv, fun _ t ht => by simp at ht⟩
                      · rw [if_neg h9]
                        exact ⟨_, rfl, rfl⟩

/-- Every scanner state satisfies the step obligations. -/
theorem stepOK_all (fn : LexFn) (l : LState) : StepOK letter fn l := by
  cases fn with
  | top => exact stepOK_top letter l
  | identifierOrKeywordContinue => exact stepOK_identifierOrKeywordContinue letter l
  | stringStart => exact stepOK_stringStart letter l
  | stringContent q => exact stepOK_stringContent letter q l
  | stringEscape q => exact stepOK_stringEscape letter q l
  | number => exact stepOK_number letter l
  | decimalDigits => exact stepOK_decimalDigits letter l
  | decimalFraction => exact stepOK_decimalFraction letter l
  | decimalFractionDigits => exact stepOK_decimalFractionDigits letter l
  | exponent => exact stepOK_exponent letter l
  | exponentDigits => exact stepOK_exponentDigits letter l
  | hexDigits => exact stepOK_hexDigits letter l
  | hexDigitsContinue => exact stepOK_hexDigitsContinue letter l
  | hexFraction => exact stepOK_hexFraction letter l
  | hexFractionDigits => exact stepOK_hexFractionDigits letter l
  | hexExponent => exact stepOK_hexExponent letter l
  | hexExponentDigits => exact stepOK_hexExponentDigits letter l
  | octalDigits => exact stepOK_octalDigits letter l
  | octalDigitsContinue => exact stepOK_octalDigitsContinue letter l
  | binaryDigits => exact stepOK_binaryDigits letter l
  | binaryDigitsContinue => exact stepOK_binaryDigitsContinue letter l

/-- With fuel above the termination measure, a scanner run from an
invariant-respecting state emits a terminal-free prefix whose tokens are
verbatim spans of the input, followed by exactly one terminal token. -/
theorem runPattern_good : ∀ (fuel : Nat) (fn : LexFn) (l : LState),
    lexMeasure fn l < fuel → LInv l →
    ∃ B t, runPattern letter fuel fn l = B ++ [t] ∧ terminalTok t = true ∧
      ∀ t' ∈ B, terminalTok t' = false ∧ SpanOK l.input t' := by
  intro fuel
  induction fuel with
  | zero => intro fn l hm; omega
  | succ fuel ih =>
      intro fn l hm inv
      have hso := stepOK_all letter fn l
      unfold StepOK at hso
      unfold runPattern
      cases hstep : lexStep letter fn l with
      | mk ts o =>
          rw [hstep] at hso
          cases o with
          | none =>
              obtain ⟨t, rfl, hterm⟩ := hso
              exact ⟨[], t, rfl, hterm, fun t' ht' => absurd ht' (List.not_mem_nil t')⟩
          | some p =>
              obtain ⟨fn2, l2⟩ := p
              obtain ⟨hinp, hmeas, hInv, htoks⟩ := hso
              obtain ⟨B, t, hrun, hterm, hB⟩ :=
                ih fn2 l2 (by omega) (hInv inv)
              refine ⟨ts ++ B, t, ?_, hterm, ?_⟩
              · show ts ++ runPattern letter fuel fn2 l2 = ts ++ B ++ [t]
                rw [hrun, List.append_assoc]
              · intro t' ht'
                rcases List.mem_append.mp ht' with h | h
                · exact htoks inv t' h
                · obtain ⟨hterm', hspan⟩ := hB t' h
                  exact ⟨hterm', hinp ▸ hspan⟩

/-- The initial scanner state satisfies the invariant. -/
theorem initLInv (input : List Char) : LInv (initLState input) :=
  ⟨Nat.le_refl 0, Nat.zero_le _, rfl, rfl⟩

theorem lexMeasure_init (fn : LexFn) (input : List Char) :
    lexMeasure fn (initLState input) < 6 * input.length + 6 := by
  have h := rk_le fn (lpeek (initLState input))
  have he : lexMeasure fn (initLState input)
      = 6 * (input.length - 0) + rk fn (lpeek (initLState input)) := rfl
  omega

/-- A full scanner run splits into a terminal-free body and one final
terminal token, with every body token a verbatim span. -/
theorem Lex_good (input : List Char) :
    ∃ B t, Lex letter input = B ++ [t] ∧ terminalTok t = true ∧
      ∀ t' ∈ B, terminalTok t' = false ∧ SpanOK input t' :=
  runPattern_good letter _ .top (initLState input)
    (lexMeasure_init .top input) (initLInv input)

/-- Big-step characterization: the run from fn at l yields exactly toks,
for every sufficient fuel. -/
def RunsTo (fn : LexFn) (l : LState) (toks : List Token) : Prop :=
  ∀ fuel, lexMeasure fn l < fuel → runPattern letter fuel fn l = toks

theorem runsTo_halt {fn : LexFn} {l : LState} {ts : List Token}
    (hstep : lexStep letter fn l = (ts, none)) : RunsTo letter fn l ts := by
  intro fuel hfuel
  cases fuel with
  | zero => omega
  | succ k =>
      unfold runPattern
      rw [hstep]

theorem runsTo_cont {fn : LexFn} {l : LState} {ts : List Token}
    {fn2 : LexFn} {l2 : LState} {toks : List Token}
    (hstep : lexStep letter fn l = (ts, some (fn2, l2)))
    (h2 : RunsTo letter fn2 l2 toks) : RunsTo letter fn l (ts ++ toks) := by
  intro fuel hfuel
  have hso := stepOK_all letter fn l
  unfold StepOK at hso
  rw [hstep] at hso
  obtain ⟨-, hmeas, -, -⟩ := hso
  cases fuel with
  | zero => omega
  | succ k =>
      unfold runPattern
      rw [hstep]
      show ts ++ runPattern letter k fn2 l2 = ts ++ toks
      rw [h2 k (by omega)]

theorem runsTo_Lex {input : List Char} {toks : List Token}
    (h : RunsTo letter .top (initLState input) toks) : Lex letter input = toks :=
  h _ (lexMeasure_init .top input)

end LexerMeta

/-- Iterated single-character consumption. -/
def lsteps : List Char → LState → LState
  | [], l => l
  | c :: cs, l => lsteps cs (lstep c l)

@[simp] theorem lsteps_input (cs : List Char) (l : LState) :
    (lsteps cs l).input = l.input := by
  induction cs generalizing l with
  | nil => rfl
  | cons c cs ih => simp [lsteps, ih]

@[simp] theorem lsteps_idx (cs : List Char) (l : LState) :
    (lsteps cs l).idx = l.idx + cs.length := by
  induction cs generalizing l with
  | nil => simp [lsteps]
  | cons c cs ih => simp [lsteps, ih]; omega

@[simp] theorem lsteps_startIdx (cs : List Char) (l : LState) :
    (lsteps cs l).startIdx = l.startIdx := by
  induction cs generalizing l with
  | nil => rfl
  | cons c cs ih => simp [lsteps, ih, lstep]

@[simp] theorem lsteps_start (cs : List Char) (l : LState) :
    (lsteps cs l).start = l.start := by
  induction cs generalizing l with
  | nil => rfl
  | cons c cs ih => simp [lsteps, ih, lstep]

section LexerMeta2

variable (letter : Char → Bool)

/-- Scanning a run of identifier-continue characters stays in the
identifier state and consumes them all. -/
theorem runsTo_idkc_scan (cs : List Char) {rest : List Char} :
    ∀ {l : LState}, (∀ ch ∈ cs, isIdentifierContinue letter ch = true) →
    l.input.drop l.idx = cs ++ rest →
    ∀ {toks : List Token},
    RunsTo letter .identifierOrKeywordContinue (lsteps cs l) toks →
    RunsTo letter .identifierOrKeywordContinue l toks := by
  induction cs with
  | nil => intro l _ _ toks h; exact h
  | cons c cs ih =>
      intro l hcs hsplit toks h
      have hpk : lpeek l = some c := by
        unfold lpeek
        rw [hsplit]
        rfl
      have hsplit2 : (lstep c l).input.drop (lstep c l).idx = cs ++ rest := by
        have hd := drop_cons_of_lpeek hpk
        rw [hsplit] at hd
        simpa [lstep] using hd.symm
      have hstep : lexStep letter .identifierOrKeywordContinue l =
          ([], some (.identifierOrKeywordContinue, lstep c l)) := by
        simp only [lexStep]
        unfold lexIdentifierOrKeywordContinue
        rw [hpk]
        simp only []
        rw [if_pos (hcs c (List.mem_cons_self c cs)), lnext_of_lpeek hpk]
      have h2 := ih (fun ch hch => hcs ch (List.mem_cons_of_mem c hch)) hsplit2 h
      simpa using runsTo_cont letter hstep h2

end LexerMeta2

/-- An ASCII letter is not mistaken for any other character class the
dispatcher checks first. -/
theorem alpha_plain {c : Char} (h : c.isAlpha = true) :
    isSpace c = false ∧ (c = '^' || c = '!') = false ∧ ¬(c = '=') ∧
    ¬(c = ',') ∧ ¬(c = ';') ∧ ¬(c = ':') ∧ isStringStart c = false ∧
    (isNumericSign c || isDigit c) = false := by
  have hne : ∀ d : Char, d.isAlpha = false → c ≠ d := by
    intro d hd he
    rw [he, hd] at h
    exact Bool.false_ne_true h
  have hdig : isDigit c = false := by
    unfold isDigit
    by_contra hd
    simp only [Bool.not_eq_false, Bool.and_eq_true, decide_eq_true_eq] at hd
    simp only [Char.isAlpha, Char.isUpper, Char.isLower, Bool.or_eq_true,
      Bool.and_eq_true, decide_eq_true_eq] at h
    obtain ⟨h1, h2⟩ := hd
    have h1n : (48 : Nat) ≤ c.val.toNat := h1
    have h2n : c.val.toNat ≤ 57 := h2
    rcases h with ⟨ha, hb⟩ | ⟨ha, hb⟩
    · have han : (65 : Nat) ≤ c.val.toNat := ha
      omega
    · have han : (97 : Nat) ≤ c.val.toNat := ha
      omega
  refine ⟨?_, ?_, hne '=' (by decide), hne ',' (by decide), hne ';' (by decide),
    hne ':' (by decide), ?_, ?_⟩
  · unfold isSpace
    simp only [Bool.or_eq_false_iff, decide_eq_false_iff_not]
    exact ⟨⟨⟨hne ' ' (by decide), hne '\t' (by decide)⟩, hne '\n' (by decide)⟩,
      hne '\r' (by decide)⟩
  · simp only [Bool.or_eq_false_iff, decide_eq_false_iff_not]
    exact ⟨hne '^' (by decide), hne '!' (by decide)⟩
  · unfold isStringStart
    simp only [Bool.or_eq_false_iff, decide_eq_false_iff_not]
    exact ⟨hne '"' (by decide), hne '\'' (by decide)⟩
  · simp only [Bool.or_eq_false_iff]
    refine ⟨?_, hdig⟩
    unfold isNumericSign
    simp only [Bool.or_eq_false_iff, decide_eq_false_iff_not]
    exact ⟨hne '+' (by decide), hne '-' (by decide)⟩

/-- State facts after scanning one plain character and a run of
identifier-continue characters from a fresh span start. -/
theorem scan_state (c : Char) (cs rest : List Char) {l : LState}
    (hfresh : l.startIdx = l.idx)
    (hsplit : l.input.drop l.idx = c :: (cs ++ rest)) :
    ltext (lsteps cs (lstep c l)) = c :: cs ∧
    lpeek (lsteps cs (lstep c l)) = rest.head? ∧
    (lsteps cs (lstep c l)).start = l.start ∧
    (lsteps cs (lstep c l)).input = l.input ∧
    (lsteps cs (lstep c l)).idx = l.idx + (1 + cs.length) ∧
    l.input.drop (l.idx + (1 + cs.length)) = rest := by
  have hinp : (lsteps cs (lstep c l)).input = l.input := by simp
  have hidx : (lsteps cs (lstep c l)).idx = l.idx + (1 + cs.length) := by
    simp
    omega
  have hsi : (lsteps cs (lstep c l)).startIdx = l.startIdx := by simp
  have h2 : (l.input.drop l.idx).drop (1 + cs.length) = rest := by
    rw [hsplit, Nat.add_comm 1 cs.length, List.drop_succ_cons]
    exact List.drop_left cs rest
  have hdrop : l.input.drop (l.idx + (1 + cs.length)) = rest := by
    rw [← List.drop_drop]
    exact h2
  refine ⟨?_, ?_, by simp, hinp, hidx, hdrop⟩
  · unfold ltext
    rw [hinp, hidx, hsi, hfresh, hsplit]
    have harith : l.idx + (1 + cs.length) - l.idx = cs.length + 1 := by omega
    rw [harith, List.take_succ_cons, List.take_left]
  · unfold lpeek
    rw [hinp, hidx, hdrop]

section LexerMeta3

variable (letter : Char → Bool)



/-- The dispatcher enters the identifier scanner on a letter that matches
no earlier character class. -/
theorem lexStep_top_letter {l : LState} {c : Char} (hpk : lpeek l = some c)
    (hsp : isSpace c = false) (hpre : (c = '^' || c = '!') = false)
    (hasg : ¬(c = '=')) (hfs : ¬(c = ',')) (hls : ¬(c = ';')) (hps : ¬(c = ':'))
    (hss : isStringStart c = false) (hnum : (isNumericSign c || isDigit c) = false)
    (hlet : letter c = true) :
    lexStep letter .top l =
      ([], some (.identifierOrKeywordContinue, lstep c l)) := by
  simp only [lexStep]
  unfold lexTop
  rw [hpk]
  simp only []
  rw [if_neg (by simp [hsp]), if_neg (by simp [hpre]), if_neg hasg, if_neg hfs,
    if_neg hls, if_neg hps, if_neg (by simp [hss]), if_neg (by simp [hnum]),
    if_pos hlet, lnext_of_lpeek hpk]

/-- The dispatcher consumes a boolean-prefix character and emits the
BooleanPrefix token. -/
theorem lexStep_top_prefix {l : LState} {pc : Char}
    (hpk : lpeek l = some pc) (hpc : (pc = '^' || pc = '!') = true) :
    lexStep letter .top l =
      ([(lemit .booleanPrefix (lstep pc l)).1],
       some (.top, (lemit .booleanPrefix (lstep pc l)).2)) := by
  have hsp : isSpace pc = false := by
    simp only [Bool.or_eq_true, decide_eq_true_eq] at hpc
    rcases hpc with rfl | rfl <;> decide
  simp only [lexStep]
  unfold lexTop
  rw [hpk]
  simp only []
  rw [if_neg (by simp [hsp]), if_pos hpc, lnext_of_lpeek hpk]

/-- The dispatcher consumes '=' and emits the Assign token. -/
theorem lexStep_top_assign {l : LState} (hpk : lpeek l = some '=') :
    lexStep letter .top l =
      ([(lemit .assign (lstep '=' l)).1],
       some (.top, (lemit .assign (lstep '=' l)).2)) := by
  simp only [lexStep]
  unfold lexTop
  rw [hpk]
  simp only []
  rw [if_neg (by decide), if_neg (by decide), if_pos trivial, lnext_of_lpeek hpk]

/-- At end of input the dispatcher emits the EndOfInput token and halts. -/
theorem lexStep_top_eof {l : LState} (hpk : lpeek l = none) :
    lexStep letter .top l = ([⟨.eof, l.pos, []⟩], none) := by
  simp only [lexStep]
  unfold lexTop
  rw [hpk]
  simp only [lemit, lignore, ltext, Nat.sub_self, List.take_zero]

/-- When the pending character no longer continues an identifier and the
scanned text is no keyword, the scanner emits an Identifier token. -/
theorem lexStep_idkc_finish_ident {l : LState}
    (hstop : ∀ ch, lpeek l = some ch → isIdentifierContinue letter ch = false)
    (h1 : ltext l ≠ "true".data) (h2 : ltext l ≠ "false".data)
    (h3 : ltext l ≠ "nil".data) :
    lexStep letter .identifierOrKeywordContinue l =
      ([(lemit .identifier l).1], some (.top, (lemit .identifier l).2)) := by
  simp only [lexStep]
  unfold lexIdentifierOrKeywordContinue
  cases hpk : lpeek l with
  | none =>
      simp only []
      rw [if_neg h1, if_neg h2, if_neg h3]
  | some ch =>
      simp only []
      rw [if_neg (by simp [hstop ch hpk]), if_neg h1, if_neg h2, if_neg h3]

/-- When the scanned text is the keyword true, the scanner emits a True
token. -/
theorem lexStep_idkc_finish_true {l : LState}
    (hstop : ∀ ch, lpeek l = some ch → isIdentifierContinue letter ch = false)
    (ht : ltext l = "true".data) :
    lexStep letter .identifierOrKeywordContinue l =
      ([(lemit .trueKw l).1], some (.top, (lemit .trueKw l).2)) := by
  simp only [lexStep]
  unfold lexIdentifierOrKeywordContinue
  cases hpk : lpeek l with
  | none =>
      simp only []
      rw [if_pos ht]
  | some ch =>
      simp only []
      rw [if_neg (by simp [hstop ch hpk]), if_pos ht]

/-- When the scanned text is the keyword false, the scanner emits a False
token. -/
theorem lexStep_idkc_finish_false {l : LState}
    (hstop : ∀ ch, lpeek l = some ch → isIdentifierContinue letter ch = false)
    (ht : ltext l = "false".data) :
    lexStep letter .identifierOrKeywordContinue l =
      ([(lemit .falseKw l).1], some (.top, (lemit .falseKw l).2)) := by
  simp only [lexStep]
  unfold lexIdentifierOrKeywordContinue
  cases hpk : lpeek l with
  | none =>
      simp only []
      rw [if_neg (by rw [ht]; decide), if_pos ht]
  | some ch =>
      simp only []
      rw [if_neg (by simp [hstop ch hpk]), if_neg (by rw [ht]; decide), if_pos ht]

/-- The scanner consumes a letter head and a run of identifier-continue
characters, landing in the identifier state. -/
theorem runsTo_scan_ident (c : Char) (cs rest : List Char) {l : LState}
    (hsplit : l.input.drop l.idx = c :: (cs ++ rest))
    (hsp : isSpace c = false) (hpre : (c = '^' || c = '!') = false)
    (hasg : ¬(c = '=')) (hfs : ¬(c = ',')) (hls : ¬(c = ';')) (hps : ¬(c = ':'))
    (hss : isStringStart c = false) (hnum : (isNumericSign c || isDigit c) = false)
    (hlet : letter c = true)
    (hcs : ∀ ch ∈ cs, isIdentifierContinue letter ch = true)
    {toks : List Token}
    (hnext : RunsTo letter .identifierOrKeywordContinue (lsteps cs (lstep c l)) toks) :
    RunsTo letter .top l toks := by
  have hpk : lpeek l = some c := by
    unfold lpeek
    rw [hsplit]
    rfl
  have hstep1 := lexStep_top_letter letter hpk hsp hpre hasg hfs hls hps hss hnum hlet
  have hsplit2 : (lstep c l).input.drop (lstep c l).idx = cs ++ rest := by
    have hd := drop_cons_of_lpeek hpk
    rw [hsplit] at hd
    simpa [lstep] using hd.symm
  have h := runsTo_idkc_scan letter cs hcs hsplit2 hnext
  simpa using runsTo_cont letter hstep1 h

/-- After the final identifier character, the scanner emits the token for
the scanned text and then the EndOfInput token. -/
theorem runsTo_finish_eof {lf : LState} (typ : TokenType)
    (hstep3 : lexStep letter .identifierOrKeywordContinue lf =
      ([(lemit typ lf).1], some (.top, (lemit typ lf).2)))
    (hpkf : lpeek lf = none) :
    RunsTo letter .identifierOrKeywordContinue lf
      [(lemit typ lf).1, ⟨.eof, lf.pos, []⟩] := by
  have hpk4 : lpeek (lemit typ lf).2 = none := by
    rw [@lpeek_congr lf (lemit typ lf).2 (by simp) (by simp)]
    exact hpkf
  have hstep4 := lexStep_top_eof letter hpk4
  simpa using runsTo_cont letter hstep3 (runsTo_halt letter hstep4)

/-- A final identifier segment: the scanner emits the Identifier token
and the EndOfInput token. -/
theorem runsTo_ident_eof (c : Char) (cs : List Char) {l : LState}
    (hfresh : l.startIdx = l.idx)
    (hsplit : l.input.drop l.idx = c :: (cs ++ []))
    (hsp : isSpace c = false) (hpre : (c = '^' || c = '!') = false)
    (hasg : ¬(c = '=')) (hfs : ¬(c = ',')) (hls : ¬(c = ';')) (hps : ¬(c = ':'))
    (hss : isStringStart c = false) (hnum : (isNumericSign c || isDigit c) = false)
    (hlet : letter c = true)
    (hcs : ∀ ch ∈ cs, isIdentifierContinue letter ch = true)
    (hkw1 : c :: cs ≠ "true".data) (hkw2 : c :: cs ≠ "false".data)
    (hkw3 : c :: cs ≠ "nil".data) :
    ∃ p2 p3, RunsTo letter .top l
      [⟨.identifier, p2, c :: cs⟩, ⟨.eof, p3, []⟩] := by
  obtain ⟨htext, hpkf, hstart, hinpf, hidxf, hdropf⟩ := scan_state c cs [] hfresh hsplit
  have hstop : ∀ ch, lpeek (lsteps cs (lstep c l)) = some ch →
      isIdentifierContinue letter ch = false := by
    intro ch h
    rw [hpkf] at h
    cases h
  have hstep3 := lexStep_idkc_finish_ident letter hstop
    (by rw [htext]; exact hkw1) (by rw [htext]; exact hkw2) (by rw [htext]; exact hkw3)
  have hfin := runsTo_finish_eof letter .identifier hstep3 hpkf
  have ht2 : (lemit .identifier (lsteps cs (lstep c l))).1 =
      ⟨.identifier, l.start, c :: cs⟩ := by
    show (⟨.identifier, (lsteps cs (lstep c l)).start,
      ltext (lsteps cs (lstep c l))⟩ : Token) = _
    rw [htext, hstart]
  rw [ht2] at hfin
  exact ⟨l.start, (lsteps cs (lstep c l)).pos,
    runsTo_scan_ident letter c cs [] hsplit hsp hpre hasg hfs hls hps hss hnum hlet hcs hfin⟩

/-- An identifier segment followed by an assign character: the scanner
emits the Identifier and Assign tokens, leaving a fresh state on the
remaining input. -/
theorem runsTo_ident_assign (c : Char) (cs rest2 : List Char) {l : LState}
    (hfresh : l.startIdx = l.idx)
    (hsplit : l.input.drop l.idx = c :: (cs ++ ('=' :: rest2)))
    (hsp : isSpace c = false) (hpre : (c = '^' || c = '!') = false)
    (hasg : ¬(c = '=')) (hfs : ¬(c = ',')) (hls : ¬(c = ';')) (hps : ¬(c = ':'))
    (hss : isStringStart c = false) (hnum : (isNumericSign c || isDigit c) = false)
    (hlet : letter c = true)
    (hcs : ∀ ch ∈ cs, isIdentifierContinue letter ch = true)
    (hid : letter '=' = false)
    (hkw1 : c :: cs ≠ "true".data) (hkw2 : c :: cs ≠ "false".data)
    (hkw3 : c :: cs ≠ "nil".data) :
    ∃ p1 p2 l2, l2.input = l.input ∧ l2.startIdx = l2.idx ∧
      l2.input.drop l2.idx = rest2 ∧
      ∀ toks, RunsTo letter .top l2 toks →
        RunsTo letter .top l
          (⟨.identifier, p1, c :: cs⟩ :: ⟨.assign, p2, ['=']⟩ :: toks) := by
  obtain ⟨htext, hpkf, hstart, hinpf, hidxf, hdropf⟩ :=
    scan_state c cs ('=' :: rest2) hfresh hsplit
  have hpkf' : lpeek (lsteps cs (lstep c l)) = some '=' := hpkf
  have hstop : ∀ ch, lpeek (lsteps cs (lstep c l)) = some ch →
      isIdentifierContinue letter ch = false := by
    intro ch h
    rw [hpkf'] at h
    injection h with h
    subst h
    unfold isIdentifierContinue
    rw [hid]
    decide
  have hstep3 := lexStep_idkc_finish_ident letter hstop
    (by rw [htext]; exact hkw1) (by rw [htext]; exact hkw2) (by rw [htext]; exact hkw3)
  have ht2 : (lemit .identifier (lsteps cs (lstep c l))).1 =
      ⟨.identifier, l.start, c :: cs⟩ := by
    show (⟨.identifier, (lsteps cs (lstep c l)).start,
      ltext (lsteps cs (lstep c l))⟩ : Token) = _
    rw [htext, hstart]
  have hpk4 : lpeek (lemit .identifier (lsteps cs (lstep c l))).2 = some '=' := by
    rw [@lpeek_congr (lsteps cs (lstep c l))
      (lemit .identifier (lsteps cs (lstep c l))).2 (by simp) (by simp)]
    exact hpkf'
  have hstep4 := lexStep_top_assign letter hpk4
  have hE : (lstep '=' (lemit .identifier (lsteps cs (lstep c l))).2).startIdx
      = l.idx + (1 + cs.length) := by
    simp only [lstep_startIdx, lemit_startIdx, lsteps_idx, lstep_idx]
    omega
  have hE2 : (lstep '=' (lemit .identifier (lsteps cs (lstep c l))).2).idx
      = l.idx + (1 + cs.length) + 1 := by
    simp only [lstep_idx, lemit_idx, lsteps_idx]
    omega
  have htassign : (lemit .assign
      (lstep '=' (lemit .identifier (lsteps cs (lstep c l))).2)).1 =
      ⟨.assign, (lsteps cs (lstep c l)).pos, ['=']⟩ := by
    have hv : ltext (lstep '=' (lemit .identifier (lsteps cs (lstep c l))).2)
        = ['='] := by
      unfold ltext
      rw [hE, hE2]
      simp only [lstep_input, lemit_input, lsteps_input]
      rw [hdropf, Nat.add_sub_cancel_left]
      rfl
    have hS : (lstep '=' (lemit .identifier (lsteps cs (lstep c l))).2).start
        = (lsteps cs (lstep c l)).pos := by simp
    show (⟨.assign,
      (lstep '=' (lemit .identifier (lsteps cs (lstep c l))).2).start,
      ltext (lstep '=' (lemit .identifier (lsteps cs (lstep c l))).2)⟩ : Token) = _
    rw [hv, hS]
  refine ⟨l.start, (lsteps cs (lstep c l)).pos,
    (lemit .assign (lstep '=' (lemit .identifier (lsteps cs (lstep c l))).2)).2,
    by simp, rfl, ?_, ?_⟩
  · show (lemit .assign
        (lstep '=' (lemit .identifier (lsteps cs (lstep c l))).2)).2.input.drop
      (lstep '=' (lemit .identifier (lsteps cs (lstep c l))).2).idx = rest2
    rw [hE2]
    simp only [lemit_input, lstep_input, lsteps_input]
    rw [← List.drop_drop, hdropf]
    rfl
  · intro toks htoks
    have hchain := runsTo_scan_ident letter c cs ('=' :: rest2) hsplit
      hsp hpre hasg hfs hls hps hss hnum hlet hcs
      (runsTo_cont letter hstep3 (runsTo_cont letter hstep4 htoks))
    rw [ht2, htassign] at hchain
    exact hchain

/-- A keyword-true segment at end of input: the scanner emits the True
token and the EndOfInput token. -/
theorem runsTo_true_eof {l : LState}
    (hfresh : l.startIdx = l.idx)
    (hsplit : l.input.drop l.idx = "true".data)
    (hkl : ∀ ch ∈ "true".data, letter ch = true) :
    ∃ p q, RunsTo letter .top l
      [⟨.trueKw, p, "true".data⟩, ⟨.eof, q, []⟩] := by
  have hsplit2 : l.input.drop l.idx = 't' :: ("rue".data ++ []) := by
    rw [hsplit]
    rfl
  obtain ⟨htext, hpkf, hstart, hinpf, hidxf, hdropf⟩ :=
    scan_state 't' "rue".data [] hfresh hsplit2
  have hstop : ∀ ch, lpeek (lsteps "rue".data (lstep 't' l)) = some ch →
      isIdentifierContinue letter ch = false := by
    intro ch h
    rw [hpkf] at h
    cases h
  have hstep3 := lexStep_idkc_finish_true letter hstop (by rw [htext])
  have hfin := runsTo_finish_eof letter .trueKw hstep3 hpkf
  have ht2 : (lemit .trueKw (lsteps "rue".data (lstep 't' l))).1 =
      ⟨.trueKw, l.start, "true".data⟩ := by
    show (⟨.trueKw, (lsteps "rue".data (lstep 't' l)).start,
      ltext (lsteps "rue".data (lstep 't' l))⟩ : Token) = _
    rw [htext, hstart]
  rw [ht2] at hfin
  refine ⟨l.start, (lsteps "rue".data (lstep 't' l)).pos,
    runsTo_scan_ident letter 't' "rue".data [] hsplit2 (by decide) (by decide)
      (by decide) (by decide) (by decide) (by decide) (by decide) (by decide)
      (hkl 't' (by decide)) ?_ hfin⟩
  intro ch hch
  unfold isIdentifierContinue
  rw [hkl ch (List.mem_cons_of_mem 't' hch)]
  rfl

/-- A keyword-false segment at end of input: the scanner emits the False
token and the EndOfInput token. -/
theorem runsTo_false_eof {l : LState}
    (hfresh : l.startIdx = l.idx)
    (hsplit : l.input.drop l.idx = "false".data)
    (hkl : ∀ ch ∈ "false".data, letter ch = true) :
    ∃ p q, RunsTo letter .top l
      [⟨.falseKw, p, "false".data⟩, ⟨.eof, q, []⟩] := by
  have hsplit2 : l.input.drop l.idx = 'f' :: ("alse".data ++ []) := by
    rw [hsplit]
    rfl
  obtain ⟨htext, hpkf, hstart, hinpf, hidxf, hdropf⟩ :=
    scan_state 'f' "alse".data [] hfresh hsplit2
  have hstop : ∀ ch, lpeek (lsteps "alse".data (lstep 'f' l)) = some ch →
      isIdentifierContinue letter ch = false := by
    intro ch h
    rw [hpkf] at h
    cases h
  have hstep3 := lexStep_idkc_finish_false letter hstop (by rw [htext])
  have hfin := runsTo_finish_eof letter .falseKw hstep3 hpkf
  have ht2 : (lemit .falseKw (lsteps "alse".data (lstep 'f' l))).1 =
      ⟨.falseKw, l.start, "false".data⟩ := by
    show (⟨.falseKw, (lsteps "alse".data (lstep 'f' l)).start,
      ltext (lsteps "alse".data (lstep 'f' l))⟩ : Token) = _
    rw [htext, hstart]
  rw [ht2] at hfin
  refine ⟨l.start, (lsteps "alse".data (lstep 'f' l)).pos,
    runsTo_scan_ident letter 'f' "alse".data [] hsplit2 (by decide) (by decide)
      (by decide) (by decide) (by decide) (by decide) (by decide) (by decide)
      (hkl 'f' (by decide)) ?_ hfin⟩
  intro ch hch
  unfold isIdentifierContinue
  rw [hkl ch (List.mem_cons_of_mem 'f' hch)]
  rfl

/-- Full scan of a boolean-prefix character followed by an identifier. -/
theorem Lex_prefix_ident (pc c : Char) (cs : List Char)
    (hpc : (pc = '^' || pc = '!') = true)
    (hsp : isSpace c = false) (hpre : (c = '^' || c = '!') = false)
    (hasg : ¬(c = '=')) (hfs : ¬(c = ',')) (hls : ¬(c = ';')) (hps : ¬(c = ':'))
    (hss : isStringStart c = false) (hnum : (isNumericSign c || isDigit c) = false)
    (hlet : letter c = true)
    (hcs : ∀ ch ∈ cs, isIdentifierContinue letter ch = true)
    (hkw1 : c :: cs ≠ "true".data) (hkw2 : c :: cs ≠ "false".data)
    (hkw3 : c :: cs ≠ "nil".data) :
    ∃ p1 p2 p3, Lex letter (pc :: c :: cs) =
      [⟨.booleanPrefix, p1, [pc]⟩, ⟨.identifier, p2, c :: cs⟩,
       ⟨.eof, p3, []⟩] := by
  have hpk0 : lpeek (initLState (pc :: c :: cs)) = some pc := rfl
  have hstep1 := lexStep_top_prefix letter hpk0 hpc
  obtain ⟨p2, p3, hseg⟩ := runsTo_ident_eof letter c cs
    (l := (lemit .booleanPrefix (lstep pc (initLState (pc :: c :: cs)))).2)
    rfl (by simp [initLState]) hsp hpre hasg hfs hls hps hss hnum hlet hcs
    hkw1 hkw2 hkw3
  refine ⟨⟨0, 1⟩, p2, p3, ?_⟩
  rw [runsTo_Lex letter (runsTo_cont letter hstep1 hseg)]
  rfl

/-- Full scan of an identifier, an assign sign and the keyword true. -/
theorem Lex_ident_eq_true (c : Char) (cs : List Char)
    (hsp : isSpace c = false) (hpre : (c = '^' || c = '!') = false)
    (hasg : ¬(c = '=')) (hfs : ¬(c = ',')) (hls : ¬(c = ';')) (hps : ¬(c = ':'))
    (hss : isStringStart c = false) (hnum : (isNumericSign c || isDigit c) = false)
    (hlet : letter c = true)
    (hcs : ∀ ch ∈ cs, isIdentifierContinue letter ch = true)
    (hid : letter '=' = false)
    (hkl : ∀ ch ∈ "true".data, letter ch = true)
    (hkw1 : c :: cs ≠ "true".data) (hkw2 : c :: cs ≠ "false".data)
    (hkw3 : c :: cs ≠ "nil".data) :
    ∃ p1 p2 p3 p4, Lex letter ((c :: cs) ++ '=' :: "true".data) =
      [⟨.identifier, p1, c :: cs⟩, ⟨.assign, p2, ['=']⟩,
       ⟨.trueKw, p3, "true".data⟩, ⟨.eof, p4, []⟩] := by
  obtain ⟨p1, p2, l2, hinp2, hfresh2, hdrop2, htrans⟩ :=
    runsTo_ident_assign letter c cs "true".data
      (l := initLState ((c :: cs) ++ '=' :: "true".data))
      rfl (by simp [initLState]) hsp hpre hasg hfs hls hps hss hnum hlet hcs hid
      hkw1 hkw2 hkw3
  obtain ⟨p3, p4, hkwrun⟩ := runsTo_true_eof letter hfresh2 hdrop2 hkl
  exact ⟨p1, p2, p3, p4, runsTo_Lex letter (htrans _ hkwrun)⟩

/-- Full scan of an identifier, an assign sign and the keyword false. -/
theorem Lex_ident_eq_false (c : Char) (cs : List Char)
    (hsp : isSpace c = false) (hpre : (c = '^' || c = '!') = false)
    (hasg : ¬(c = '=')) (hfs : ¬(c = ',')) (hls : ¬(c = ';')) (hps : ¬(c = ':'))
    (hss : isStringStart c = false) (hnum : (isNumericSign c || isDigit c) = false)
    (hlet : letter c = true)
    (hcs : ∀ ch ∈ cs, isIdentifierContinue letter ch = true)
    (hid : letter '=' = false)
    (hkl : ∀ ch ∈ "false".data, letter ch = true)
    (hkw1 : c :: cs ≠ "true".data) (hkw2 : c :: cs ≠ "false".data)
    (hkw3 : c :: cs ≠ "nil".data) :
    ∃ p1 p2 p3 p4, Lex letter ((c :: cs) ++ '=' :: "false".data) =
      [⟨.identifier, p1, c :: cs⟩, ⟨.assign, p2, ['=']⟩,
       ⟨.falseKw, p3, "false".data⟩, ⟨.eof, p4, []⟩] := by
  obtain ⟨p1, p2, l2, hinp2, hfresh2, hdrop2, htrans⟩ :=
    runsTo_ident_assign letter c cs "false".data
      (l := initLState ((c :: cs) ++ '=' :: "false".data))
      rfl (by simp [initLState]) hsp hpre hasg hfs hls hps hss hnum hlet hcs hid
      hkw1 hkw2 hkw3
  obtain ⟨p3, p4, hkwrun⟩ := runsTo_false_eof letter hfresh2 hdrop2 hkl
  exact ⟨p1, p2, p3, p4, runsTo_Lex letter (htrans _ hkwrun)⟩

end LexerMeta3

/-! ## C8 and C9: scanner termination shape and verbatim spans -/

/-- C8: for every input (and any letter predicate), the token sequence
produced by Lex is a finite list whose last token is terminal — its type
is Error or EndOfInput — and this terminal token is unique: every earlier
token is non-terminal, and no token follows it. -/
theorem C8_lexer_terminates_with_one_terminal (letter : Char → Bool)
    (input : List Char) :
    ∃ B t, Lex letter input = B ++ [t] ∧
      (t.typ = .error ∨ t.typ = .eof) ∧
      ∀ t' ∈ B, t'.typ ≠ .error ∧ t'.typ ≠ .eof := by
  obtain ⟨B, t, h1, h2, h3⟩ := Lex_good letter input
  refine ⟨B, t, h1, ?_, fun t' ht' => ?_⟩
  · have := h2
    unfold terminalTok at this
    simpa [Bool.or_eq_true, decide_eq_true_eq] using this
  · have := (h3 t' ht').1
    unfold terminalTok at this
    simpa [Bool.or_eq_false_iff, decide_eq_false_iff_not] using this

/-- C9: every token emitted by Lex other than Error and EndOfInput carries
the verbatim scanned span: the input splits as pre ++ val ++ post and the
token's recorded offset is the UTF-8 byte length of pre. -/
theorem C9_tokens_are_verbatim_spans (letter : Char → Bool)
    (input : List Char) (t : Token) (ht : t ∈ Lex letter input)
    (hterm : t.typ ≠ .error ∧ t.typ ≠ .eof) :
    ∃ pre post, input = pre ++ t.val ++ post ∧ t.pos.offset = utf8Len pre := by
  obtain ⟨B, tl, h1, h2, h3⟩ := Lex_good letter input
  rw [h1, List.mem_append, List.mem_singleton] at ht
  rcases ht with h | rfl
  · exact (h3 t h).2
  · exfalso
    unfold terminalTok at h2
    simp only [Bool.or_eq_true, decide_eq_true_eq] at h2
    rcases h2 with h | h
    · exact hterm.1 h
    · exact hterm.2 h

/-- C4: for every identifier name (a letter followed by
identifier-continue characters, not a keyword), parsing ^name produces
exactly the events of name=true, parsing !name produces exactly the
events of name=false, and both equal the four-event sequence MapStart,
MapKey(Identifier name), Value(Boolean), MapEnd. -/
theorem C4_boolean_prefix_equiv (c : Char) (cs : List Char)
    (hc : asciiLetter c = true)
    (hcs : ∀ ch ∈ cs, isIdentifierContinue asciiLetter ch = true)
    (hkw1 : c :: cs ≠ "true".data) (hkw2 : c :: cs ≠ "false".data)
    (hkw3 : c :: cs ≠ "nil".data) :
    Parse asciiLetter ('^' :: c :: cs) true =
        Parse asciiLetter ((c :: cs) ++ "=true".data) true ∧
    Parse asciiLetter ('!' :: c :: cs) true =
        Parse asciiLetter ((c :: cs) ++ "=false".data) true ∧
    Parse asciiLetter ('^' :: c :: cs) true =
        [.mapStart, .mapKey (some (.identifierValue (c :: cs))),
         .value (some (.booleanValue "true".data)), .mapEnd] ∧
    Parse asciiLetter ('!' :: c :: cs) true =
        [.mapStart, .mapKey (some (.identifierValue (c :: cs))),
         .value (some (.booleanValue "false".data)), .mapEnd] := by
  obtain ⟨hsp, hpre, hasg, hfs, hls, hps, hss, hnum⟩ := alpha_plain hc
  obtain ⟨a1, a2, a3, hA⟩ := Lex_prefix_ident asciiLetter '^' c cs (by decide)
    hsp hpre hasg hfs hls hps hss hnum hc hcs hkw1 hkw2 hkw3
  obtain ⟨b1, b2, b3, hB⟩ := Lex_prefix_ident asciiLetter '!' c cs (by decide)
    hsp hpre hasg hfs hls hps hss hnum hc hcs hkw1 hkw2 hkw3
  obtain ⟨d1, d2, d3, d4, hC⟩ := Lex_ident_eq_true asciiLetter c cs
    hsp hpre hasg hfs hls hps hss hnum hc hcs (by decide) (by decide)
    hkw1 hkw2 hkw3
  obtain ⟨e1, e2, e3, e4, hD⟩ := Lex_ident_eq_false asciiLetter c cs
    hsp hpre hasg hfs hls hps hss hnum hc hcs (by decide) (by decide)
    hkw1 hkw2 hkw3
  unfold Parse
  rw [hA, hB, hC, hD]
  exact ⟨rfl, rfl, rfl, rfl⟩

/-- The boolean-prefix equivalences at the concrete name ab. -/
theorem C4_boolean_prefix_equiv_witness :
    Parse asciiLetter ('^' :: 'a' :: ['b']) true =
        Parse asciiLetter (('a' :: ['b']) ++ "=true".data) true ∧
    Parse asciiLetter ('!' :: 'a' :: ['b']) true =
        Parse asciiLetter (('a' :: ['b']) ++ "=false".data) true ∧
    Parse asciiLetter ('^' :: 'a' :: ['b']) true =
        [.mapStart, .mapKey (some (.identifierValue ('a' :: ['b']))),
         .value (some (.booleanValue "true".data)), .mapEnd] ∧
    Parse asciiLetter ('!' :: 'a' :: ['b']) true =
        [.mapStart, .mapKey (some (.identifierValue ('a' :: ['b']))),
         .value (some (.booleanValue "false".data)), .mapEnd] :=
  C4_boolean_prefix_equiv 'a' ['b'] (by decide) (by decide) (by decide)
    (by decide) (by decide)

/-- The identifier token of the run on "a=1" is a verbatim span. -/
theorem C9_tokens_are_verbatim_spans_witness :
    ∃ pre post, "a=1".data =
        pre ++ (Token.mk .identifier ⟨0, 1⟩ ['a']).val ++ post ∧
      (Token.mk .identifier ⟨0, 1⟩ ['a']).pos.offset = utf8Len pre :=
  C9_tokens_are_verbatim_spans asciiLetter "a=1".data
    ⟨.identifier, ⟨0, 1⟩, ['a']⟩ (by decide) (by decide)

/-! ## C1: bracket balance of the event stream -/

/-- The tokens the parser has not consumed yet: the one-token lookahead
buffer followed by the unread sequence. -/
def supply (s : PState) : List Token :=
  (match s.peeked with | some t => [t] | none => []) ++ s.rest

/-- Whether an event is an Error event. -/
def isErrEv : ParserEvent → Bool
  | .error _ _ => true
  | _ => false

/-- Run the bracket checker over an event segment from an open-bracket
stack (true marks an open list, false an open map); none on mismatch. -/
def bracketRun : List ParserEvent → List Bool → Option (List Bool)
  | [], st => some st
  | ev :: evs, st =>
    match ev, st with
    | .listStart, _ => bracketRun evs (true :: st)
    | .mapStart, _ => bracketRun evs (false :: st)
    | .listEnd, true :: st2 => bracketRun evs st2
    | .mapEnd, false :: st2 => bracketRun evs st2
    | .listEnd, _ => none
    | .mapEnd, _ => none
    | _, _ => bracketRun evs st

/-- A segment that leaves every bracket stack unchanged. -/
def Neutral (evs : List ParserEvent) : Prop :=
  ∀ st, bracketRun evs st = some st

/-- The open brackets implied by a top-level parser state. -/
def stk : ParserState → List Bool
  | .start => []
  | .ordered => [true]
  | .labeled => [false]
  | .eofState => []

/-- A token sequence ending in a terminal token. -/
def EndsTerm (ts : List Token) : Prop :=
  ∃ B t, ts = B ++ [t] ∧ terminalTok t = true

/-- The unconsumed sequence still ends in a terminal token, unless the
current token is itself terminal, in which case everything has been
consumed. -/
def Cur (s : PState) : Prop :=
  (terminalTok s.current = true ∧ supply s = []) ∨ EndsTerm (supply s)

theorem bracketRun_append (e1 e2 : List ParserEvent) (st : List Bool) :
    bracketRun (e1 ++ e2) st =
      (bracketRun e1 st).bind (fun st2 => bracketRun e2 st2) := by
  induction e1 generalizing st with
  | nil => rfl
  | cons ev evs ih =>
      cases ev with
      | listStart => simpa [bracketRun] using ih _
      | mapStart => simpa [bracketRun] using ih _
      | listEnd =>
          cases st with
          | nil => rfl
          | cons b st2 => cases b
                          · rfl
                          · simpa [bracketRun] using ih _
      | mapEnd =>
          cases st with
          | nil => rfl
          | cons b st2 => cases b
                          · simpa [bracketRun] using ih _
                          · rfl
      | mapKey v => simpa [bracketRun] using ih _
      | value v => simpa [bracketRun] using ih _
      | error p m => simpa [bracketRun] using ih _

/-- The bracket effect of the updateState transitions the parser
performs: the open brackets implied by the old state become those of the
new state. -/
theorem updateEvents_bracket : ∀ os ns : ParserState, os ≠ .eofState →
    (ns = .ordered → os.toNat ≤ 1) → ns ≠ .start →
    bracketRun (updateEvents os ns) (stk os) = some (stk ns) := by
  intro os ns
  cases os <;> cases ns <;> decide

theorem neutral_nil : Neutral [] := fun _ => rfl

theorem neutral_append {e1 e2 : List ParserEvent} (h1 : Neutral e1)
    (h2 : Neutral e2) : Neutral (e1 ++ e2) := by
  intro st
  rw [bracketRun_append, h1 st]
  exact h2 st

@[simp] theorem supply_pemit (ev : ParserEvent) (s : PState) :
    supply (pemit ev s) = supply s := rfl

@[simp] theorem supply_perrorf (msg : List Char) (s : PState) :
    supply (perrorf msg s) = supply s := rfl

@[simp] theorem perrorf_events (msg : List Char) (s : PState) :
    (perrorf msg s).events = s.events ++ [.error s.current.pos msg] := rfl

@[simp] theorem perrorf_state (msg : List Char) (s : PState) :
    (perrorf msg s).state = s.state := rfl

@[simp] theorem perrorf_allowOrdered (msg : List Char) (s : PState) :
    (perrorf msg s).allowOrdered = s.allowOrdered := rfl

@[simp] theorem perrorf_hasToken (msg : List Char) (s : PState) :
    (perrorf msg s).hasToken = s.hasToken := rfl

@[simp] theorem perrorf_current (msg : List Char) (s : PState) :
    (perrorf msg s).current = s.current := rfl

/-- Peek fills the buffer without changing the unconsumed sequence. -/
theorem ppeek_spec (s : PState) :
    (ppeek s).1 = (supply s).head? ∧ supply (ppeek s).2 = supply s ∧
    (ppeek s).2.events = s.events ∧ (ppeek s).2.current = s.current ∧
    (ppeek s).2.hasToken = s.hasToken ∧ (ppeek s).2.state = s.state ∧
    (ppeek s).2.allowOrdered = s.allowOrdered := by
  unfold ppeek supply
  cases hp : s.peeked with
  | some t => simp [hp]
  | none =>
      cases hr : s.rest with
      | nil => simp [hp, hr]
      | cons t ts => simp [hp, hr]

/-- isNext reports whether the head of the unconsumed sequence has one of
the given types, without consuming it. -/
theorem isNext_spec (typs : List TokenType) (s : PState) :
    (isNext typs s).1 = (match (supply s).head? with
      | some t => typs.contains t.typ
      | none => false) ∧
    supply (isNext typs s).2 = supply s ∧
    (isNext typs s).2.events = s.events ∧
    (isNext typs s).2.current = s.current ∧
    (isNext typs s).2.hasToken = s.hasToken ∧
    (isNext typs s).2.state = s.state ∧
    (isNext typs s).2.allowOrdered = s.allowOrdered := by
  obtain ⟨h1, h2, h3, h4, h5, h6, h7⟩ := ppeek_spec s
  unfold isNext
  cases hpk : ppeek s with
  | mk o s1 =>
      rw [hpk] at h1 h2 h3 h4 h5 h6 h7
      cases o with
      | some t => exact ⟨by rw [← h1], h2, h3, h4, h5, h6, h7⟩
      | none => exact ⟨by rw [← h1], h2, h3, h4, h5, h6, h7⟩

/-- advance on a non-empty unconsumed sequence. -/
theorem padvance_cons {s : PState} {t : Token} {ts : List Token}
    (h : supply s = t :: ts) :
    (padvance s).2 = true ∧ (padvance s).1.current = t ∧
    supply (padvance s).1 = ts ∧ (padvance s).1.events = s.events ∧
    (padvance s).1.state = s.state ∧
    (padvance s).1.allowOrdered = s.allowOrdered ∧
    (padvance s).1.hasToken = true := by
  unfold supply at h
  unfold padvance
  cases hp : s.peeked with
  | some u =>
      rw [hp] at h
      simp only [List.singleton_append, List.cons.injEq] at h
      obtain ⟨rfl, rfl⟩ := h
      exact ⟨rfl, rfl, by simp [supply], rfl, rfl, rfl, rfl⟩
  | none =>
      rw [hp] at h
      simp only [List.nil_append] at h
      rw [h]
      exact ⟨rfl, rfl, by simp [supply, hp], rfl, rfl, rfl, rfl⟩

/-- advance on an exhausted sequence fails and only clears hasToken. -/
theorem padvance_nil {s : PState} (h : supply s = []) :
    (padvance s).2 = false ∧ (padvance s).1.current = s.current ∧
    supply (padvance s).1 = [] ∧ (padvance s).1.events = s.events ∧
    (padvance s).1.state = s.state ∧
    (padvance s).1.allowOrdered = s.allowOrdered ∧
    (padvance s).1.hasToken = false := by
  unfold supply at h
  unfold padvance
  cases hp : s.peeked with
  | some u => rw [hp] at h; simp at h
  | none =>
      rw [hp] at h
      simp only [List.nil_append] at h
      rw [h]
      exact ⟨rfl, rfl, by simp [supply, hp, h], rfl, rfl, rfl, rfl⟩

/-- isToken succeeds exactly on a held token of the wanted type. -/
theorem isToken_true {typ : TokenType} {s : PState}
    (h1 : s.hasToken = true) (h2 : s.current.typ = typ) :
    isToken typ s = (s, true) := by
  unfold isToken
  rw [h1, h2]
  simp

/-- isToken fails with an error event otherwise. -/
theorem isToken_false {typ : TokenType} {s : PState}
    (h : ¬(s.hasToken = true ∧ s.current.typ = typ)) :
    ∃ msg, isToken typ s = (perrorf msg s, false) := by
  unfold isToken
  by_cases h1 : s.hasToken = true
  · have h2 : s.current.typ ≠ typ := fun he => h ⟨h1, he⟩
    rw [h1]
    simp only [Bool.not_true, Bool.false_eq_true, if_false]
    rw [if_pos h2]
    exact ⟨_, rfl⟩
  · have h1' : s.hasToken = false := by
      cases hb : s.hasToken
      · rfl
      · exact absurd hb h1
    rw [h1']
    exact ⟨_, rfl⟩

/-- isValue succeeds exactly on scalar value token types. -/
theorem isValue_true {s : PState} (h : isValueType s.current.typ = true) :
    isValue s = (s, true) := by
  unfold isValue
  cases ht : s.current.typ <;> rw [ht] at h <;> first | rfl | exact absurd h (by decide)

/-- isValue fails with an error event otherwise. -/
theorem isValue_false {s : PState} (h : isValueType s.current.typ = false) :
    ∃ msg, isValue s = (perrorf msg s, false) := by
  unfold isValue
  cases ht : s.current.typ <;> rw [ht] at h <;>
    first | exact ⟨_, rfl⟩ | exact absurd h (by decide)

/-- Consuming the head of a terminal-ended sequence leaves a state whose
current token is terminal or whose sequence still ends terminal. -/
theorem cur_after_advance {s : PState} {t : Token} {ts : List Token}
    (h : supply s = t :: ts) (he : EndsTerm (supply s)) :
    Cur (padvance s).1 := by
  obtain ⟨-, hc, hs, -, -, -, -⟩ := padvance_cons h
  obtain ⟨B, tm, hB, htm⟩ := he
  cases B with
  | nil =>
      left
      rw [hB] at h
      simp only [List.nil_append, List.cons.injEq] at h
      constructor
      · rw [hc, ← h.1]
        exact htm
      · rw [hs, ← h.2]
  | cons b B2 =>
      right
      rw [hB] at h
      simp only [List.cons_append, List.cons.injEq] at h
      rw [hs, ← h.2]
      exact ⟨B2, tm, rfl, htm⟩

theorem neutral_plain (ev : ParserEvent)
    (h : ev ≠ .listStart ∧ ev ≠ .listEnd ∧ ev ≠ .mapStart ∧ ev ≠ .mapEnd) :
    Neutral [ev] := by
  intro st
  cases ev with
  | listStart => exact absurd rfl h.1
  | listEnd => exact absurd rfl h.2.1
  | mapStart => exact absurd rfl h.2.2.1
  | mapEnd => exact absurd rfl h.2.2.2
  | mapKey v => rfl
  | value v => rfl
  | error p m => rfl

/-- A terminal-ended sequence is a cons. -/
theorem endsTerm_cons {ts : List Token} (h : EndsTerm ts) :
    ∃ t0 ts0, ts = t0 :: ts0 := by
  obtain ⟨B, tm, hB, -⟩ := h
  cases B with
  | nil => exact ⟨tm, [], by simp [hB]⟩
  | cons b B2 => exact ⟨b, B2 ++ [tm], by rw [hB]; rfl⟩

/-- Dropping the non-terminal head of a terminal-ended sequence leaves a
terminal-ended sequence. -/
theorem endsTerm_tail {t0 : Token} {ts0 : List Token}
    (h : EndsTerm (t0 :: ts0)) (hnt : terminalTok t0 = false) :
    EndsTerm ts0 := by
  obtain ⟨B, tm, hB, htm⟩ := h
  cases B with
  | nil =>
      simp only [List.nil_append, List.cons.injEq] at hB
      rw [hB.1] at hnt
      rw [htm] at hnt
      cases hnt
  | cons b B2 =>
      simp only [List.cons_append, List.cons.injEq] at hB
      exact ⟨B2, tm, hB.2, htm⟩

theorem parseBooleanPrefix_spec (s : PState)
    (hcur : Cur s) (hbp : s.current.typ = .booleanPrefix) :
    ∃ Δ, (parseBooleanPrefix s).1.events = s.events ++ Δ ∧
      ((parseBooleanPrefix s).2 = true → Neutral Δ ∧
        (parseBooleanPrefix s).1.hasToken = true ∧
        Cur (parseBooleanPrefix s).1) ∧
      ((parseBooleanPrefix s).2 = false → Δ.any isErrEv = true) ∧
      (parseBooleanPrefix s).1.state = s.state ∧
      (parseBooleanPrefix s).1.allowOrdered = s.allowOrdered ∧
      (supply (parseBooleanPrefix s).1).length ≤ (supply s).length := by
  have hterm : terminalTok s.current = false := by
    unfold terminalTok
    rw [hbp]
    rfl
  have hET : EndsTerm (supply s) := by
    rcases hcur with ⟨h, -⟩ | h
    · rw [hterm] at h
      cases h
    · exact h
  obtain ⟨t0, ts0, hsup⟩ := endsTerm_cons hET
  obtain ⟨hok1, hc1, hs1, he1, hst1, hao1, hht1⟩ := padvance_cons hsup
  have hadv : padvance s = ((padvance s).1, true) := Prod.ext rfl hok1
  unfold parseBooleanPrefix
  rw [hadv]
  simp only []
  by_cases hid : (padvance s).1.current.typ = .identifier
  · rw [isToken_true hht1 hid]
    simp only []
    -- the final advance: supply after two emissions is ts0, terminal-ended
    have hET0 : EndsTerm ts0 := by
      apply endsTerm_tail (hsup ▸ hET)
      unfold terminalTok
      rw [← hc1, hid]
      decide
    obtain ⟨u0, us0, hsup2⟩ := endsTerm_cons hET0
    have hsup4 : supply (pemit (.value (some (.booleanValue
        (if s.current.val = "^".data then "true".data else "false".data))))
        (pemit (.mapKey (toValue (padvance s).1)) (padvance s).1)) = u0 :: us0 := by
      rw [supply_pemit, supply_pemit, hs1, hsup2]
    obtain ⟨hok2, hc2, hs2, he2, hst2, hao2, hht2⟩ := padvance_cons hsup4
    refine ⟨[.mapKey (toValue (padvance s).1),
      .value (some (.booleanValue
        (if s.current.val = "^".data then "true".data else "false".data)))],
      ?_, ?_, ?_, ?_, ?_, ?_⟩
    · rw [he2]
      simp only [pemit_events, List.append_assoc]
      rw [he1]
      rfl
    · intro _
      refine ⟨fun st => rfl, hht2, ?_⟩
      apply cur_after_advance hsup4
      rw [hsup4]
      rw [hsup2] at hET0
      exact hET0
    · rw [hok2]
      intro h
      cases h
    · rw [hst2]
      simp only [pemit_state]
      rw [hst1]
    · rw [hao2]
      simp only [pemit_allowOrdered]
      rw [hao1]
    · rw [hs2, hsup, hsup2] at *
      simp [hsup]
      omega
  · obtain ⟨msg, hIT⟩ := isToken_false (fun hh => hid hh.2)
    rw [hIT]
    simp only []
    refine ⟨[.error (padvance s).1.current.pos msg], ?_, ?_, ?_, ?_, ?_, ?_⟩
    · rw [perrorf_events, he1]
    · intro h
      cases h
    · intro _
      rfl
    · rw [perrorf_state, hst1]
    · rw [perrorf_allowOrdered, hao1]
    · rw [supply_perrorf, hs1, hsup]
      simp

/-- A scalar value token is not terminal. -/
theorem nonterm_of_isValueType {t : Token} (h : isValueType t.typ = true) :
    terminalTok t = false := by
  unfold terminalTok
  cases ht : t.typ <;> rw [ht] at h <;> first | rfl | exact absurd h (by decide)

theorem parseDictPair_spec (s : PState) (hcur : Cur s) :
    ∃ Δ, (parseDictPair s).1.events = s.events ++ Δ ∧
      ((parseDictPair s).2 = true → Neutral Δ ∧
        (parseDictPair s).1.hasToken = true ∧ Cur (parseDictPair s).1) ∧
      ((parseDictPair s).2 = false → Δ.any isErrEv = true) ∧
      (parseDictPair s).1.state = s.state ∧
      (parseDictPair s).1.allowOrdered = s.allowOrdered ∧
      (supply (parseDictPair s).1).length ≤ (supply s).length := by
  unfold parseDictPair
  by_cases hv : isValueType s.current.typ = true
  · rw [isValue_true hv]
    simp only []
    have hterm : terminalTok s.current = false := nonterm_of_isValueType hv
    have hET : EndsTerm (supply s) := by
      rcases hcur with ⟨h, -⟩ | h
      · rw [hterm] at h
        cases h
      · exact h
    obtain ⟨t0, ts0, hsup⟩ := endsTerm_cons hET
    have hsupP : supply (pemit (.mapKey (toValue s)) s) = t0 :: ts0 := by
      rw [supply_pemit, hsup]
    obtain ⟨hok1, hc1, hs1, he1, hst1, hao1, hht1⟩ := padvance_cons hsupP
    have hadv1 : padvance (pemit (.mapKey (toValue s)) s) =
        ((padvance (pemit (.mapKey (toValue s)) s)).1, true) := Prod.ext rfl hok1
    rw [hadv1]
    simp only []
    have hETsP : EndsTerm (supply (pemit (.mapKey (toValue s)) s)) := by
      rw [supply_pemit]
      exact hET
    by_cases hps : (padvance (pemit (.mapKey (toValue s)) s)).1.current.typ
        = .pairSeparator
    · rw [isToken_true hht1 hps]
      simp only []
      have hET1 : EndsTerm ts0 := by
        apply endsTerm_tail (hsupP ▸ hETsP)
        unfold terminalTok
        rw [← hc1, hps]
        decide
      obtain ⟨u0, us0, hsup2⟩ := endsTerm_cons hET1
      have hsupQ : supply (padvance (pemit (.mapKey (toValue s)) s)).1
          = u0 :: us0 := by rw [hs1, hsup2]
      obtain ⟨hok2, hc2, hs2, he2, hst2, hao2, hht2⟩ := padvance_cons hsupQ
      have hadv2 : padvance (padvance (pemit (.mapKey (toValue s)) s)).1 =
          ((padvance (padvance (pemit (.mapKey (toValue s)) s)).1).1, true) :=
        Prod.ext rfl hok2
      rw [hadv2]
      simp only []
      by_cases hv2 : isValueType
          (padvance (padvance (pemit (.mapKey (toValue s)) s)).1).1.current.typ = true
      · rw [isValue_true hv2]
        simp only []
        have hET2 : EndsTerm us0 := by
          apply endsTerm_tail (hsup2 ▸ hET1)
          apply nonterm_of_isValueType
          rw [hc2]at hv2
          exact hv2
        obtain ⟨w0, ws0, hsup3⟩ := endsTerm_cons hET2
        have hsupR : supply (pemit
            (.value (toValue (padvance (padvance (pemit (.mapKey (toValue s)) s)).1).1))
            (padvance (padvance (pemit (.mapKey (toValue s)) s)).1).1)
            = w0 :: ws0 := by
          rw [supply_pemit, hs2, hsup3]
        obtain ⟨hok3, hc3, hs3, he3, hst3, hao3, hht3⟩ := padvance_cons hsupR
        refine ⟨[.mapKey (toValue s),
          .value (toValue (padvance (padvance (pemit (.mapKey (toValue s)) s)).1).1)],
          ?_, ?_, ?_, ?_, ?_, ?_⟩
        · rw [he3]
          simp only [pemit_events]
          rw [he2, he1]
          simp only [pemit_events, List.append_assoc]
          rfl
        · intro _
          refine ⟨fun st => rfl, hht3, ?_⟩
          apply cur_after_advance hsupR
          rw [hsupR, ← hsup3]
          exact hET2
        · rw [hok3]
          intro h
          cases h
        · rw [hst3]
          simp only [pemit_state]
          rw [hst2, hst1]
          simp
        · rw [hao3]
          simp only [pemit_allowOrdered]
          rw [hao2, hao1]
          simp
        · rw [hs3, hsup, hsup2, hsup3]
          simp only [List.length_cons]
          omega
      · have hv2f : isValueType
            (padvance (padvance (pemit (.mapKey (toValue s)) s)).1).1.current.typ
            = false := by
          cases hb : isValueType
            (padvance (padvance (pemit (.mapKey (toValue s)) s)).1).1.current.typ
          · rfl
          · exact absurd hb hv2
        obtain ⟨msg, hIV⟩ := isValue_false hv2f
        rw [hIV]
        simp only []
        refine ⟨[.mapKey (toValue s), .error
          (padvance (padvance (pemit (.mapKey (toValue s)) s)).1).1.current.pos msg],
          ?_, ?_, ?_, ?_, ?_, ?_⟩
        · rw [perrorf_events, he2, he1]
          simp only [pemit_events, List.append_assoc]
          rfl
        · intro h
          cases h
        · intro _
          rfl
        · rw [perrorf_state, hst2, hst1]
          simp
        · rw [perrorf_allowOrdered, hao2, hao1]
          simp
        · rw [supply_perrorf, hs2, hsup, hsup2]
          simp only [List.length_cons]
          omega
    · obtain ⟨msg, hIT⟩ := isToken_false (fun hh => hps hh.2)
      rw [hIT]
      simp only []
      refine ⟨[.mapKey (toValue s), .error
        (padvance (pemit (.mapKey (toValue s)) s)).1.current.pos msg],
        ?_, ?_, ?_, ?_, ?_, ?_⟩
      · rw [perrorf_events, he1]
        simp only [pemit_events, List.append_assoc]
        rfl
      · intro h
        cases h
      · intro _
        rfl
      · rw [perrorf_state, hst1]
        simp
      · rw [perrorf_allowOrdered, hao1]
        simp
      · rw [supply_perrorf, hs1, hsup]
        simp only [List.length_cons]
        omega
  · have hvf : isValueType s.current.typ = false := by
      cases hb : isValueType s.current.typ
      · rfl
      · exact absurd hb hv
    obtain ⟨msg, hIV⟩ := isValue_false hvf
    rw [hIV]
    simp only []
    refine ⟨[.error s.current.pos msg], ?_, ?_, ?_, ?_, ?_, ?_⟩
    · rw [perrorf_events]
    · intro h
      cases h
    · intro _
      rfl
    · rw [perrorf_state]
    · rw [perrorf_allowOrdered]
    · rw [supply_perrorf]

theorem parseDictEntry_spec (s : PState) (hcur : Cur s) :
    ∃ Δ, (parseDictEntry s).1.events = s.events ++ Δ ∧
      ((parseDictEntry s).2 = true → Neutral Δ ∧
        (parseDictEntry s).1.hasToken = true ∧ Cur (parseDictEntry s).1) ∧
      ((parseDictEntry s).2 = false → Δ.any isErrEv = true) ∧
      (parseDictEntry s).1.state = s.state ∧
      (parseDictEntry s).1.allowOrdered = s.allowOrdered ∧
      (supply (parseDictEntry s).1).length ≤ (supply s).length := by
  unfold parseDictEntry
  by_cases hbp : s.current.typ = .booleanPrefix
  · rw [if_pos hbp]
    exact parseBooleanPrefix_spec s hcur hbp
  · rw [if_neg hbp]
    exact parseDictPair_spec s hcur

theorem parseDictLoop_spec : ∀ (fuel : Nat) (s : PState),
    s.hasToken = true → Cur s → (supply s).length < fuel →
    ∃ Δ, (parseDictLoop fuel s).1.events = s.events ++ Δ ∧
      ((parseDictLoop fuel s).2 = true →
        (∀ st, bracketRun Δ (false :: st) = some st) ∧
        (parseDictLoop fuel s).1.hasToken = true ∧
        Cur (parseDictLoop fuel s).1) ∧
      ((parseDictLoop fuel s).2 = false → Δ.any isErrEv = true) ∧
      (parseDictLoop fuel s).1.state = s.state ∧
      (parseDictLoop fuel s).1.allowOrdered = s.allowOrdered ∧
      (supply (parseDictLoop fuel s).1).length ≤ (supply s).length := by
  intro fuel
  induction fuel with
  | zero => intro s _ _ h; omega
  | succ fuel ih =>
      intro s hht hcur hfuel
      unfold parseDictLoop
      by_cases hls : s.current.typ = .listSeparator
      · rw [if_pos hls]
        have hterm : terminalTok s.current = false := by
          unfold terminalTok
          rw [hls]
          decide
        have hET : EndsTerm (supply s) := by
          rcases hcur with ⟨h, -⟩ | h
          · rw [hterm] at h
            cases h
          · exact h
        obtain ⟨t0, ts0, hsup⟩ := endsTerm_cons hET
        obtain ⟨hok1, hc1, hs1, he1, hst1, hao1, hht1⟩ := padvance_cons hsup
        have hadv : padvance s = ((padvance s).1, true) := Prod.ext rfl hok1
        rw [hadv]
        simp only []
        have hcur1 : Cur (padvance s).1 := cur_after_advance hsup hET
        obtain ⟨Δe, hEe, hTe, hFe, hSte, hAOe, hLe⟩ :=
          parseDictEntry_spec (padvance s).1 hcur1
        cases hde : parseDictEntry (padvance s).1 with
        | mk s2 ok2 =>
            rw [hde] at hEe hTe hFe hSte hAOe hLe
            simp only [] at hEe hTe hFe hSte hAOe hLe
            cases ok2 with
            | false =>
                refine ⟨Δe, by rw [hEe, he1], ?_, ?_,
                  by rw [hSte, hst1], by rw [hAOe, hao1], ?_⟩
                · intro h
                  cases h
                · intro _
                  exact hFe rfl
                · rw [hs1] at hLe
                  rw [hsup]
                  simp only [List.length_cons]
                  omega
            | true =>
                have hht2 : s2.hasToken = true := (hTe rfl).2.1
                have hcur2 : Cur s2 := (hTe rfl).2.2
                have hfl : (supply s2).length < fuel := by
                  rw [hs1] at hLe
                  rw [hsup] at hfuel
                  simp only [List.length_cons] at hfuel
                  omega
                obtain ⟨Δl, hEl, hTl, hFl, hStl, hAOl, hLl⟩ := ih s2 hht2 hcur2 hfl
                refine ⟨Δe ++ Δl, ?_, ?_, ?_, ?_, ?_, ?_⟩
                · rw [hEl, hEe, he1, List.append_assoc]
                · intro h
                  refine ⟨?_, (hTl h).2.1, (hTl h).2.2⟩
                  intro st
                  rw [bracketRun_append, (hTe rfl).1 (false :: st)]
                  exact (hTl h).1 st
                · intro h
                  simp [List.any_append, hFl h]
                · rw [hStl, hSte, hst1]
                · rw [hAOl, hAOe, hao1]
                · rw [hs1] at hLe
                  rw [hsup]
                  simp only [List.length_cons]
                  omega
      · rw [if_neg hls]
        simp only []
        refine ⟨[.mapEnd], by simp, ?_, ?_, by simp, by simp, by simp⟩
        · intro _
          refine ⟨fun st => rfl, by simpa using hht, ?_⟩
          unfold Cur at *
          simpa using hcur
        · intro h
          cases h

theorem parseDictValue_spec (fuel : Nat) (s : PState)
    (hcur : Cur s) (hfuel : (supply s).length < fuel) :
    ∃ Δ, (parseDictValue fuel s).1.events = s.events ++ Δ ∧
      ((parseDictValue fuel s).2 = true → Neutral Δ ∧
        (parseDictValue fuel s).1.hasToken = true ∧
        Cur (parseDictValue fuel s).1) ∧
      ((parseDictValue fuel s).2 = false → Δ.any isErrEv = true) ∧
      (parseDictValue fuel s).1.state = s.state ∧
      (parseDictValue fuel s).1.allowOrdered = s.allowOrdered ∧
      (supply (parseDictValue fuel s).1).length ≤ (supply s).length := by
  unfold parseDictValue
  simp only []
  have hcur1 : Cur (pemit .mapStart s) := by
    unfold Cur at *
    rw [supply_pemit]
    simpa using hcur
  obtain ⟨Δe, hEe, hTe, hFe, hSte, hAOe, hLe⟩ :=
    parseDictEntry_spec (pemit .mapStart s) hcur1
  cases hde : parseDictEntry (pemit .mapStart s) with
  | mk s2 ok2 =>
      rw [hde] at hEe hTe hFe hSte hAOe hLe
      simp only [] at hEe hTe hFe hSte hAOe hLe
      cases ok2 with
      | false =>
          refine ⟨.mapStart :: Δe, ?_, ?_, ?_, by simpa using hSte,
            by simpa using hAOe, by simpa using hLe⟩
          · rw [hEe]
            simp
          · intro h
            cases h
          · intro _
            simp [hFe rfl]
      | true =>
          have hht2 : s2.hasToken = true := (hTe rfl).2.1
          have hcur2 : Cur s2 := (hTe rfl).2.2
          have hfl : (supply s2).length < fuel := by
            rw [supply_pemit] at hLe
            omega
          obtain ⟨Δl, hEl, hTl, hFl, hStl, hAOl, hLl⟩ :=
            parseDictLoop_spec fuel s2 hht2 hcur2 hfl
          refine ⟨.mapStart :: (Δe ++ Δl), ?_, ?_, ?_, ?_, ?_, ?_⟩
          · rw [hEl, hEe]
            simp
          · intro h
            refine ⟨?_, (hTl h).2.1, (hTl h).2.2⟩
            intro st
            show bracketRun (Δe ++ Δl) (false :: st) = some st
            rw [bracketRun_append, (hTe rfl).1 (false :: st)]
            exact (hTl h).1 st
          · intro h
            simp [List.any_append, hFl h]
          · rw [hStl]
            simpa using hSte
          · rw [hAOl]
            simpa using hAOe
          · show (supply (parseDictLoop fuel s2).1).length ≤ (supply s).length
            rw [supply_pemit] at hLe
            omega

theorem parseListLoop_spec : ∀ (fuel : Nat) (s : PState),
    (s.hasToken = true → Cur s) → (s.hasToken = false → supply s = []) →
    (supply s).length < fuel →
    ∃ Δ, (parseListLoop fuel s).1.events = s.events ++ Δ ∧
      ((parseListLoop fuel s).2 = true →
        (∀ st, bracketRun Δ (true :: st) = some st) ∧
        ((parseListLoop fuel s).1.hasToken = true →
          Cur (parseListLoop fuel s).1) ∧
        ((parseListLoop fuel s).1.hasToken = false →
          supply (parseListLoop fuel s).1 = [])) ∧
      ((parseListLoop fuel s).2 = false → Δ.any isErrEv = true) ∧
      (parseListLoop fuel s).1.state = s.state ∧
      (parseListLoop fuel s).1.allowOrdered = s.allowOrdered ∧
      (supply (parseListLoop fuel s).1).length ≤ (supply s).length := by
  intro fuel
  induction fuel with
  | zero => intro s _ _ h; omega
  | succ fuel ih =>
      intro s hwf hwe hfuel
      unfold parseListLoop
      by_cases hg : s.hasToken = true ∧ s.current.typ = .listSeparator
      · rw [if_pos hg]
        have hterm : terminalTok s.current = false := by
          unfold terminalTok
          rw [hg.2]
          decide
        have hET : EndsTerm (supply s) := by
          rcases hwf hg.1 with ⟨h, -⟩ | h
          · rw [hterm] at h
            cases h
          · exact h
        obtain ⟨t0, ts0, hsup⟩ := endsTerm_cons hET
        obtain ⟨hok1, hc1, hs1, he1, hst1, hao1, hht1⟩ := padvance_cons hsup
        have hadv : padvance s = ((padvance s).1, true) := Prod.ext rfl hok1
        rw [hadv]
        simp only []
        by_cases hv : isValueType (padvance s).1.current.typ = true
        · rw [isValue_true hv]
          simp only []
          have hET1 : EndsTerm ts0 := by
            apply endsTerm_tail (hsup ▸ hET)
            rw [← hc1]
            exact nonterm_of_isValueType hv
          obtain ⟨u0, us0, hsup2⟩ := endsTerm_cons hET1
          have hsupQ : supply (pemit (.value (toValue (padvance s).1))
              (padvance s).1) = u0 :: us0 := by
            rw [supply_pemit, hs1, hsup2]
          obtain ⟨hok2, hc2, hs2, he2, hst2, hao2, hht2⟩ := padvance_cons hsupQ
          have hadv2 : padvance (pemit (.value (toValue (padvance s).1))
              (padvance s).1) =
              ((padvance (pemit (.value (toValue (padvance s).1))
                (padvance s).1)).1, true) := Prod.ext rfl hok2
          rw [hadv2]
          simp only []
          have hwf2 : (padvance (pemit (.value (toValue (padvance s).1))
              (padvance s).1)).1.hasToken = true →
              Cur (padvance (pemit (.value (toValue (padvance s).1))
                (padvance s).1)).1 := by
            intro _
            apply cur_after_advance hsupQ
            rw [hsupQ, ← hsup2]
            exact hET1
          have hfl : (supply (padvance (pemit (.value (toValue (padvance s).1))
              (padvance s).1)).1).length < fuel := by
            rw [hs2]
            rw [hsup] at hfuel
            have hlen := congrArg List.length hsup2
            simp only [List.length_cons] at hfuel hlen
            omega
          have hwe2 : (padvance (pemit (.value (toValue (padvance s).1))
              (padvance s).1)).1.hasToken = false →
              supply (padvance (pemit (.value (toValue (padvance s).1))
                (padvance s).1)).1 = [] := by
            intro hf
            rw [hht2] at hf
            cases hf
          obtain ⟨Δl, hEl, hTl, hFl, hStl, hAOl, hLl⟩ := ih _ hwf2 hwe2 hfl
          refine ⟨.value (toValue (padvance s).1) :: Δl, ?_, ?_, ?_, ?_, ?_, ?_⟩
          · rw [hEl, he2]
            simp only [pemit_events]
            rw [he1]
            simp
          · intro h
            refine ⟨?_, (hTl h).2.1, (hTl h).2.2⟩
            intro st
            show bracketRun Δl (true :: st) = some st
            exact (hTl h).1 st
          · intro h
            simp [hFl h]
          · rw [hStl, hst2]
            simpa using hst1
          · rw [hAOl, hao2]
            simpa using hao1
          · rw [hs2] at hLl
            rw [hsup]
            have hlen := congrArg List.length hsup2
            simp only [List.length_cons] at hlen ⊢
            omega
        · have hvf : isValueType (padvance s).1.current.typ = false := by
            cases hb : isValueType (padvance s).1.current.typ
            · rfl
            · exact absurd hb hv
          obtain ⟨msg, hIV⟩ := isValue_false hvf
          rw [hIV]
          simp only []
          refine ⟨[.error (padvance s).1.current.pos msg], ?_, ?_, ?_, ?_, ?_, ?_⟩
          · rw [perrorf_events, he1]
          · intro h
            cases h
          · intro _
            rfl
          · rw [perrorf_state, hst1]
          · rw [perrorf_allowOrdered, hao1]
          · rw [supply_perrorf, hs1, hsup]
            simp only [List.length_cons]
            omega
      · rw [if_neg hg]
        refine ⟨[.listEnd], by simp, ?_, ?_, by simp, by simp, by simp⟩
        · intro _
          refine ⟨fun st => rfl, ?_, ?_⟩
          · intro hh
            have := hwf (by simpa using hh)
            unfold Cur at *
            simpa using this
          · intro hh
            have := hwe (by simpa using hh)
            simpa using this
        · intro h
          cases h

theorem parseListValue_spec (fuel : Nat) (s : PState)
    (hcur : Cur s) (hvt : isValueType s.current.typ = true)
    (hfuel : (supply s).length < fuel) :
    ∃ Δ, (parseListValue fuel s).1.events = s.events ++ Δ ∧
      ((parseListValue fuel s).2 = true → Neutral Δ ∧
        ((parseListValue fuel s).1.hasToken = true →
          Cur (parseListValue fuel s).1) ∧
        ((parseListValue fuel s).1.hasToken = false →
          supply (parseListValue fuel s).1 = [])) ∧
      ((parseListValue fuel s).2 = false → Δ.any isErrEv = true) ∧
      (parseListValue fuel s).1.state = s.state ∧
      (parseListValue fuel s).1.allowOrdered = s.allowOrdered ∧
      (supply (parseListValue fuel s).1).length ≤ (supply s).length := by
  unfold parseListValue
  simp only []
  have hterm : terminalTok s.current = false := nonterm_of_isValueType hvt
  have hET : EndsTerm (supply s) := by
    rcases hcur with ⟨h, -⟩ | h
    · rw [hterm] at h
      cases h
    · exact h
  obtain ⟨t0, ts0, hsup⟩ := endsTerm_cons hET
  have hsupQ : supply (pemit (.value (toValue (pemit .listStart s)))
      (pemit .listStart s)) = t0 :: ts0 := by
    rw [supply_pemit, supply_pemit, hsup]
  obtain ⟨hok1, hc1, hs1, he1, hst1, hao1, hht1⟩ := padvance_cons hsupQ
  have hadv : padvance (pemit (.value (toValue (pemit .listStart s)))
      (pemit .listStart s)) =
      ((padvance (pemit (.value (toValue (pemit .listStart s)))
        (pemit .listStart s))).1, true) := Prod.ext rfl hok1
  rw [hadv]
  simp only []
  have hwf1 : (padvance (pemit (.value (toValue (pemit .listStart s)))
      (pemit .listStart s))).1.hasToken = true →
      Cur (padvance (pemit (.value (toValue (pemit .listStart s)))
        (pemit .listStart s))).1 := by
    intro _
    apply cur_after_advance hsupQ
    rw [hsupQ, ← hsup]
    exact hET
  have hfl : (supply (padvance (pemit (.value (toValue (pemit .listStart s)))
      (pemit .listStart s))).1).length < fuel := by
    rw [hs1]
    rw [hsup] at hfuel
    simp only [List.length_cons] at hfuel
    omega
  have hwe1 : (padvance (pemit (.value (toValue (pemit .listStart s)))
      (pemit .listStart s))).1.hasToken = false →
      supply (padvance (pemit (.value (toValue (pemit .listStart s)))
        (pemit .listStart s))).1 = [] := by
    intro hf
    rw [hht1] at hf
    cases hf
  obtain ⟨Δl, hEl, hTl, hFl, hStl, hAOl, hLl⟩ :=
    parseListLoop_spec fuel _ hwf1 hwe1 hfl
  refine ⟨.listStart :: .value (toValue (pemit .listStart s)) :: Δl,
    ?_, ?_, ?_, ?_, ?_, ?_⟩
  · rw [hEl, he1]
    simp
  · intro h
    refine ⟨?_, (hTl h).2.1, (hTl h).2.2⟩
    intro st
    show bracketRun (.value (toValue (pemit .listStart s)) :: Δl) (true :: st)
      = some st
    exact (hTl h).1 st
  · intro h
    simp [hFl h]
  · rw [hStl, hst1]
    simp
  · rw [hAOl, hao1]
    simp
  · rw [hs1] at hLl
    rw [hsup]
    simp only [List.length_cons]
    omega

theorem parseValueContent_spec (fuel : Nat) (s : PState)
    (hcur : Cur s) (hfuel : (supply s).length < fuel) :
    ∃ Δ, (parseValueContent fuel s).1.events = s.events ++ Δ ∧
      ((parseValueContent fuel s).2 = true → Neutral Δ ∧
        ((parseValueContent fuel s).1.hasToken = true →
          Cur (parseValueContent fuel s).1) ∧
        ((parseValueContent fuel s).1.hasToken = false →
          supply (parseValueContent fuel s).1 = [])) ∧
      ((parseValueContent fuel s).2 = false → Δ.any isErrEv = true) ∧
      (parseValueContent fuel s).1.state = s.state ∧
      (parseValueContent fuel s).1.allowOrdered = s.allowOrdered ∧
      (supply (parseValueContent fuel s).1).length ≤ (supply s).length := by
  unfold parseValueContent
  by_cases hbp : s.current.typ = .booleanPrefix
  · rw [if_pos hbp]
    obtain ⟨Δ, hE, hT, hF, hSt, hAO, hL⟩ := parseDictValue_spec fuel s hcur hfuel
    refine ⟨Δ, hE, ?_, hF, hSt, hAO, hL⟩
    intro h
    exact ⟨(hT h).1, fun _ => (hT h).2.2,
      fun hf => by rw [(hT h).2.1] at hf; cases hf⟩
  · rw [if_neg hbp]
    by_cases hv : isValueType s.current.typ = true
    · rw [isValue_true hv]
      simp only []
      obtain ⟨hN1, hNs1, hNe1, hNc1, hNh1, hNst1, hNa1⟩ :=
        isNext_spec [.pairSeparator] s
      cases hin1 : isNext [.pairSeparator] s with
      | mk b1 s2 =>
          rw [hin1] at hN1 hNs1 hNe1 hNc1 hNh1 hNst1 hNa1
          simp only [] at hN1 hNs1 hNe1 hNc1 hNh1 hNst1 hNa1
          have hcur2 : Cur s2 := by
            unfold Cur at *
            rw [hNs1, hNc1]
            exact hcur
          have hfuel2 : (supply s2).length < fuel := by
            rw [hNs1]
            exact hfuel
          cases b1 with
          | true =>
              simp only []
              obtain ⟨Δ, hE, hT, hF, hSt, hAO, hL⟩ :=
                parseDictValue_spec fuel s2 hcur2 hfuel2
              refine ⟨Δ, by rw [hE, hNe1], ?_, hF, by rw [hSt, hNst1],
                by rw [hAO, hNa1], by rw [hNs1] at hL; exact hL⟩
              intro h
              exact ⟨(hT h).1, fun _ => (hT h).2.2,
                fun hf => by rw [(hT h).2.1] at hf; cases hf⟩
          | false =>
              simp only []
              obtain ⟨hN2, hNs2, hNe2, hNc2, hNh2, hNst2, hNa2⟩ :=
                isNext_spec [.listSeparator] s2
              cases hin2 : isNext [.listSeparator] s2 with
              | mk b2 s3 =>
                  rw [hin2] at hN2 hNs2 hNe2 hNc2 hNh2 hNst2 hNa2
                  simp only [] at hN2 hNs2 hNe2 hNc2 hNh2 hNst2 hNa2
                  have hcur3 : Cur s3 := by
                    unfold Cur at *
                    rw [hNs2, hNc2]
                    exact hcur2
                  have hvt3 : isValueType s3.current.typ = true := by
                    rw [hNc2, hNc1]
                    exact hv
                  have hfuel3 : (supply s3).length < fuel := by
                    rw [hNs2]
                    exact hfuel2
                  cases b2 with
                  | true =>
                      simp only []
                      obtain ⟨Δ, hE, hT, hF, hSt, hAO, hL⟩ :=
                        parseListValue_spec fuel s3 hcur3 hvt3 hfuel3
                      exact ⟨Δ, by rw [hE, hNe2, hNe1], hT, hF,
                        by rw [hSt, hNst2, hNst1], by rw [hAO, hNa2, hNa1],
                        by rw [hNs2, hNs1] at hL; exact hL⟩
                  | false =>
                      simp only []
                      have hterm : terminalTok s3.current = false :=
                        nonterm_of_isValueType hvt3
                      have hET : EndsTerm (supply s3) := by
                        rcases hcur3 with ⟨h, -⟩ | h
                        · rw [hterm] at h
                          cases h
                        · exact h
                      obtain ⟨t0, ts0, hsup⟩ := endsTerm_cons hET
                      have hsupQ : supply (pemit (.value (toValue s3)) s3)
                          = t0 :: ts0 := by rw [supply_pemit, hsup]
                      obtain ⟨hok1, hc1, hs1, he1, hst1, hao1, hht1⟩ :=
                        padvance_cons hsupQ
                      have hadv : padvance (pemit (.value (toValue s3)) s3) =
                          ((padvance (pemit (.value (toValue s3)) s3)).1, true) :=
                        Prod.ext rfl hok1
                      rw [hadv]
                      simp only []
                      refine ⟨[.value (toValue s3)], ?_, ?_, ?_, ?_, ?_, ?_⟩
                      · rw [he1]
                        simp only [pemit_events]
                        rw [hNe2, hNe1]
                      · intro _
                        refine ⟨fun st => rfl, ?_, ?_⟩
                        · intro _
                          apply cur_after_advance hsupQ
                          rw [hsupQ, ← hsup]
                          exact hET
                        · intro hf
                          rw [hht1] at hf
                          cases hf
                      · intro h
                        cases h
                      · rw [hst1]
                        simp only [pemit_state]
                        rw [hNst2, hNst1]
                      · rw [hao1]
                        simp only [pemit_allowOrdered]
                        rw [hNa2, hNa1]
                      · rw [hs1]
                        rw [hNs2, hNs1] at hsup
                        rw [hsup]
                        simp only [List.length_cons]
                        omega
    · have hvf : isValueType s.current.typ = false := by
        cases hb : isValueType s.current.typ
        · rfl
        · exact absurd hb hv
      obtain ⟨msg, hIV⟩ := isValue_false hvf
      rw [hIV]
      simp only []
      refine ⟨[.error s.current.pos msg], ?_, ?_, ?_, ?_, ?_, ?_⟩
      · rw [perrorf_events]
      · intro h
        cases h
      · intro _
        rfl
      · rw [perrorf_state]
      · rw [perrorf_allowOrdered]
      · rw [supply_perrorf]

theorem parseAssignment_spec (fuel : Nat) (s : PState)
    (hcur : Cur s) (hid : s.current.typ = .identifier)
    (hhd : ∀ t, (supply s).head? = some t → terminalTok t = false)
    (hfuel : (supply s).length < fuel) :
    ∃ Δ, (parseAssignment fuel s).1.events = s.events ++ Δ ∧
      ((parseAssignment fuel s).2 = true → Neutral Δ ∧
        ((parseAssignment fuel s).1.hasToken = true →
          Cur (parseAssignment fuel s).1) ∧
        ((parseAssignment fuel s).1.hasToken = false →
          supply (parseAssignment fuel s).1 = [])) ∧
      ((parseAssignment fuel s).2 = false → Δ.any isErrEv = true) ∧
      (parseAssignment fuel s).1.state = s.state ∧
      (parseAssignment fuel s).1.allowOrdered = s.allowOrdered ∧
      (supply (parseAssignment fuel s).1).length ≤ (supply s).length := by
  unfold parseAssignment
  simp only []
  have hterm : terminalTok s.current = false := by
    unfold terminalTok
    rw [hid]
    decide
  have hET : EndsTerm (supply s) := by
    rcases hcur with ⟨h, -⟩ | h
    · rw [hterm] at h
      cases h
    · exact h
  obtain ⟨t0, ts0, hsup⟩ := endsTerm_cons hET
  have hsupQ : supply (pemit (.mapKey (toValue s)) s) = t0 :: ts0 := by
    rw [supply_pemit, hsup]
  obtain ⟨hok1, hc1, hs1, he1, hst1, hao1, hht1⟩ := padvance_cons hsupQ
  have hadv : padvance (pemit (.mapKey (toValue s)) s) =
      ((padvance (pemit (.mapKey (toValue s)) s)).1, true) := Prod.ext rfl hok1
  rw [hadv]
  simp only []
  obtain ⟨hN1, hNs1, hNe1, hNc1, hNh1, hNst1, hNa1⟩ :=
    isNext_spec [.fieldSeparator, .eof] (padvance (pemit (.mapKey (toValue s)) s)).1
  cases hin1 : isNext [.fieldSeparator, .eof]
      (padvance (pemit (.mapKey (toValue s)) s)).1 with
  | mk b1 s3 =>
      rw [hin1] at hN1 hNs1 hNe1 hNc1 hNh1 hNst1 hNa1
      simp only [] at hN1 hNs1 hNe1 hNc1 hNh1 hNst1 hNa1
      cases b1 with
      | true =>
          simp only []
          -- the peeked separator or eof token exists, so advance succeeds
          obtain ⟨u0, us0, hsup3⟩ : ∃ u0 us0, supply s3 = u0 :: us0 := by
            cases hh : (supply s3).head? with
            | none =>
                rw [hNs1, hs1] at hh
                rw [hs1] at hN1
                rw [hh] at hN1
                cases hN1
            | some u =>
                cases hs : supply s3 with
                | nil => rw [hs] at hh; cases hh
                | cons a b => exact ⟨a, b, rfl⟩
          obtain ⟨hok2, hc2, hs2, he2, hst2, hao2, hht2⟩ := padvance_cons hsup3
          have hadv2 : padvance s3 = ((padvance s3).1, true) := Prod.ext rfl hok2
          rw [hadv2]
          simp only []
          refine ⟨[.mapKey (toValue s), .value (some .zeroValue)], ?_, ?_, ?_,
            ?_, ?_, ?_⟩
          · simp only [pemit_events]
            rw [he2, hNe1, he1]
            simp
          · intro _
            refine ⟨fun st => rfl, ?_, ?_⟩
            · intro _
              have hcx : Cur (padvance s3).1 := by
                apply cur_after_advance hsup3
                rw [hsup3]
                rw [← hsup3, hNs1, hs1]
                apply endsTerm_tail (hsup ▸ hET)
                apply hhd
                rw [hsup]
                rfl
              unfold Cur at *
              simpa using hcx
            · intro hf
              simp only [pemit_hasToken] at hf
              rw [hht2] at hf
              cases hf
          · intro h
            cases h
          · simp only [pemit_state]
            rw [hst2, hNst1, hst1]
            simp
          · simp only [pemit_allowOrdered]
            rw [hao2, hNa1, hao1]
            simp
          · simp only [supply_pemit]
            rw [hs2]
            have h3 : supply s3 = ts0 := by rw [hNs1, hs1]
            rw [hsup3] at h3
            rw [hsup]
            have hlen := congrArg List.length h3
            simp only [List.length_cons] at hlen ⊢
            omega
      | false =>
          simp only []
          have ht0nt : terminalTok t0 = false := by
            apply hhd
            rw [hsup]
            rfl
          have hET1 : EndsTerm ts0 := endsTerm_tail (hsup ▸ hET) ht0nt
          obtain ⟨u0, us0, hsup2⟩ := endsTerm_cons hET1
          have hsup3 : supply s3 = u0 :: us0 := by rw [hNs1, hs1, hsup2]
          obtain ⟨hok2, hc2, hs2, he2, hst2, hao2, hht2⟩ := padvance_cons hsup3
          have hadv2 : padvance s3 = ((padvance s3).1, true) := Prod.ext rfl hok2
          rw [hadv2]
          simp only []
          have hcur4 : Cur (padvance s3).1 := by
            apply cur_after_advance hsup3
            rw [hsup3, ← hsup2]
            exact hET1
          have hfl4 : (supply (padvance s3).1).length < fuel := by
            rw [hs2]
            rw [hsup] at hfuel
            have hlen := congrArg List.length hsup2
            simp only [List.length_cons] at hfuel hlen
            omega
          obtain ⟨Δv, hEv, hTv, hFv, hStv, hAOv, hLv⟩ :=
            parseValueContent_spec fuel (padvance s3).1 hcur4 hfl4
          refine ⟨.mapKey (toValue s) :: Δv, ?_, ?_, ?_, ?_, ?_, ?_⟩
          · rw [hEv, he2, hNe1, he1]
            simp
          · intro h
            refine ⟨?_, (hTv h).2.1, (hTv h).2.2⟩
            intro st
            show bracketRun Δv st = some st
            exact (hTv h).1 st
          · intro h
            simp [hFv h]
          · rw [hStv, hst2, hNst1, hst1]
            simp
          · rw [hAOv, hao2, hNa1, hao1]
            simp
          · rw [hs2] at hLv
            rw [hsup]
            have hlen := congrArg List.length hsup2
            simp only [List.length_cons] at hlen ⊢
            omega

@[simp] theorem supply_updateState (ns : ParserState) (s : PState) :
    supply (updateState ns s) = supply s := by
  unfold supply
  rw [updateState_peeked, updateState_rest]

theorem cur_updateState {ns : ParserState} {s : PState} (h : Cur s) :
    Cur (updateState ns s) := by
  unfold Cur at *
  rw [supply_updateState, updateState_current]
  exact h

theorem parseFieldOrdered_spec (fuel : Nat) (s : PState)
    (hht : s.hasToken = true) (hcur : Cur s)
    (hfuel : (supply s).length < fuel) :
    ∃ Δ, (parseFieldOrdered fuel s).1.events = s.events ++ Δ ∧
      ((parseFieldOrdered fuel s).2 = true →
        bracketRun Δ (stk s.state) =
          some (stk (parseFieldOrdered fuel s).1.state) ∧
        (parseFieldOrdered fuel s).1.state ≠ .eofState ∧
        ((parseFieldOrdered fuel s).1.hasToken = true →
          Cur (parseFieldOrdered fuel s).1) ∧
        ((parseFieldOrdered fuel s).1.hasToken = false →
          supply (parseFieldOrdered fuel s).1 = [])) ∧
      ((parseFieldOrdered fuel s).2 = false → Δ.any isErrEv = true) ∧
      (supply (parseFieldOrdered fuel s).1).length ≤ (supply s).length := by
  unfold parseFieldOrdered
  by_cases hg : (!s.allowOrdered || decide (s.state.toNat >
      ParserState.ordered.toNat)) = true
  · rw [if_pos hg]
    refine ⟨[.error s.current.pos "ordered value not allowed here".data],
      by rw [perrorf_events], ?_, ?_, by rw [supply_perrorf]⟩
    · intro h
      cases h
    · intro _
      rfl
  · rw [if_neg hg]
    simp only [Bool.or_eq_true, Bool.not_eq_true', decide_eq_true_eq, not_or,
      Bool.not_eq_false] at hg
    have hle : s.state.toNat ≤ 1 := by
      have hord : ParserState.ordered.toNat = 1 := rfl
      omega
    have hnes : s.state ≠ .eofState := by
      intro he
      rw [he] at hle
      simp [ParserState.toNat] at hle
    have hvalid : bracketRun (updateEvents s.state .ordered) (stk s.state) =
        some (stk .ordered) :=
      updateEvents_bracket s.state .ordered hnes (fun _ => hle) (by decide)
    by_cases hfs : (updateState .ordered s).current.typ = .fieldSeparator
    · rw [if_pos hfs]
      simp only []
      refine ⟨updateEvents s.state .ordered ++ [.value (some .zeroValue)],
        ?_, ?_, ?_, ?_⟩
      · simp [List.append_assoc]
      · intro _
        refine ⟨?_, ?_, ?_, ?_⟩
        · show bracketRun _ (stk s.state) =
            some (stk (updateState .ordered s).state)
          rw [updateState_state, bracketRun_append, hvalid]
          rfl
        · show (updateState .ordered s).state ≠ .eofState
          rw [updateState_state]
          decide
        · intro _
          show Cur (pemit (.value (some .zeroValue)) (updateState .ordered s))
          have hcu := @cur_updateState ParserState.ordered _ hcur
          unfold Cur at *
          simpa using hcu
        · intro hf
          simp only [pemit_hasToken, updateState_hasToken] at hf
          rw [hht] at hf
          cases hf
      · intro h
        cases h
      · simp
    · rw [if_neg hfs]
      have hcur1 : Cur (updateState .ordered s) := cur_updateState hcur
      have hfuel1 : (supply (updateState .ordered s)).length < fuel := by
        rw [supply_updateState]
        exact hfuel
      obtain ⟨Δv, hEv, hTv, hFv, hStv, hAOv, hLv⟩ :=
        parseValueContent_spec fuel (updateState .ordered s) hcur1 hfuel1
      refine ⟨updateEvents s.state .ordered ++ Δv, ?_, ?_, ?_, ?_⟩
      · rw [hEv]
        simp [List.append_assoc]
      · intro h
        refine ⟨?_, ?_, ?_, ?_⟩
        · rw [hStv, updateState_state, bracketRun_append, hvalid]
          exact (hTv h).1 (stk .ordered)
        · rw [hStv, updateState_state]
          decide
        · exact (hTv h).2.1
        · exact (hTv h).2.2
      · intro h
        simp [List.any_append, hFv h]
      · rw [supply_updateState] at hLv
        exact hLv

theorem parseField_spec (fuel : Nat) (s : PState)
    (hht : s.hasToken = true) (hcur : Cur s) (hne : s.state ≠ .eofState)
    (hfuel : (supply s).length < fuel) :
    ∃ Δ, (parseField fuel s).1.events = s.events ++ Δ ∧
      ((parseField fuel s).2 = true →
        bracketRun Δ (stk s.state) = some (stk (parseField fuel s).1.state) ∧
        (parseField fuel s).1.state ≠ .eofState ∧
        ((parseField fuel s).1.hasToken = true → Cur (parseField fuel s).1) ∧
        ((parseField fuel s).1.hasToken = false →
          supply (parseField fuel s).1 = [])) ∧
      ((parseField fuel s).2 = false → Δ.any isErrEv = true) ∧
      (supply (parseField fuel s).1).length ≤ (supply s).length := by
  have hlab : bracketRun (updateEvents s.state .labeled) (stk s.state) =
      some (stk .labeled) :=
    updateEvents_bracket s.state .labeled hne
      (fun h => absurd h (by decide)) (by decide)
  unfold parseField
  cases htyp : s.current.typ with
  | booleanPrefix =>
      simp only []
      have hcur1 : Cur (updateState .labeled s) := cur_updateState hcur
      have hbp1 : (updateState .labeled s).current.typ = .booleanPrefix := by
        rw [updateState_current]
        exact htyp
      obtain ⟨Δb, hEb, hTb, hFb, hStb, hAOb, hLb⟩ :=
        parseBooleanPrefix_spec (updateState .labeled s) hcur1 hbp1
      refine ⟨updateEvents s.state .labeled ++ Δb, ?_, ?_, ?_, ?_⟩
      · rw [hEb]
        simp [List.append_assoc]
      · intro h
        refine ⟨?_, ?_, ?_, ?_⟩
        · rw [hStb, updateState_state, bracketRun_append, hlab]
          exact (hTb h).1 (stk .labeled)
        · rw [hStb, updateState_state]
          decide
        · intro _
          exact (hTb h).2.2
        · intro hf
          rw [(hTb h).2.1] at hf
          cases hf
      · intro h
        simp [List.any_append, hFb h]
      · rw [supply_updateState] at hLb
        exact hLb
  | identifier =>
      simp only []
      obtain ⟨hN1, hNs1, hNe1, hNc1, hNh1, hNst1, hNa1⟩ := isNext_spec [.assign] s
      cases hin1 : isNext [.assign] s with
      | mk b1 s1 =>
          rw [hin1] at hN1 hNs1 hNe1 hNc1 hNh1 hNst1 hNa1
          simp only [] at hN1 hNs1 hNe1 hNc1 hNh1 hNst1 hNa1
          cases b1 with
          | true =>
              simp only []
              have hcur1 : Cur (updateState .labeled s1) := by
                apply cur_updateState
                unfold Cur at *
                rw [hNs1, hNc1]
                exact hcur
              have hid1 : (updateState .labeled s1).current.typ = .identifier := by
                rw [updateState_current, hNc1]
                exact htyp
              have hhd1 : ∀ t, (supply (updateState .labeled s1)).head? = some t →
                  terminalTok t = false := by
                intro t hh
                rw [supply_updateState, hNs1] at hh
                rw [hh] at hN1
                simp only [] at hN1
                have hta : t.typ = .assign := by
                  cases ht : t.typ
                  case assign => rfl
                  all_goals (rw [ht] at hN1; exact absurd hN1.symm (by decide))
                unfold terminalTok
                rw [hta]
                decide
              have hfuel1 : (supply (updateState .labeled s1)).length < fuel := by
                rw [supply_updateState, hNs1]
                exact hfuel
              obtain ⟨Δa, hEa, hTa, hFa, hSta, hAOa, hLa⟩ :=
                parseAssignment_spec fuel (updateState .labeled s1) hcur1 hid1
                  hhd1 hfuel1
              refine ⟨updateEvents s.state .labeled ++ Δa, ?_, ?_, ?_, ?_⟩
              · rw [hEa]
                simp only [updateState_events, hNe1, hNst1]
                simp [List.append_assoc]
              · intro h
                refine ⟨?_, ?_, ?_, ?_⟩
                · rw [hSta, updateState_state, bracketRun_append, hlab]
                  exact (hTa h).1 (stk .labeled)
                · rw [hSta, updateState_state]
                  decide
                · exact (hTa h).2.1
                · exact (hTa h).2.2
              · intro h
                simp [List.any_append, hFa h]
              · rw [supply_updateState, hNs1] at hLa
                exact hLa
          | false =>
              simp only []
              have hht1 : s1.hasToken = true := by
                rw [hNh1]
                exact hht
              have hcur1 : Cur s1 := by
                unfold Cur at *
                rw [hNs1, hNc1]
                exact hcur
              have hfuel1 : (supply s1).length < fuel := by
                rw [hNs1]
                exact hfuel
              obtain ⟨Δo, hEo, hTo, hFo, hLo⟩ :=
                parseFieldOrdered_spec fuel s1 hht1 hcur1 hfuel1
              refine ⟨Δo, by rw [hEo, hNe1], ?_, hFo, by rw [hNs1] at hLo; exact hLo⟩
              intro h
              obtain ⟨hb, hs, hc, he⟩ := hTo h
              rw [hNst1] at hb
              exact ⟨hb, hs, hc, he⟩
  | fieldSeparator =>
      simp only []
      exact parseFieldOrdered_spec fuel s hht hcur hfuel
  | string =>
      simp only []
      exact parseFieldOrdered_spec fuel s hht hcur hfuel
  | number =>
      simp only []
      exact parseFieldOrdered_spec fuel s hht hcur hfuel
  | trueKw =>
      simp only []
      exact parseFieldOrdered_spec fuel s hht hcur hfuel
  | falseKw =>
      simp only []
      exact parseFieldOrdered_spec fuel s hht hcur hfuel
  | nilKw =>
      simp only []
      exact parseFieldOrdered_spec fuel s hht hcur hfuel
  | error =>
      simp only []
      refine ⟨[.error s.current.pos _], by rw [perrorf_events], ?_, ?_,
        by rw [supply_perrorf]⟩
      · intro h
        cases h
      · intro _
        rfl
  | eof =>
      simp only []
      refine ⟨[.error s.current.pos _], by rw [perrorf_events], ?_, ?_,
        by rw [supply_perrorf]⟩
      · intro h
        cases h
      · intro _
        rfl
  | assign =>
      simp only []
      refine ⟨[.error s.current.pos _], by rw [perrorf_events], ?_, ?_,
        by rw [supply_perrorf]⟩
      · intro h
        cases h
      · intro _
        rfl
  | listSeparator =>
      simp only []
      refine ⟨[.error s.current.pos _], by rw [perrorf_events], ?_, ?_,
        by rw [supply_perrorf]⟩
      · intro h
        cases h
      · intro _
        rfl
  | pairSeparator =>
      simp only []
      refine ⟨[.error s.current.pos _], by rw [perrorf_events], ?_, ?_,
        by rw [supply_perrorf]⟩
      · intro h
        cases h
      · intro _
        rfl

theorem parseFieldLoop_spec : ∀ (fuel : Nat) (s : PState),
    (supply s = [] ∨ EndsTerm (supply s)) → s.state ≠ .eofState →
    (supply s).length < fuel →
    ∃ Δ, (parseFieldLoop fuel s).1.events = s.events ++ Δ ∧
      ((parseFieldLoop fuel s).2 = true →
        bracketRun Δ (stk s.state) =
          some (stk (parseFieldLoop fuel s).1.state) ∧
        (parseFieldLoop fuel s).1.state ≠ .eofState) ∧
      ((parseFieldLoop fuel s).2 = false → Δ.any isErrEv = true) := by
  intro fuel
  induction fuel with
  | zero => intro s _ _ h; omega
  | succ fuel ih =>
      intro s hsok hne hfuel
      unfold parseFieldLoop
      rcases hsok with hnil | hET
      · obtain ⟨hok1, hc1, hs1, he1, hst1, hao1, hht1⟩ := padvance_nil hnil
        have hadv : padvance s = ((padvance s).1, false) := Prod.ext rfl hok1
        rw [hadv]
        simp only []
        refine ⟨[], by simpa using he1, ?_, ?_⟩
        · intro _
          rw [hst1]
          exact ⟨rfl, hne⟩
        · intro h
          cases h
      · obtain ⟨t0, ts0, hsup⟩ := endsTerm_cons hET
        obtain ⟨hok1, hc1, hs1, he1, hst1, hao1, hht1⟩ := padvance_cons hsup
        have hadv : padvance s = ((padvance s).1, true) := Prod.ext rfl hok1
        rw [hadv]
        simp only []
        by_cases heof : (padvance s).1.current.typ = .eof
        · rw [if_pos heof]
          refine ⟨[], by simpa using he1, ?_, ?_⟩
          · intro _
            rw [hst1]
            exact ⟨rfl, hne⟩
          · intro h
            cases h
        · rw [if_neg heof]
          have hcur1 : Cur (padvance s).1 := cur_after_advance hsup hET
          have hne1 : (padvance s).1.state ≠ .eofState := by
            rw [hst1]
            exact hne
          have hfuel1 : (supply (padvance s).1).length < fuel := by
            rw [hs1]
            rw [hsup] at hfuel
            simp only [List.length_cons] at hfuel
            omega
          obtain ⟨Δf, hEf, hTf, hFf, hLf⟩ :=
            parseField_spec fuel (padvance s).1 hht1 hcur1 hne1 hfuel1
          cases hpf : parseField fuel (padvance s).1 with
          | mk s2 ok2 =>
              rw [hpf] at hEf hTf hFf hLf
              simp only [] at hEf hTf hFf hLf
              cases ok2 with
              | false =>
                  refine ⟨Δf, by rw [hEf, he1], ?_, ?_⟩
                  · intro h
                    cases h
                  · intro _
                    exact hFf rfl
              | true =>
                  obtain ⟨hbr, hne2, hwf2, hwe2⟩ := hTf rfl
                  have hsok2 : supply s2 = [] ∨ EndsTerm (supply s2) := by
                    cases hht2 : s2.hasToken
                    · exact Or.inl (hwe2 hht2)
                    · rcases hwf2 hht2 with ⟨-, he⟩ | he
                      · exact Or.inl he
                      · exact Or.inr he
                  have hfuel2 : (supply s2).length < fuel := by
                    rw [hs1] at hLf
                    rw [hsup] at hfuel
                    simp only [List.length_cons] at hfuel
                    omega
                  obtain ⟨Δl, hEl, hTl, hFl⟩ := ih s2 hsok2 hne2 hfuel2
                  refine ⟨Δf ++ Δl, ?_, ?_, ?_⟩
                  · rw [hEl, hEf, he1, List.append_assoc]
                  · intro h
                    obtain ⟨hbl, hnel⟩ := hTl h
                    refine ⟨?_, hnel⟩
                    rw [bracketRun_append]
                    rw [hst1] at hbr
                    rw [hbr]
                    exact hbl
                  · intro h
                    simp [List.any_append, hFl h]

theorem ParseTokens_spec (tokens : List Token) (ao : Bool)
    (hET : EndsTerm tokens) :
    (ParseTokens tokens ao).any isErrEv = true ∨
    bracketRun (ParseTokens tokens ao) [] = some [] := by
  unfold ParseTokens parseFieldList
  have hsup0 : supply (initPState ao tokens) = tokens := rfl
  have hsok : supply (initPState ao tokens) = [] ∨
      EndsTerm (supply (initPState ao tokens)) := Or.inr (hsup0 ▸ hET)
  have hne : (initPState ao tokens).state ≠ .eofState := fun h =>
    ParserState.noConfusion h
  have hfuel : (supply (initPState ao tokens)).length < tokens.length + 1 := by
    rw [hsup0]
    omega
  obtain ⟨Δ, hE, hT, hF⟩ := parseFieldLoop_spec (tokens.length + 1)
    (initPState ao tokens) hsok hne hfuel
  cases hpl : parseFieldLoop (tokens.length + 1) (initPState ao tokens) with
  | mk s1 ok =>
      rw [hpl] at hE hT hF
      simp only [] at hE hT hF
      cases ok with
      | false =>
          left
          simp only []
          rw [hE]
          have : (initPState ao tokens).events = [] := rfl
          rw [this, List.nil_append]
          exact hF rfl
      | true =>
          right
          obtain ⟨hbr, hne1⟩ := hT rfl
          simp only [updateState_events]
          rw [hE]
          have h0 : (initPState ao tokens).events = [] := rfl
          rw [h0, List.nil_append, bracketRun_append]
          have hbr0 : bracketRun Δ [] = some (stk s1.state) := hbr
          rw [hbr0]
          have := updateEvents_bracket s1.state .eofState hne1
            (fun h => absurd h (by decide)) (by decide)
          exact this

theorem bracketRun_counts : ∀ (evs : List ParserEvent) (st st2 : List Bool),
    bracketRun evs st = some st2 →
    evs.count .listStart + st.count true =
      evs.count .listEnd + st2.count true ∧
    evs.count .mapStart + st.count false =
      evs.count .mapEnd + st2.count false := by
  intro evs
  induction evs with
  | nil =>
      intro st st2 h
      have : st = st2 := by
        simpa [bracketRun] using h
      subst this
      simp
  | cons ev evs ih =>
      intro st st2 h
      cases ev with
      | listStart =>
          simp only [bracketRun] at h
          obtain ⟨h1, h2⟩ := ih (true :: st) st2 h
          simp only [List.count_cons] at h1 h2 ⊢
          constructor <;> simp_all <;> omega
      | mapStart =>
          simp only [bracketRun] at h
          obtain ⟨h1, h2⟩ := ih (false :: st) st2 h
          simp only [List.count_cons] at h1 h2 ⊢
          constructor <;> simp_all <;> omega
      | listEnd =>
          cases st with
          | nil => simp [bracketRun] at h
          | cons b st3 =>
              cases b
              · simp [bracketRun] at h
              · simp only [bracketRun] at h
                obtain ⟨h1, h2⟩ := ih st3 st2 h
                simp [List.count_cons] at h1 h2 ⊢
                omega
      | mapEnd =>
          cases st with
          | nil => simp [bracketRun] at h
          | cons b st3 =>
              cases b
              · simp only [bracketRun] at h
                obtain ⟨h1, h2⟩ := ih st3 st2 h
                simp [List.count_cons] at h1 h2 ⊢
                omega
              · simp [bracketRun] at h
      | mapKey v =>
          simp only [bracketRun] at h
          obtain ⟨h1, h2⟩ := ih st st2 h
          simp only [List.count_cons] at h1 h2 ⊢
          constructor <;> simp_all <;> omega
      | value v =>
          simp only [bracketRun] at h
          obtain ⟨h1, h2⟩ := ih st st2 h
          simp only [List.count_cons] at h1 h2 ⊢
          constructor <;> simp_all <;> omega
      | error p m =>
          simp only [bracketRun] at h
          obtain ⟨h1, h2⟩ := ih st st2 h
          simp only [List.count_cons] at h1 h2 ⊢
          constructor <;> simp_all <;> omega

/-- C1: when Parse emits no Error event, the event stream passes the
bracket checker from the empty stack back to the empty stack — every
ListEnd and MapEnd closes the most recently opened unclosed bracket of
its kind and none is left open — and the ListStart/ListEnd and
MapStart/MapEnd counts agree. -/
theorem C1_brackets_balanced (letter : Char → Bool) (input : List Char)
    (ao : Bool) (herr : (Parse letter input ao).any isErrEv = false) :
    bracketRun (Parse letter input ao) [] = some [] ∧
    (Parse letter input ao).count .listStart =
      (Parse letter input ao).count .listEnd ∧
    (Parse letter input ao).count .mapStart =
      (Parse letter input ao).count .mapEnd := by
  have hET : EndsTerm (Lex letter input) := by
    obtain ⟨B, t, h1, h2, -⟩ := Lex_good letter input
    exact ⟨B, t, h1, h2⟩
  have hpt := ParseTokens_spec (Lex letter input) ao hET
  unfold Parse at herr ⊢
  rcases hpt with h | h
  · rw [h] at herr
    cases herr
  · refine ⟨h, ?_, ?_⟩
    · have hc := (bracketRun_counts (ParseTokens (Lex letter input) ao) [] [] h).1
      simpa using hc
    · have hc := (bracketRun_counts (ParseTokens (Lex letter input) ao) [] [] h).2
      simpa using hc

/-- The balance facts at the concrete ordered document 1;2. -/
theorem C1_brackets_balanced_witness :
    bracketRun (Parse asciiLetter "1;2".data true) [] = some [] ∧
    (Parse asciiLetter "1;2".data true).count .listStart =
      (Parse asciiLetter "1;2".data true).count .listEnd ∧
    (Parse asciiLetter "1;2".data true).count .mapStart =
      (Parse asciiLetter "1;2".data true).count .mapEnd :=
  C1_brackets_balanced asciiLetter "1;2".data true (by decide)

/-! ## Integer/float agreement of the Number conversions -/

section NumericAgreement

/-- A character in one Boolean character class differs from any character
outside it. -/
theorem class_ne {p : Char → Bool} {c b : Char} (h : p c = true)
    (hb : p b = false) : c ≠ b := fun he => by
  rw [he, hb] at h
  exact Bool.noConfusion h

/-- The ten decimal digit characters. -/
theorem digit_chars (c : Char) (h : isDigit c = true) :
    c = '0' ∨ c = '1' ∨ c = '2' ∨ c = '3' ∨ c = '4' ∨ c = '5' ∨ c = '6' ∨
    c = '7' ∨ c = '8' ∨ c = '9' := by
  simp only [isDigit, Bool.and_eq_true, decide_eq_true_eq] at h
  have h1 : 48 ≤ c.toNat := h.1
  have h2 : c.toNat ≤ 57 := h.2
  have h3 : c = Char.ofNat c.toNat := (Char.ofNat_toNat c).symm
  interval_cases hn : c.toNat <;> rw [h3] <;> decide

/-- strconv lower is the identity on decimal digits. -/
theorem goLower_digit (c : Char) (h : isDigit c = true) : goLower c = c := by
  rcases digit_chars c h with rfl|rfl|rfl|rfl|rfl|rfl|rfl|rfl|rfl|rfl <;> decide

/-- A decimal digit has a digit value below 10. -/
theorem digitVal_digit (c : Char) (h : isDigit c = true) :
    ∃ dv, digitVal c = some dv ∧ dv < 10 := by
  simp only [isDigit, Bool.and_eq_true, decide_eq_true_eq] at h
  refine ⟨c.toNat - '0'.toNat, ?_, ?_⟩
  · unfold digitVal
    rw [if_pos h]
  · have h2 : c.toNat ≤ 57 := h.2
    have h1 : 48 ≤ c.toNat := h.1
    show c.toNat - 48 < 10
    omega

/-- A hexadecimal digit has a digit value below 16. -/
theorem digitVal_hex (c : Char) (h : isHexDigit c = true) :
    ∃ dv, digitVal c = some dv ∧ dv < 16 := by
  simp only [isHexDigit, Bool.or_eq_true] at h
  rcases h with (h | h) | h
  · obtain ⟨dv, hdv, hlt⟩ := digitVal_digit c h
    exact ⟨dv, hdv, by omega⟩
  · simp only [Bool.and_eq_true, decide_eq_true_eq] at h
    have h1 : 97 ≤ c.toNat := h.1
    have h2 : c.toNat ≤ 102 := h.2
    refine ⟨c.toNat - 'a'.toNat + 10, ?_, ?_⟩
    · unfold digitVal
      rw [if_neg (fun hq => by
        have : c.toNat ≤ 57 := hq.2
        omega)]
      rw [if_pos ⟨h.1, show c.toNat ≤ 122 by omega⟩]
    · show c.toNat - 97 + 10 < 16
      omega
  · simp only [Bool.and_eq_true, decide_eq_true_eq] at h
    have h1 : 65 ≤ c.toNat := h.1
    have h2 : c.toNat ≤ 70 := h.2
    refine ⟨c.toNat - 'A'.toNat + 10, ?_, ?_⟩
    · unfold digitVal
      rw [if_neg (fun hq => by
        have : 48 ≤ c.toNat := hq.1
        have : c.toNat ≤ 57 := hq.2
        omega)]
      rw [if_neg (fun hq => by
        have : 97 ≤ c.toNat := hq.1
        omega)]
      rw [if_pos ⟨h.1, show c.toNat ≤ 90 by omega⟩]
    · show c.toNat - 65 + 10 < 16
      omega

/-- An octal digit has a digit value below 8. -/
theorem digitVal_octal (c : Char) (h : isOctalDigit c = true) :
    ∃ dv, digitVal c = some dv ∧ dv < 8 := by
  simp only [isOctalDigit, Bool.and_eq_true, decide_eq_true_eq] at h
  refine ⟨c.toNat - '0'.toNat, ?_, ?_⟩
  · unfold digitVal
    rw [if_pos ⟨h.1, by
      have h2 : c.toNat ≤ 55 := h.2
      show c.toNat ≤ 57
      omega⟩]
  · have h2 : c.toNat ≤ 55 := h.2
    have h1 : 48 ≤ c.toNat := h.1
    show c.toNat - 48 < 8
    omega

/-- A binary digit has a digit value below 2. -/
theorem digitVal_binary (c : Char) (h : isBinaryDigit c = true) :
    ∃ dv, digitVal c = some dv ∧ dv < 2 := by
  simp only [isBinaryDigit, Bool.or_eq_true, decide_eq_true_eq] at h
  rcases h with rfl | rfl
  · exact ⟨0, by decide, by omega⟩
  · exact ⟨1, by decide, by omega⟩

/-- A character with a digit value is not an underscore. -/
theorem ne_underscore_of_digitVal {c : Char} {dv : Nat}
    (h : digitVal c = some dv) : c ≠ '_' := by
  intro he
  rw [he] at h
  rw [show digitVal '_' = none by decide] at h
  cases h

/-- A list of characters avoiding b does not contain b. -/
theorem contains_eq_false_of_forall (l : List Char) (b : Char)
    (h : ∀ c ∈ l, c ≠ b) : l.contains b = false := by
  induction l with
  | nil => rfl
  | cons a t ih =>
      simp only [List.contains_cons]
      exact by
        simp only [Bool.or_eq_false_iff]
        exact ⟨by simp [Ne.symm (h a (by simp))],
          ih (fun c hc => h c (List.mem_cons_of_mem a hc))⟩

/-- Filtering away a character not present leaves the list unchanged. -/
theorem filter_ne_eq_self (l : List Char) (b : Char)
    (h : ∀ c ∈ l, c ≠ b) : l.filter (· ≠ b) = l := by
  rw [List.filter_eq_self]
  intro a ha
  simp [h a ha]

/-- takeWhile keeps a list all of whose elements satisfy the predicate. -/
theorem takeWhile_all_eq_self (l : List Char) (p : Char → Bool)
    (h : l.all p = true) : l.takeWhile p = l := by
  induction l with
  | nil => rfl
  | cons a t ih =>
      simp only [List.all_cons, Bool.and_eq_true] at h
      simp [List.takeWhile_cons, h.1, ih h.2]

/-- The digit fold succeeds on a list of valid digits and computes the
base-positional value. -/
theorem foldDigits_ok (base : Nat) (b0 : Bool) : ∀ (ds : List Char) (acc : Nat),
    (∀ c ∈ ds, ∃ dv, digitVal c = some dv ∧ dv < base) →
    foldDigits base b0 ds (.ok acc) =
      .ok (ds.foldl (fun a c => a * base + ((digitVal c).getD 0)) acc) := by
  intro ds
  induction ds with
  | nil => intro acc _; rfl
  | cons c t ih =>
      intro acc h
      obtain ⟨dv, hdv, hlt⟩ := h c (by simp)
      unfold foldDigits
      simp only []
      rw [if_neg (ne_underscore_of_digitVal hdv), hdv]
      simp only []
      rw [if_neg (by omega)]
      rw [ih _ (fun c hc => h c (List.mem_cons_of_mem _ hc))]
      simp [hdv]

/-- ParseUint with base 0 on a prefixed literal (0x/0o/0b in either
case) returns the positional value of the digits. -/
theorem goParseUint_base0_prefix (x : Char) (eff : Nat) (ds : List Char)
    (hx : (goLower x = 'x' ∧ eff = 16) ∨ (goLower x = 'o' ∧ eff = 8) ∨
      (goLower x = 'b' ∧ eff = 2))
    (hne : ds ≠ [])
    (hall : ∀ c ∈ ds, ∃ dv, digitVal c = some dv ∧ dv < eff)
    (hlt : digitsVal eff ds < Nat.pow 2 64) :
    goParseUint ('0' :: x :: ds) 0 = .ok (digitsVal eff ds) := by
  have hcontains : ('0' :: x :: ds).contains '_' = false := by
    apply contains_eq_false_of_forall
    intro c hc
    rcases List.mem_cons.mp hc with rfl | hc2
    · decide
    rcases List.mem_cons.mp hc2 with rfl | hc3
    · intro he
      rcases hx with ⟨hg, -⟩ | ⟨hg, -⟩ | ⟨hg, -⟩ <;> rw [he] at hg <;>
        exact absurd hg (by decide)
    · obtain ⟨dv, hdv, -⟩ := hall c hc3
      exact ne_underscore_of_digitVal hdv
  unfold goParseUint
  rw [if_neg (by simp)]
  rw [if_neg (show ¬(0:Nat) ≠ 0 from fun h => h rfl)]
  simp only []
  have hfold : foldDigits eff true ds (.ok 0) = .ok (digitsVal eff ds) :=
    foldDigits_ok eff true ds 0 hall
  rcases hx with ⟨hg, rfl⟩ | ⟨hg, rfl⟩ | ⟨hg, rfl⟩
  · rw [if_neg (fun hq => absurd (hg.symm.trans hq.2.1) (by decide))]
    rw [if_neg (fun hq => absurd (hg.symm.trans hq.2.1) (by decide))]
    rw [if_pos ⟨by trivial, hg, hne⟩]
    simp only []
    rw [hfold]
    simp only []
    rw [if_neg (by omega)]
    rw [if_neg (fun hq => by
      have := hq.2.1
      rw [hcontains] at this
      exact Bool.noConfusion this)]
  · rw [if_neg (fun hq => absurd (hg.symm.trans hq.2.1) (by decide))]
    rw [if_pos ⟨by trivial, hg, hne⟩]
    simp only []
    rw [hfold]
    simp only []
    rw [if_neg (by omega)]
    rw [if_neg (fun hq => by
      have := hq.2.1
      rw [hcontains] at this
      exact Bool.noConfusion this)]
  · rw [if_pos ⟨by trivial, hg, hne⟩]
    simp only []
    rw [hfold]
    simp only []
    rw [if_neg (by omega)]
    rw [if_neg (fun hq => by
      have := hq.2.1
      rw [hcontains] at this
      exact Bool.noConfusion this)]

/-- ParseUint with base 0 on a decimal literal with nonzero leading
digit returns its decimal value. -/
theorem goParseUint_base0_dec (d : Char) (ds : List Char)
    (hd : isDigit d = true) (hd0 : d ≠ '0')
    (hall : ∀ c ∈ d :: ds, ∃ dv, digitVal c = some dv ∧ dv < 10)
    (hlt : digitsVal 10 (d :: ds) < Nat.pow 2 64) :
    goParseUint (d :: ds) 0 = .ok (digitsVal 10 (d :: ds)) := by
  have hcontains : (d :: ds).contains '_' = false := by
    apply contains_eq_false_of_forall
    intro c hc
    obtain ⟨dv, hdv, -⟩ := hall c hc
    exact ne_underscore_of_digitVal hdv
  have hfold : foldDigits 10 true (d :: ds) (.ok 0) = .ok (digitsVal 10 (d :: ds)) :=
    foldDigits_ok 10 true (d :: ds) 0 hall
  unfold goParseUint
  rw [if_neg (by simp)]
  rw [if_neg (show ¬(0:Nat) ≠ 0 from fun h => h rfl)]
  cases ds with
  | nil =>
      simp only []
      rw [if_neg hd0]
      simp only []
      rw [hfold]
      simp only []
      rw [if_neg (by omega)]
      rw [if_neg (fun hq => by
        have := hq.2.1
        rw [hcontains] at this
        exact Bool.noConfusion this)]
  | cons c1 rest =>
      simp only []
      rw [if_neg (fun hq => hd0 hq.1)]
      rw [if_neg (fun hq => hd0 hq.1)]
      rw [if_neg (fun hq => hd0 hq.1)]
      rw [if_neg hd0]
      simp only []
      rw [hfold]
      simp only []
      rw [if_neg (by omega)]
      rw [if_neg (fun hq => by
        have := hq.2.1
        rw [hcontains] at this
        exact Bool.noConfusion this)]

/-- ParseUint with an explicit nonzero base on valid digits. -/
theorem goParseUint_explicit_base (base : Nat) (ds : List Char)
    (hne : ds ≠ []) (hbase : base ≠ 0)
    (hall : ∀ c ∈ ds, ∃ dv, digitVal c = some dv ∧ dv < base)
    (hlt : digitsVal base ds < Nat.pow 2 64) :
    goParseUint ds base = .ok (digitsVal base ds) := by
  have hfold : foldDigits base false ds (.ok 0) = .ok (digitsVal base ds) :=
    foldDigits_ok base false ds 0 hall
  unfold goParseUint
  rw [if_neg hne]
  rw [if_pos hbase]
  simp only []
  rw [hfold]
  simp only []
  rw [if_neg (by omega)]
  rw [if_neg (fun hq => Bool.noConfusion hq.1)]

/-- ParseInt on a string that starts with neither sign character: the
unsigned parse carries over, within the signed range. -/
theorem goParseInt_of_uint (s : List Char) (v : Nat) (hs : s ≠ [])
    (hhd : ∀ c r, s = c :: r → c ≠ '+' ∧ c ≠ '-')
    (hu : goParseUint s 0 = .ok v) (hv : v < Nat.pow 2 63) :
    goParseInt s = .ok (v : ℤ) := by
  unfold goParseInt
  rw [if_neg hs]
  split
  rename_i neg rest heq
  split at heq
  · exact absurd rfl (hhd '+' _ rfl).1
  · exact absurd rfl (hhd '-' _ rfl).2
  · cases heq
    rw [hu]
    simp only []
    rw [if_neg (fun hq => absurd hq.2 (by omega))]
    rw [if_neg (fun hq => Bool.noConfusion hq.1)]
    simp

/-- ParseInt on a negated decimal literal. -/
theorem goParseInt_neg (d : Char) (ds : List Char) (v : Nat)
    (hu : goParseUint (d :: ds) 0 = .ok v) (hv : v < Nat.pow 2 63) :
    goParseInt ('-' :: d :: ds) = .ok (-(v : ℤ)) := by
  unfold goParseInt
  rw [if_neg (by simp)]
  simp only []
  rw [hu]
  simp only []
  rw [if_neg (fun hq => hq.1 trivial)]
  rw [if_neg (fun hq => absurd hq.2 (by omega))]
  simp

/-- The fuel-driven binary logarithm never overshoots: below 2^(j+1) it
returns at most j. -/
theorem ilog2F_le : ∀ (fuel n j : Nat), n < 2 ^ (j + 1) → ilog2F fuel n ≤ j := by
  intro fuel
  induction fuel with
  | zero =>
      intro n j _
      exact Nat.zero_le j
  | succ fuel ih =>
      intro n j h
      unfold ilog2F
      split_ifs with h1 h2
      · exact Nat.zero_le j
      · have hpow : (18446744073709551616 : Nat) = 2 ^ 64 := by norm_num
        have hj : 64 ≤ j := by
          by_contra hc
          push_neg at hc
          have hle : 2 ^ (j + 1) ≤ 2 ^ 64 := Nat.pow_le_pow_right (by omega) (by omega)
          omega
        have hdiv : n / 18446744073709551616 < 2 ^ (j - 64 + 1) := by
          rw [Nat.div_lt_iff_lt_mul (by norm_num)]
          calc n < 2 ^ (j + 1) := h
          _ ≤ 2 ^ (j - 64 + 1) * 18446744073709551616 := by
              rw [hpow, ← pow_add]
              exact Nat.pow_le_pow_right (by omega) (by omega)
        have := ih _ _ hdiv
        omega
      · have hj : 1 ≤ j := by
          by_contra hc
          push_neg at hc
          have hj0 : j = 0 := by omega
          subst hj0
          have : n < 2 := by simpa using h
          omega
        have hdiv : n / 2 < 2 ^ (j - 1 + 1) := by
          rw [Nat.div_lt_iff_lt_mul (by norm_num)]
          calc n < 2 ^ (j + 1) := h
          _ ≤ 2 ^ (j - 1 + 1) * 2 := by
              rw [← pow_succ]
              exact Nat.pow_le_pow_right (by omega) (by omega)
        have := ih _ _ hdiv
        omega

/-- Rounding an integer to the nearest integer is the identity. -/
theorem rne_one (n : Nat) : rne n 1 = n := by
  unfold rne
  simp [Nat.mod_one]

/-- Canonicalisation preserves the dyadic value. -/
theorem oddify_val : ∀ (fuel m : Nat) (k : ℤ),
    (((oddify fuel m k).1 : ℚ)) * (2:ℚ) ^ ((oddify fuel m k).2) = (m : ℚ) * (2:ℚ) ^ k := by
  intro fuel
  induction fuel with
  | zero => intro m k; rfl
  | succ fuel ih =>
      intro m k
      unfold oddify
      split_ifs with h
      · rw [ih]
        obtain ⟨he, hne⟩ := h
        have hm : m = 2 * (m / 2) := by omega
        have hmc : (m : ℚ) = 2 * ((m / 2 : ℕ) : ℚ) := by
          exact_mod_cast congrArg (fun x : ℕ => (x : ℚ)) hm
        rw [zpow_add₀ (two_ne_zero) k 1, hmc]
        ring
      · rfl

/-- Canonicalisation never zeroes a nonzero mantissa. -/
theorem oddify_ne_zero : ∀ (fuel m : Nat) (k : ℤ), m ≠ 0 → (oddify fuel m k).1 ≠ 0 := by
  intro fuel
  induction fuel with
  | zero => intro m k h; exact h
  | succ fuel ih =>
      intro m k h
      unfold oddify
      split_ifs with hc
      · exact ih _ _ (by omega)
      · exact h

/-- Exactness of binary64 rounding on integers below 2^53: the total
rounding returns a finite float of exactly the integer value. -/
theorem roundTotal_exact (neg : Bool) (v : Nat) (hlt : v < 2 ^ 53) :
    ∃ m k, roundTotal neg v 1 = .finite m k ∧
      (m : ℚ) * (2:ℚ) ^ k = (if neg then -(v : ℚ) else (v : ℚ)) ∧
      (v ≠ 0 → m ≠ 0) := by
  by_cases hv : v = 0
  · subst hv
    refine ⟨0, 0, by rfl, ?_, fun h => absurd rfl h⟩
    cases neg <;> simp
  · have hlog : ilog2 v ≤ 52 := ilog2F_le v v 52 hlt
    have heb : flog2 v 1 ≤ 52 ∧ (0:ℤ) - 1 ≤ flog2 v 1 := by
      simp only [flog2, show ilog2 1 = 0 from rfl]
      split_ifs <;> constructor <;> omega
    obtain ⟨heu, hel⟩ := heb
    have hsc : (0:ℤ) ≤ 52 - flog2 v 1 := by omega
    have hsn : (52 - flog2 v 1) = (((52 - flog2 v 1).toNat : ℕ) : ℤ) := by omega
    have hsnle : (52 - flog2 v 1).toNat ≤ 53 := by omega
    have hrp : roundPos v 1 =
        (v * 2 ^ (52 - flog2 v 1).toNat, -(52 - flog2 v 1)) := by
      simp only [roundPos]
      rw [if_neg (by omega : ¬ flog2 v 1 < -1022)]
      unfold rneScaled
      rw [if_pos hsc, rne_one]
      simp [Nat.pow_eq]
    have hm0 : v * 2 ^ (52 - flog2 v 1).toNat ≠ 0 := by
      have := pow_pos (show 0 < 2 by omega) (52 - flog2 v 1).toNat
      positivity
    have hdy : dyGeTwoPow (v * 2 ^ (52 - flog2 v 1).toNat) (-(52 - flog2 v 1)) 1024 = false := by
      unfold dyGeTwoPow
      rw [if_neg (by omega : ¬ (1024:ℤ) ≤ -(52 - flog2 v 1))]
      simp only [decide_eq_false_iff_not, not_le]
      have hexp : ((1024:ℤ) - -(52 - flog2 v 1)).toNat = 1024 + (52 - flog2 v 1).toNat := by
        omega
      rw [hexp]
      calc v * 2 ^ (52 - flog2 v 1).toNat
          < 2 ^ 53 * 2 ^ (52 - flog2 v 1).toNat :=
            mul_lt_mul_of_pos_right hlt (pow_pos (by omega) _)
      _ = 2 ^ (53 + (52 - flog2 v 1).toNat) := by rw [pow_add]
      _ ≤ 2 ^ (1024 + (52 - flog2 v 1).toNat) := Nat.pow_le_pow_right (by omega) (by omega)
    obtain ⟨m, k2, hodd⟩ : ∃ m k2,
        oddify (v * 2 ^ (52 - flog2 v 1).toNat) (v * 2 ^ (52 - flog2 v 1).toNat)
          (-(52 - flog2 v 1)) = (m, k2) := ⟨_, _, rfl⟩
    have hval : (m : ℚ) * (2:ℚ) ^ k2 = (v : ℚ) := by
      have h0 := oddify_val (v * 2 ^ (52 - flog2 v 1).toNat)
        (v * 2 ^ (52 - flog2 v 1).toNat) (-(52 - flog2 v 1))
      rw [hodd] at h0
      simp only [] at h0
      rw [h0, show -(52 - flog2 v 1) = -(((52 - flog2 v 1).toNat : ℕ) : ℤ) by omega]
      push_cast
      rw [mul_assoc, ← zpow_natCast (2:ℚ) (52 - flog2 v 1).toNat,
        ← zpow_add₀ (two_ne_zero : (2:ℚ) ≠ 0)]
      simp
    have hmnz : m ≠ 0 := by
      have := oddify_ne_zero (v * 2 ^ (52 - flog2 v 1).toNat)
        (v * 2 ^ (52 - flog2 v 1).toNat) (-(52 - flog2 v 1)) hm0
      rw [hodd] at this
      exact this
    refine ⟨(if neg then -(m : ℤ) else (m : ℤ)), k2, ?_, ?_, ?_⟩
    · simp only [roundTotal]
      rw [if_neg hv, hrp]
      simp only []
      rw [if_neg (fun hq => by rw [hdy] at hq; exact Bool.noConfusion hq)]
      unfold canonFloat
      rw [if_neg hm0, hodd]
    · cases neg
      · simpa using hval
      · simp only [if_pos rfl]
        push_cast
        rw [neg_mul, hval]
    · intro _
      cases neg <;> simp [hmnz]
  
/-- Exactness of strconv rounding on integers below 2^53. -/
theorem roundParsed_exact (neg : Bool) (v : Nat) (hlt : v < 2 ^ 53) :
    ∃ m k, roundParsed neg v 1 = .ok (.finite m k) ∧
      (m : ℚ) * (2:ℚ) ^ k = (if neg then -(v : ℚ) else (v : ℚ)) := by
  obtain ⟨m, k, hrt, hval, hnz⟩ := roundTotal_exact neg v hlt
  by_cases hv : v = 0
  · subst hv
    refine ⟨0, 0, ?_, ?_⟩
    · unfold roundParsed
      rw [if_pos rfl]
    · cases neg <;> simp
  · refine ⟨m, k, ?_, hval⟩
    unfold roundParsed
    rw [if_neg hv, hrt]
    simp only []
    rw [if_neg (hnz hv)]

/-- Exactness of the Go float64 conversion on integers below 2^53. -/
theorem floatOfNat_exact (v : Nat) (hlt : v < 2 ^ 53) :
    ∃ m k, floatOfNat v = .finite m k ∧ (m : ℚ) * (2:ℚ) ^ k = (v : ℚ) := by
  obtain ⟨m, k, hrt, hval, -⟩ := roundTotal_exact false v hlt
  exact ⟨m, k, hrt, by simpa using hval⟩

/-- The decimal branch of ParseFloat on a plain digit string returns the
exactly-rounded decimal value. -/
theorem goParseFloatDecimal_digits (neg : Bool) (d : Char) (ds : List Char)
    (hd : isDigit d = true) (hall : ds.all isDigit = true)
    (hlt : digitsVal 10 (d :: ds) < 2 ^ 53) :
    ∃ m k, goParseFloat.goParseFloatDecimal neg (d :: ds) = .ok (.finite m k) ∧
      (m : ℚ) * (2:ℚ) ^ k =
        (if neg then -(digitsVal 10 (d :: ds) : ℚ) else (digitsVal 10 (d :: ds) : ℚ)) := by
  have hta : (d :: ds).takeWhile isDigit = d :: ds :=
    takeWhile_all_eq_self _ _ (by simp [List.all_cons, hd, hall])
  obtain ⟨m, k, hrp, hval⟩ := roundParsed_exact neg (digitsVal 10 (d :: ds)) hlt
  refine ⟨m, k, ?_, hval⟩
  simp only [goParseFloat.goParseFloatDecimal]
  rw [hta, List.drop_length]
  simp only []
  rw [if_neg (fun hq => List.cons_ne_nil d ds hq.1)]
  simp only [List.append_nil]
  simpa using hrp

/-- ParseFloat on a digit string with nonzero leading digit. -/
theorem goParseFloat_dec (d : Char) (ds : List Char)
    (hd : isDigit d = true) (hd0 : d ≠ '0') (hall : ds.all isDigit = true)
    (hlt : digitsVal 10 (d :: ds) < 2 ^ 53) :
    ∃ m k, goParseFloat (d :: ds) = .ok (.finite m k) ∧
      (m : ℚ) * (2:ℚ) ^ k = (digitsVal 10 (d :: ds) : ℚ) := by
  obtain ⟨m, k, hpd, hval⟩ := goParseFloatDecimal_digits false d ds hd hall hlt
  refine ⟨m, k, ?_, by simpa using hval⟩
  unfold goParseFloat
  rw [if_neg (by simp)]
  split
  rename_i neg1 r0 heq
  split at heq
  · rename_i r heq2
    rw [show d = '+' from (List.cons.inj heq2).1] at hd
    exact absurd hd (by decide)
  · rename_i r heq2
    rw [show d = '-' from (List.cons.inj heq2).1] at hd
    exact absurd hd (by decide)
  · cases heq
    rw [List.map_cons, goLower_digit d hd]
    rw [if_neg (fun hq => by
      rcases hq with hq | hq
      · have h2 := congrArg List.head? hq
        rw [List.head?_cons, show ("inf".data).head? = some 'i' from rfl] at h2
        exact (class_ne hd (by decide)) (Option.some.inj h2)
      · have h2 := congrArg List.head? hq
        rw [List.head?_cons, show ("infinity".data).head? = some 'i' from rfl] at h2
        exact (class_ne hd (by decide)) (Option.some.inj h2))]
    rw [if_neg (fun hq => by
      have h2 := congrArg List.head? hq
      rw [List.head?_cons, show ("nan".data).head? = some 'n' from rfl] at h2
      exact (class_ne hd (by decide)) (Option.some.inj h2))]
    split
    · rename_i c1 r1 heq2
      exact absurd ((List.cons.inj heq2).1) hd0
    · exact hpd

/-- ParseFloat on a negated digit string with nonzero leading digit. -/
theorem goParseFloat_dec_neg (d : Char) (ds : List Char)
    (hd : isDigit d = true) (hd0 : d ≠ '0') (hall : ds.all isDigit = true)
    (hlt : digitsVal 10 (d :: ds) < 2 ^ 53) :
    ∃ m k, goParseFloat ('-' :: d :: ds) = .ok (.finite m k) ∧
      (m : ℚ) * (2:ℚ) ^ k = -(digitsVal 10 (d :: ds) : ℚ) := by
  obtain ⟨m, k, hpd, hval⟩ := goParseFloatDecimal_digits true d ds hd hall hlt
  refine ⟨m, k, ?_, by simpa using hval⟩
  unfold goParseFloat
  rw [if_neg (by simp)]
  split
  rename_i neg1 r0 heq
  split at heq
  · rename_i r heq2
    exact absurd ((List.cons.inj heq2).1) (by decide)
  · rename_i r heq2
    have hr : r = d :: ds := ((List.cons.inj heq2).2).symm
    subst hr
    cases heq
    rw [List.map_cons, goLower_digit d hd]
    rw [if_neg (fun hq => by
      rcases hq with hq | hq
      · have h2 := congrArg List.head? hq
        rw [List.head?_cons, show ("inf".data).head? = some 'i' from rfl] at h2
        exact (class_ne hd (by decide)) (Option.some.inj h2)
      · have h2 := congrArg List.head? hq
        rw [List.head?_cons, show ("infinity".data).head? = some 'i' from rfl] at h2
        exact (class_ne hd (by decide)) (Option.some.inj h2))]
    rw [if_neg (fun hq => by
      have h2 := congrArg List.head? hq
      rw [List.head?_cons, show ("nan".data).head? = some 'n' from rfl] at h2
      exact (class_ne hd (by decide)) (Option.some.inj h2))]
    split
    · rename_i c1 r1 heq2
      exact absurd ((List.cons.inj heq2).1) hd0
    · exact hpd
  · rename_i hno1 hno2
    exact absurd rfl (hno2 (d :: ds))

/-- The float conversion of a 0x-prefixed hex literal is the exact float
of its value (below 2^53). -/
theorem ToFloat_hex (x : Char) (ds : List Char)
    (hx : x = 'x' ∨ x = 'X') (hne : ds ≠ [])
    (hall : ds.all isHexDigit = true) (hlt : digitsVal 16 ds < 2 ^ 53) :
    ∃ m k, NumberValue.ToFloat ('0' :: x :: ds) = .ok (.finite m k) ∧
      (m : ℚ) * (2:ℚ) ^ k = (digitsVal 16 ds : ℚ) := by
  have hallm : ∀ c ∈ ds, isHexDigit c = true := by
    simpa [List.all_eq_true] using hall
  have hchars : ∀ b : Char, isHexDigit b = false → b ≠ '0' → (x = b → False) →
      ∀ c ∈ '0' :: x :: ds, c ≠ b := by
    intro b hb hb0 hbx c hc
    rcases List.mem_cons.mp hc with rfl | hc2
    · exact Ne.symm hb0
    rcases List.mem_cons.mp hc2 with rfl | hc3
    · exact fun he => hbx he
    · exact class_ne (hallm c hc3) hb
  have hxne : ∀ b : Char, b ≠ 'x' → b ≠ 'X' → (x = b → False) := by
    intro b h1 h2 he
    rcases hx with rfl | rfl
    · exact h1 he.symm
    · exact h2 he.symm
  have hfil : ('0' :: x :: ds).filter (· ≠ '_') = '0' :: x :: ds :=
    filter_ne_eq_self _ _ (hchars '_' (by decide) (by decide) (hxne '_' (by decide) (by decide)))
  have hcp : ('0' :: x :: ds).contains 'p' = false :=
    contains_eq_false_of_forall _ _ (hchars 'p' (by decide) (by decide) (hxne 'p' (by decide) (by decide)))
  have hcP : ('0' :: x :: ds).contains 'P' = false :=
    contains_eq_false_of_forall _ _ (hchars 'P' (by decide) (by decide) (hxne 'P' (by decide) (by decide)))
  have hcd : ('0' :: x :: ds).contains '.' = false :=
    contains_eq_false_of_forall _ _ (hchars '.' (by decide) (by decide) (hxne '.' (by decide) (by decide)))
  have h64 : (2:ℕ) ^ 53 ≤ 2 ^ 64 := Nat.pow_le_pow_right (by omega) (by omega)
  have hpu : goParseUint ds 16 = .ok (digitsVal 16 ds) :=
    goParseUint_explicit_base 16 ds hne (by omega)
      (fun c hc => digitVal_hex c (hallm c hc))
      (by rw [show Nat.pow 2 64 = 2 ^ 64 from rfl]; omega)
  obtain ⟨m, k, hfo, hval⟩ := floatOfNat_exact (digitsVal 16 ds) hlt
  refine ⟨m, k, ?_, hval⟩
  unfold NumberValue.ToFloat
  rw [hfil]
  rw [if_pos ⟨by
    simp only [List.length_cons]
    have := List.length_pos.mpr hne
    omega, rfl⟩]
  rw [show ('0' :: x :: ds).get? 1 = some x from rfl]
  simp only []
  rw [if_pos hx]
  rw [if_neg (fun hq => by
    rcases hq with hq | hq
    · rw [hcp] at hq
      exact Bool.noConfusion hq
    · rw [hcP] at hq
      exact Bool.noConfusion hq)]
  rw [if_neg (fun hq => by
    rw [hcd] at hq
    exact Bool.noConfusion hq)]
  rw [show ('0' :: x :: ds).drop 2 = ds from rfl, hpu]
  simp only []
  rw [hfo]

/-- The float conversion of a 0o-prefixed octal literal is the exact
float of its value (below 2^53). -/
theorem ToFloat_octal (x : Char) (ds : List Char)
    (hx : x = 'o' ∨ x = 'O') (hne : ds ≠ [])
    (hall : ds.all isOctalDigit = true) (hlt : digitsVal 8 ds < 2 ^ 53) :
    ∃ m k, NumberValue.ToFloat ('0' :: x :: ds) = .ok (.finite m k) ∧
      (m : ℚ) * (2:ℚ) ^ k = (digitsVal 8 ds : ℚ) := by
  have hallm : ∀ c ∈ ds, isOctalDigit c = true := by
    simpa [List.all_eq_true] using hall
  have hfil : ('0' :: x :: ds).filter (· ≠ '_') = '0' :: x :: ds := by
    apply filter_ne_eq_self
    intro c hc
    rcases List.mem_cons.mp hc with rfl | hc2
    · decide
    rcases List.mem_cons.mp hc2 with rfl | hc3
    · rcases hx with rfl | rfl <;> decide
    · exact class_ne (hallm c hc3) (by decide)
  have hpu : goParseUint ds 8 = .ok (digitsVal 8 ds) :=
    goParseUint_explicit_base 8 ds hne (by omega)
      (fun c hc => digitVal_octal c (hallm c hc))
      (by
        have h64 : (2:ℕ) ^ 53 ≤ 2 ^ 64 := Nat.pow_le_pow_right (by omega) (by omega)
        rw [show Nat.pow 2 64 = 2 ^ 64 from rfl]
        omega)
  obtain ⟨m, k, hfo, hval⟩ := floatOfNat_exact (digitsVal 8 ds) hlt
  refine ⟨m, k, ?_, hval⟩
  unfold NumberValue.ToFloat
  rw [hfil]
  rw [if_pos ⟨by
    simp only [List.length_cons]
    have := List.length_pos.mpr hne
    omega, rfl⟩]
  rw [show ('0' :: x :: ds).get? 1 = some x from rfl]
  simp only []
  rw [if_neg (fun hq => by
    rcases hx with rfl | rfl <;> rcases hq with hq | hq <;> exact absurd hq (by decide))]
  rw [if_pos hx]
  rw [show ('0' :: x :: ds).drop 2 = ds from rfl, hpu]
  simp only []
  rw [hfo]

/-- The float conversion of a 0b-prefixed binary literal is the exact
float of its value (below 2^53). -/
theorem ToFloat_binary (x : Char) (ds : List Char)
    (hx : x = 'b' ∨ x = 'B') (hne : ds ≠ [])
    (hall : ds.all isBinaryDigit = true) (hlt : digitsVal 2 ds < 2 ^ 53) :
    ∃ m k, NumberValue.ToFloat ('0' :: x :: ds) = .ok (.finite m k) ∧
      (m : ℚ) * (2:ℚ) ^ k = (digitsVal 2 ds : ℚ) := by
  have hallm : ∀ c ∈ ds, isBinaryDigit c = true := by
    simpa [List.all_eq_true] using hall
  have hfil : ('0' :: x :: ds).filter (· ≠ '_') = '0' :: x :: ds := by
    apply filter_ne_eq_self
    intro c hc
    rcases List.mem_cons.mp hc with rfl | hc2
    · decide
    rcases List.mem_cons.mp hc2 with rfl | hc3
    · rcases hx with rfl | rfl <;> decide
    · exact class_ne (hallm c hc3) (by decide)
  have hpu : goParseUint ds 2 = .ok (digitsVal 2 ds) :=
    goParseUint_explicit_base 2 ds hne (by omega)
      (fun c hc => digitVal_binary c (hallm c hc))
      (by
        have h64 : (2:ℕ) ^ 53 ≤ 2 ^ 64 := Nat.pow_le_pow_right (by omega) (by omega)
        rw [show Nat.pow 2 64 = 2 ^ 64 from rfl]
        omega)
  obtain ⟨m, k, hfo, hval⟩ := floatOfNat_exact (digitsVal 2 ds) hlt
  refine ⟨m, k, ?_, hval⟩
  unfold NumberValue.ToFloat
  rw [hfil]
  rw [if_pos ⟨by
    simp only [List.length_cons]
    have := List.length_pos.mpr hne
    omega, rfl⟩]
  rw [show ('0' :: x :: ds).get? 1 = some x from rfl]
  simp only []
  rw [if_neg (fun hq => by
    rcases hx with rfl | rfl <;> rcases hq with hq | hq <;> exact absurd hq (by decide))]
  rw [if_neg (fun hq => by
    rcases hx with rfl | rfl <;> rcases hq with hq | hq <;> exact absurd hq (by decide))]
  rw [if_pos hx]
  rw [show ('0' :: x :: ds).drop 2 = ds from rfl, hpu]
  simp only []
  rw [hfo]

/-- The float conversion of a decimal literal with nonzero leading digit
is the exact float of its value (below 2^53). -/
theorem ToFloat_dec (d : Char) (ds : List Char)
    (hd : isDigit d = true) (hd0 : d ≠ '0') (hall : ds.all isDigit = true)
    (hlt : digitsVal 10 (d :: ds) < 2 ^ 53) :
    ∃ m k, NumberValue.ToFloat (d :: ds) = .ok (.finite m k) ∧
      (m : ℚ) * (2:ℚ) ^ k = (digitsVal 10 (d :: ds) : ℚ) := by
  have hallm : ∀ c ∈ ds, isDigit c = true := by
    simpa [List.all_eq_true] using hall
  have hfil : (d :: ds).filter (· ≠ '_') = d :: ds := by
    apply filter_ne_eq_self
    intro c hc
    rcases List.mem_cons.mp hc with rfl | hc2
    · exact class_ne hd (by decide)
    · exact class_ne (hallm c hc2) (by decide)
  obtain ⟨m, k, hpf, hval⟩ := goParseFloat_dec d ds hd hd0 hall hlt
  refine ⟨m, k, ?_, hval⟩
  unfold NumberValue.ToFloat
  rw [hfil]
  rw [if_neg (fun hq => hd0 (Option.some.inj hq.2))]
  exact hpf

/-- The float conversion of a negated decimal literal with nonzero
leading digit is the exact float of its negated value. -/
theorem ToFloat_dec_neg (d : Char) (ds : List Char)
    (hd : isDigit d = true) (hd0 : d ≠ '0') (hall : ds.all isDigit = true)
    (hlt : digitsVal 10 (d :: ds) < 2 ^ 53) :
    ∃ m k, NumberValue.ToFloat ('-' :: d :: ds) = .ok (.finite m k) ∧
      (m : ℚ) * (2:ℚ) ^ k = -(digitsVal 10 (d :: ds) : ℚ) := by
  have hallm : ∀ c ∈ ds, isDigit c = true := by
    simpa [List.all_eq_true] using hall
  have hfil : ('-' :: d :: ds).filter (· ≠ '_') = '-' :: d :: ds := by
    apply filter_ne_eq_self
    intro c hc
    rcases List.mem_cons.mp hc with rfl | hc2
    · decide
    rcases List.mem_cons.mp hc2 with rfl | hc3
    · exact class_ne hd (by decide)
    · exact class_ne (hallm c hc3) (by decide)
  obtain ⟨m, k, hpf, hval⟩ := goParseFloat_dec_neg d ds hd hd0 hall hlt
  refine ⟨m, k, ?_, hval⟩
  unfold NumberValue.ToFloat
  rw [hfil]
  rw [if_neg (fun hq => by
    have := Option.some.inj hq.2
    exact absurd this (by decide))]
  exact hpf

/-- C6 counterexample: on raw text "010" both the integer and the float
conversion succeed, yet the integer conversion reads legacy octal (8)
while the float conversion reads decimal (10): the results disagree. -/
theorem C6_legacy_octal_counterexample :
    NumberValue.ToInt "010".data = .ok 8 ∧
    NumberValue.ToUint "010".data = .ok 8 ∧
    NumberValue.ToFloat "010".data = .ok (.finite 5 1) ∧
    (5 : ℚ) * (2:ℚ) ^ (1:ℤ) = 10 ∧ ((8:ℤ) : ℚ) ≠ 10 := by
  refine ⟨by decide, by decide, by decide, by norm_num, by norm_num⟩

/-- C6 (amended): for every 0x/0X, 0o/0O or 0b/0B prefixed literal and
every decimal literal with nonzero leading digit (optionally negated for
the signed conversions) whose value is below 2^53, the integer, unsigned
and float conversions all succeed and agree exactly, the float being the
finite double m·2^k whose rational value equals the integer result; in
particular "0x23" converts to int 35, uint 35 and float 35.0. -/
theorem C6_int_float_agreement :
    (∀ x ds, (x = 'x' ∨ x = 'X') → ds ≠ [] → ds.all isHexDigit = true →
      digitsVal 16 ds < 2 ^ 53 →
      NumberValue.ToUint ('0' :: x :: ds) = .ok (digitsVal 16 ds) ∧
      NumberValue.ToInt ('0' :: x :: ds) = .ok ((digitsVal 16 ds : ℕ) : ℤ) ∧
      ∃ m k, NumberValue.ToFloat ('0' :: x :: ds) = .ok (.finite m k) ∧
        (m : ℚ) * (2:ℚ) ^ k = (digitsVal 16 ds : ℚ)) ∧
    (∀ x ds, (x = 'o' ∨ x = 'O') → ds ≠ [] → ds.all isOctalDigit = true →
      digitsVal 8 ds < 2 ^ 53 →
      NumberValue.ToUint ('0' :: x :: ds) = .ok (digitsVal 8 ds) ∧
      NumberValue.ToInt ('0' :: x :: ds) = .ok ((digitsVal 8 ds : ℕ) : ℤ) ∧
      ∃ m k, NumberValue.ToFloat ('0' :: x :: ds) = .ok (.finite m k) ∧
        (m : ℚ) * (2:ℚ) ^ k = (digitsVal 8 ds : ℚ)) ∧
    (∀ x ds, (x = 'b' ∨ x = 'B') → ds ≠ [] → ds.all isBinaryDigit = true →
      digitsVal 2 ds < 2 ^ 53 →
      NumberValue.ToUint ('0' :: x :: ds) = .ok (digitsVal 2 ds) ∧
      NumberValue.ToInt ('0' :: x :: ds) = .ok ((digitsVal 2 ds : ℕ) : ℤ) ∧
      ∃ m k, NumberValue.ToFloat ('0' :: x :: ds) = .ok (.finite m k) ∧
        (m : ℚ) * (2:ℚ) ^ k = (digitsVal 2 ds : ℚ)) ∧
    (∀ d ds, isDigit d = true → d ≠ '0' → ds.all isDigit = true →
      digitsVal 10 (d :: ds) < 2 ^ 53 →
      NumberValue.ToUint (d :: ds) = .ok (digitsVal 10 (d :: ds)) ∧
      NumberValue.ToInt (d :: ds) = .ok ((digitsVal 10 (d :: ds) : ℕ) : ℤ) ∧
      NumberValue.ToInt ('-' :: d :: ds) = .ok (-((digitsVal 10 (d :: ds) : ℕ) : ℤ)) ∧
      (∃ m k, NumberValue.ToFloat (d :: ds) = .ok (.finite m k) ∧
        (m : ℚ) * (2:ℚ) ^ k = (digitsVal 10 (d :: ds) : ℚ)) ∧
      (∃ m k, NumberValue.ToFloat ('-' :: d :: ds) = .ok (.finite m k) ∧
        (m : ℚ) * (2:ℚ) ^ k = -(digitsVal 10 (d :: ds) : ℚ))) ∧
    (NumberValue.ToInt "0x23".data = .ok 35 ∧
     NumberValue.ToUint "0x23".data = .ok 35 ∧
     NumberValue.ToFloat "0x23".data = .ok (.finite 35 0)) := by
  have h6453 : (2:ℕ) ^ 53 ≤ 2 ^ 64 := Nat.pow_le_pow_right (by omega) (by omega)
  have h6353 : (2:ℕ) ^ 53 ≤ 2 ^ 63 := Nat.pow_le_pow_right (by omega) (by omega)
  refine ⟨?_, ?_, ?_, ?_, by decide, by decide, by decide⟩
  · intro x ds hx hne hall hlt
    have hallm : ∀ c ∈ ds, isHexDigit c = true := by
      simpa [List.all_eq_true] using hall
    have hprefix : (goLower x = 'x' ∧ 16 = 16) ∨ (goLower x = 'o' ∧ 16 = 8) ∨
        (goLower x = 'b' ∧ 16 = 2) := by
      rcases hx with rfl | rfl <;> exact Or.inl ⟨by decide, rfl⟩
    have hu : goParseUint ('0' :: x :: ds) 0 = .ok (digitsVal 16 ds) :=
      goParseUint_base0_prefix x 16 ds hprefix hne
        (fun c hc => digitVal_hex c (hallm c hc))
        (by rw [show Nat.pow 2 64 = 2 ^ 64 from rfl]; omega)
    refine ⟨hu, ?_, ToFloat_hex x ds hx hne hall hlt⟩
    exact goParseInt_of_uint _ _ (by simp)
      (fun c r heq => by
        have hc : c = '0' := ((List.cons.inj heq).1).symm
        subst hc
        exact ⟨by decide, by decide⟩)
      hu (by rw [show Nat.pow 2 63 = 2 ^ 63 from rfl]; omega)
  · intro x ds hx hne hall hlt
    have hallm : ∀ c ∈ ds, isOctalDigit c = true := by
      simpa [List.all_eq_true] using hall
    have hprefix : (goLower x = 'x' ∧ 8 = 16) ∨ (goLower x = 'o' ∧ 8 = 8) ∨
        (goLower x = 'b' ∧ 8 = 2) := by
      rcases hx with rfl | rfl <;> exact Or.inr (Or.inl ⟨by decide, rfl⟩)
    have hu : goParseUint ('0' :: x :: ds) 0 = .ok (digitsVal 8 ds) :=
      goParseUint_base0_prefix x 8 ds hprefix hne
        (fun c hc => digitVal_octal c (hallm c hc))
        (by rw [show Nat.pow 2 64 = 2 ^ 64 from rfl]; omega)
    refine ⟨hu, ?_, ToFloat_octal x ds hx hne hall hlt⟩
    exact goParseInt_of_uint _ _ (by simp)
      (fun c r heq => by
        have hc : c = '0' := ((List.cons.inj heq).1).symm
        subst hc
        exact ⟨by decide, by decide⟩)
      hu (by rw [show Nat.pow 2 63 = 2 ^ 63 from rfl]; omega)
  · intro x ds hx hne hall hlt
    have hallm : ∀ c ∈ ds, isBinaryDigit c = true := by
      simpa [List.all_eq_true] using hall
    have hprefix : (goLower x = 'x' ∧ 2 = 16) ∨ (goLower x = 'o' ∧ 2 = 8) ∨
        (goLower x = 'b' ∧ 2 = 2) := by
      rcases hx with rfl | rfl <;> exact Or.inr (Or.inr ⟨by decide, rfl⟩)
    have hu : goParseUint ('0' :: x :: ds) 0 = .ok (digitsVal 2 ds) :=
      goParseUint_base0_prefix x 2 ds hprefix hne
        (fun c hc => digitVal_binary c (hallm c hc))
        (by rw [show Nat.pow 2 64 = 2 ^ 64 from rfl]; omega)
    refine ⟨hu, ?_, ToFloat_binary x ds hx hne hall hlt⟩
    exact goParseInt_of_uint _ _ (by simp)
      (fun c r heq => by
        have hc : c = '0' := ((List.cons.inj heq).1).symm
        subst hc
        exact ⟨by decide, by decide⟩)
      hu (by rw [show Nat.pow 2 63 = 2 ^ 63 from rfl]; omega)
  · intro d ds hd hd0 hall hlt
    have hallm : ∀ c ∈ d :: ds, ∃ dv, digitVal c = some dv ∧ dv < 10 := by
      intro c hc
      rcases List.mem_cons.mp hc with rfl | hc2
      · exact digitVal_digit c hd
      · exact digitVal_digit c (by
          have : ∀ a ∈ ds, isDigit a = true := by simpa [List.all_eq_true] using hall
          exact this c hc2)
    have hu : goParseUint (d :: ds) 0 = .ok (digitsVal 10 (d :: ds)) :=
      goParseUint_base0_dec d ds hd hd0 hallm
        (by rw [show Nat.pow 2 64 = 2 ^ 64 from rfl]; omega)
    refine ⟨hu, ?_, ?_, ToFloat_dec d ds hd hd0 hall hlt,
      ToFloat_dec_neg d ds hd hd0 hall hlt⟩
    · exact goParseInt_of_uint _ _ (by simp)
        (fun c r heq => by
          have hc : c = d := ((List.cons.inj heq).1).symm
          subst hc
          exact ⟨class_ne hd (by decide), class_ne hd (by decide)⟩)
        hu (by rw [show Nat.pow 2 63 = 2 ^ 63 from rfl]; omega)
    · exact goParseInt_neg d ds _ hu
        (by rw [show Nat.pow 2 63 = 2 ^ 63 from rfl]; omega)

/-- The agreement at the concrete literal 0x23 from the claim. -/
theorem C6_int_float_agreement_witness :
    NumberValue.ToUint ('0' :: 'x' :: "23".data) = .ok (digitsVal 16 "23".data) ∧
    NumberValue.ToInt ('0' :: 'x' :: "23".data) = .ok ((digitsVal 16 "23".data : ℕ) : ℤ) ∧
    ∃ m k, NumberValue.ToFloat ('0' :: 'x' :: "23".data) = .ok (.finite m k) ∧
      (m : ℚ) * (2:ℚ) ^ k = (digitsVal 16 "23".data : ℚ) :=
  C6_int_float_agreement.1 'x' "23".data (Or.inl rfl) (by decide) (by decide) (by decide)

end NumericAgreement

/-! ## Trailing-separator equivalence (parser bisimulation) -/

section TrailingSep

/-- Aligned relation between a parser run on B ++ [teof] and one on
B ++ [tsep, teof2]: the states agree on everything the parser can
observe, and the unconsumed sequences share the common part C. -/
def RelS (teof tsep teof2 : Token) (C : List Token) (s s' : PState) : Prop :=
  s'.events = s.events ∧ s'.state = s.state ∧ s'.allowOrdered = s.allowOrdered ∧
  s'.current = s.current ∧ s'.hasToken = s.hasToken ∧
  supply s = C ++ [teof] ∧ supply s' = C ++ [tsep, teof2]

/-- End relation: the first run has consumed its EndOfInput token while
the second holds the extra separator, its own EndOfInput still unread. -/
def RelE (teof tsep teof2 : Token) (s s' : PState) : Prop :=
  s'.events = s.events ∧ s'.state = s.state ∧ s'.allowOrdered = s.allowOrdered ∧
  s.current = teof ∧ s'.current = tsep ∧ s.hasToken = true ∧ s'.hasToken = true ∧
  supply s = [] ∧ supply s' = [teof2]

/-- A pair of runs is either still aligned or at the end divergence. -/
def PostRel (teof tsep teof2 : Token) (s s' : PState) : Prop :=
  (∃ C, RelS teof tsep teof2 C s s') ∨ RelE teof tsep teof2 s s'

theorem relS_pemit {teof tsep teof2 : Token} {C : List Token} {s s' : PState}
    (ev : ParserEvent) (h : RelS teof tsep teof2 C s s') :
    RelS teof tsep teof2 C (pemit ev s) (pemit ev s') := by
  obtain ⟨hev, hst, hao, hcu, hht, hs1, hs2⟩ := h
  exact ⟨by simp [pemit_events, hev], by simp [hst], by simp [hao],
    by simp [hcu], by simp [hht], by simp [hs1], by simp [hs2]⟩

theorem relE_pemit {teof tsep teof2 : Token} {s s' : PState}
    (ev : ParserEvent) (h : RelE teof tsep teof2 s s') :
    RelE teof tsep teof2 (pemit ev s) (pemit ev s') := by
  obtain ⟨hev, hst, hao, hc1, hc2, hh1, hh2, hs1, hs2⟩ := h
  exact ⟨by simp [pemit_events, hev], by simp [hst], by simp [hao],
    by simp [hc1], by simp [hc2], by simp [hh1], by simp [hh2],
    by simp [hs1], by simp [hs2]⟩

theorem relS_updateState {teof tsep teof2 : Token} {C : List Token} {s s' : PState}
    (ns : ParserState) (h : RelS teof tsep teof2 C s s') :
    RelS teof tsep teof2 C (updateState ns s) (updateState ns s') := by
  obtain ⟨hev, hst, hao, hcu, hht, hs1, hs2⟩ := h
  exact ⟨by simp [updateState_events, hev, hst], by simp, by simp [hao],
    by simp [hcu], by simp [hht], by simp [hs1], by simp [hs2]⟩

theorem relE_updateState {teof tsep teof2 : Token} {s s' : PState}
    (ns : ParserState) (h : RelE teof tsep teof2 s s') :
    RelE teof tsep teof2 (updateState ns s) (updateState ns s') := by
  obtain ⟨hev, hst, hao, hc1, hc2, hh1, hh2, hs1, hs2⟩ := h
  exact ⟨by simp [updateState_events, hev, hst], by simp, by simp [hao],
    by simp [hc1], by simp [hc2], by simp [hh1], by simp [hh2],
    by simp [hs1], by simp [hs2]⟩

theorem padvance_rel_cons {teof tsep teof2 c : Token} {C2 : List Token}
    {s s' : PState} (h : RelS teof tsep teof2 (c :: C2) s s') :
    (padvance s).2 = true ∧ (padvance s').2 = true ∧
    RelS teof tsep teof2 C2 (padvance s).1 (padvance s').1 ∧
    (padvance s).1.current = c := by
  obtain ⟨hev, hst, hao, hcu, hht, hs1, hs2⟩ := h
  obtain ⟨ho1, hc1, hsup1, he1, hst1, hao1, hht1⟩ :=
    padvance_cons (show supply s = c :: (C2 ++ [teof]) by rw [hs1]; rfl)
  obtain ⟨ho2, hc2, hsup2, he2, hst2, hao2, hht2⟩ :=
    padvance_cons (show supply s' = c :: (C2 ++ [tsep, teof2]) by rw [hs2]; rfl)
  exact ⟨ho1, ho2,
    ⟨by rw [he1, he2, hev], by rw [hst1, hst2, hst], by rw [hao1, hao2, hao],
     by rw [hc1, hc2], by rw [hht1, hht2], hsup1, hsup2⟩, hc1⟩

theorem padvance_rel_nil {teof tsep teof2 : Token} {s s' : PState}
    (h : RelS teof tsep teof2 [] s s') :
    (padvance s).2 = true ∧ (padvance s').2 = true ∧
    RelE teof tsep teof2 (padvance s).1 (padvance s').1 := by
  obtain ⟨hev, hst, hao, hcu, hht, hs1, hs2⟩ := h
  obtain ⟨ho1, hc1, hsup1, he1, hst1, hao1, hht1⟩ :=
    padvance_cons (show supply s = teof :: [] by rw [hs1]; rfl)
  obtain ⟨ho2, hc2, hsup2, he2, hst2, hao2, hht2⟩ :=
    padvance_cons (show supply s' = tsep :: [teof2] by rw [hs2]; rfl)
  exact ⟨ho1, ho2,
    ⟨by rw [he1, he2, hev], by rw [hst1, hst2, hst], by rw [hao1, hao2, hao],
     hc1, hc2, hht1, hht2, hsup1, hsup2⟩⟩

theorem isNext_rel {teof tsep teof2 : Token} {C : List Token} {s s' : PState}
    (typs : List TokenType) (h : RelS teof tsep teof2 C s s')
    (hagree : typs.contains teof.typ = typs.contains tsep.typ) :
    (isNext typs s').1 = (isNext typs s).1 ∧
    RelS teof tsep teof2 C (isNext typs s).2 (isNext typs s').2 := by
  obtain ⟨hev, hst, hao, hcu, hht, hs1, hs2⟩ := h
  obtain ⟨hb1, hsup1, he1, hc1, hh1, hst1, hao1⟩ := isNext_spec typs s
  obtain ⟨hb2, hsup2, he2, hc2, hh2, hst2, hao2⟩ := isNext_spec typs s'
  constructor
  · rw [hb1, hb2, hs1, hs2]
    cases C with
    | nil => simpa using hagree.symm
    | cons c C2 => simp
  · exact ⟨by rw [he1, he2, hev], by rw [hst1, hst2, hst], by rw [hao1, hao2, hao],
      by rw [hc1, hc2, hcu], by rw [hh1, hh2, hht],
      by rw [hsup1, hs1], by rw [hsup2, hs2]⟩

theorem parseBooleanPrefix_rel {teof tsep teof2 : Token} (hteof : teof.typ = .eof)
    {s s' : PState} (h : PostRel teof tsep teof2 s s')
    (hok : (parseBooleanPrefix s).2 = true) :
    (parseBooleanPrefix s').2 = true ∧
    PostRel teof tsep teof2 (parseBooleanPrefix s).1 (parseBooleanPrefix s').1 := by
  rcases h with ⟨C, hS⟩ | hE
  · cases C with
    | nil =>
        exfalso
        obtain ⟨ho1, ho2, hE1⟩ := padvance_rel_nil hS
        have hcur1 : (padvance s).1.current = teof := hE1.2.2.2.1
        have hfalse : (parseBooleanPrefix s).2 = false := by
          unfold parseBooleanPrefix
          rw [show padvance s = ((padvance s).1, true) from Prod.ext rfl ho1]
          simp only []
          obtain ⟨msg, hit⟩ := isToken_false (show ¬((padvance s).1.hasToken = true ∧
            (padvance s).1.current.typ = .identifier) from fun hq => by
              rw [hcur1, hteof] at hq
              exact absurd hq.2 (by decide))
          rw [hit]
        rw [hfalse] at hok
        cases hok
    | cons c C2 =>
        obtain ⟨ho1, ho2, hS1, hcc⟩ := padvance_rel_cons hS
        obtain ⟨hev1, hst1, hao1, hcu1, hht1, hsup1a, hsup1b⟩ := hS1
        by_cases hid : (padvance s).1.hasToken = true ∧ (padvance s).1.current.typ = .identifier
        · have hit1 : isToken .identifier (padvance s).1 = ((padvance s).1, true) :=
            isToken_true hid.1 hid.2
          have hit2 : isToken .identifier (padvance s').1 = ((padvance s').1, true) :=
            isToken_true (by rw [hht1, hid.1]) (by rw [hcu1, hid.2])
          have hpv : s'.current.val = s.current.val := by
            rw [hS.2.2.2.1]
          have htv : toValue (padvance s').1 = toValue (padvance s).1 := by
            unfold toValue
            rw [hcu1]
          have hres1 : parseBooleanPrefix s =
              padvance (pemit (.value (some (.booleanValue
                (if s.current.val = "^".data then "true".data else "false".data))))
                (pemit (.mapKey (toValue (padvance s).1)) (padvance s).1)) := by
            unfold parseBooleanPrefix
            rw [show padvance s = ((padvance s).1, true) from Prod.ext rfl ho1]
            simp only []
            rw [hit1]
          have hres2 : parseBooleanPrefix s' =
              padvance (pemit (.value (some (.booleanValue
                (if s.current.val = "^".data then "true".data else "false".data))))
                (pemit (.mapKey (toValue (padvance s).1)) (padvance s').1)) := by
            unfold parseBooleanPrefix
            rw [show padvance s' = ((padvance s').1, true) from Prod.ext rfl ho2]
            simp only []
            rw [hit2]
            simp only []
            rw [hpv, htv]
          have hS4 : RelS teof tsep teof2 C2
              (pemit (.value (some (.booleanValue
                (if s.current.val = "^".data then "true".data else "false".data))))
                (pemit (.mapKey (toValue (padvance s).1)) (padvance s).1))
              (pemit (.value (some (.booleanValue
                (if s.current.val = "^".data then "true".data else "false".data))))
                (pemit (.mapKey (toValue (padvance s).1)) (padvance s').1)) :=
            relS_pemit _ (relS_pemit _ ⟨hev1, hst1, hao1, hcu1, hht1, hsup1a, hsup1b⟩)
          cases C2 with
          | nil =>
              obtain ⟨ho1f, ho2f, hEf⟩ := padvance_rel_nil hS4
              refine ⟨by rw [hres2]; exact ho2f, ?_⟩
              rw [hres1, hres2]
              exact Or.inr hEf
          | cons c2 C3 =>
              obtain ⟨ho1f, ho2f, hSf, -⟩ := padvance_rel_cons hS4
              refine ⟨by rw [hres2]; exact ho2f, ?_⟩
              rw [hres1, hres2]
              exact Or.inl ⟨C3, hSf⟩
        · exfalso
          have hfalse : (parseBooleanPrefix s).2 = false := by
            unfold parseBooleanPrefix
            rw [show padvance s = ((padvance s).1, true) from Prod.ext rfl ho1]
            simp only []
            obtain ⟨msg, hit⟩ := isToken_false (show ¬((padvance s).1.hasToken = true ∧
              (padvance s).1.current.typ = .identifier) from hid)
            rw [hit]
          rw [hfalse] at hok
          cases hok
  · exfalso
    have hsup : supply s = [] := hE.2.2.2.2.2.2.2.1
    obtain ⟨ho1, hc1, hsup1, he1, hst1, hao1, hht1⟩ := padvance_nil hsup
    have hfalse : (parseBooleanPrefix s).2 = false := by
      unfold parseBooleanPrefix
      rw [show padvance s = ((padvance s).1, false) from Prod.ext rfl ho1]
    rw [hfalse] at hok
    cases hok

theorem parseDictPair_rel {teof tsep teof2 : Token} (hteof : teof.typ = .eof)
    {s s' : PState} (h : PostRel teof tsep teof2 s s')
    (hok : (parseDictPair s).2 = true) :
    (parseDictPair s').2 = true ∧
    PostRel teof tsep teof2 (parseDictPair s).1 (parseDictPair s').1 := by
  rcases h with ⟨C, hS⟩ | hE
  · have hcu0 : s'.current = s.current := hS.2.2.2.1
    by_cases hv : isValueType s.current.typ = true
    · have hiv1 : isValue s = (s, true) := isValue_true hv
      have hiv2 : isValue s' = (s', true) := isValue_true (by rw [hcu0]; exact hv)
      have htv0 : toValue s' = toValue s := congrArg valueFromToken hcu0
      have hS2 : RelS teof tsep teof2 C (pemit (.mapKey (toValue s)) s) (pemit (.mapKey (toValue s)) s') :=
        relS_pemit _ hS
      cases C with
      | nil =>
          exfalso
          obtain ⟨ho1, ho2, hE3⟩ := padvance_rel_nil hS2
          have hcur3 : ((padvance (pemit (.mapKey (toValue s)) s)).1).current = teof := hE3.2.2.2.1
          have hfalse : (parseDictPair s).2 = false := by
            unfold parseDictPair
            rw [hiv1]
            simp only []
            rw [show padvance (pemit (.mapKey (toValue s)) s) = (((padvance (pemit (.mapKey (toValue s)) s)).1), true) from Prod.ext rfl ho1]
            simp only []
            obtain ⟨msg, hit⟩ := isToken_false (show ¬(((padvance (pemit (.mapKey (toValue s)) s)).1).hasToken = true ∧
              ((padvance (pemit (.mapKey (toValue s)) s)).1).current.typ = .pairSeparator) from fun hq => by
                rw [hcur3, hteof] at hq
                exact absurd hq.2 (by decide))
            rw [hit]
          rw [hfalse] at hok
          cases hok
      | cons c C2 =>
          obtain ⟨ho1, ho2, hS3, hcc⟩ := padvance_rel_cons hS2
          by_cases hps : ((padvance (pemit (.mapKey (toValue s)) s)).1).hasToken = true ∧ ((padvance (pemit (.mapKey (toValue s)) s)).1).current.typ = .pairSeparator
          · have hit1 : isToken .pairSeparator ((padvance (pemit (.mapKey (toValue s)) s)).1) = (((padvance (pemit (.mapKey (toValue s)) s)).1), true) :=
              isToken_true hps.1 hps.2
            have hit2 : isToken .pairSeparator ((padvance (pemit (.mapKey (toValue s)) s')).1) = (((padvance (pemit (.mapKey (toValue s)) s')).1), true) :=
              isToken_true (by rw [hS3.2.2.2.2.1, hps.1]) (by rw [hS3.2.2.2.1, hps.2])
            cases C2 with
            | nil =>
                exfalso
                obtain ⟨ho1b, ho2b, hE5⟩ := padvance_rel_nil hS3
                have hcur5 : ((padvance ((padvance (pemit (.mapKey (toValue s)) s)).1)).1).current = teof := hE5.2.2.2.1
                have hfalse : (parseDictPair s).2 = false := by
                  unfold parseDictPair
                  rw [hiv1]
                  simp only []
                  rw [show padvance (pemit (.mapKey (toValue s)) s) = (((padvance (pemit (.mapKey (toValue s)) s)).1), true) from Prod.ext rfl ho1]
                  simp only []
                  rw [hit1]
                  simp only []
                  rw [show padvance ((padvance (pemit (.mapKey (toValue s)) s)).1) = (((padvance ((padvance (pemit (.mapKey (toValue s)) s)).1)).1), true) from Prod.ext rfl ho1b]
                  simp only []
                  obtain ⟨msg, hivf⟩ := isValue_false (show isValueType ((padvance ((padvance (pemit (.mapKey (toValue s)) s)).1)).1).current.typ = false by
                    rw [hcur5, hteof]
                    decide)
                  rw [hivf]
                rw [hfalse] at hok
                cases hok
            | cons c2 C3 =>
                obtain ⟨ho1b, ho2b, hS5, hcc2⟩ := padvance_rel_cons hS3
                by_cases hv2 : isValueType ((padvance ((padvance (pemit (.mapKey (toValue s)) s)).1)).1).current.typ = true
                · have hiv5 : isValue ((padvance ((padvance (pemit (.mapKey (toValue s)) s)).1)).1) = (((padvance ((padvance (pemit (.mapKey (toValue s)) s)).1)).1), true) := isValue_true hv2
                  have hiv5p : isValue ((padvance ((padvance (pemit (.mapKey (toValue s)) s')).1)).1) = (((padvance ((padvance (pemit (.mapKey (toValue s)) s')).1)).1), true) :=
                    isValue_true (by rw [hS5.2.2.2.1]; exact hv2)
                  have htv5 : toValue ((padvance ((padvance (pemit (.mapKey (toValue s)) s')).1)).1) = toValue ((padvance ((padvance (pemit (.mapKey (toValue s)) s)).1)).1) :=
                    congrArg valueFromToken hS5.2.2.2.1
                  have hres1 : parseDictPair s = padvance (pemit (.value (toValue ((padvance ((padvance (pemit (.mapKey (toValue s)) s)).1)).1))) ((padvance ((padvance (pemit (.mapKey (toValue s)) s)).1)).1)) := by
                    unfold parseDictPair
                    rw [hiv1]
                    simp only []
                    rw [show padvance (pemit (.mapKey (toValue s)) s) = (((padvance (pemit (.mapKey (toValue s)) s)).1), true) from Prod.ext rfl ho1]
                    simp only []
                    rw [hit1]
                    simp only []
                    rw [show padvance ((padvance (pemit (.mapKey (toValue s)) s)).1) = (((padvance ((padvance (pemit (.mapKey (toValue s)) s)).1)).1), true) from Prod.ext rfl ho1b]
                    simp only []
                    rw [hiv5]
                  have hres2 : parseDictPair s' = padvance (pemit (.value (toValue ((padvance ((padvance (pemit (.mapKey (toValue s)) s)).1)).1))) ((padvance ((padvance (pemit (.mapKey (toValue s)) s')).1)).1)) := by
                    unfold parseDictPair
                    rw [hiv2]
                    simp only []
                    rw [htv0]
                    rw [show padvance (pemit (.mapKey (toValue s)) s') = (((padvance (pemit (.mapKey (toValue s)) s')).1), true) from Prod.ext rfl ho2]
                    simp only []
                    rw [hit2]
                    simp only []
                    rw [show padvance ((padvance (pemit (.mapKey (toValue s)) s')).1) = (((padvance ((padvance (pemit (.mapKey (toValue s)) s')).1)).1), true) from Prod.ext rfl ho2b]
                    simp only []
                    rw [hiv5p]
                    simp only []
                    rw [htv5]
                  have hS7 : RelS teof tsep teof2 C3 (pemit (.value (toValue ((padvance ((padvance (pemit (.mapKey (toValue s)) s)).1)).1))) ((padvance ((padvance (pemit (.mapKey (toValue s)) s)).1)).1)) (pemit (.value (toValue ((padvance ((padvance (pemit (.mapKey (toValue s)) s)).1)).1))) ((padvance ((padvance (pemit (.mapKey (toValue s)) s')).1)).1)) :=
                    relS_pemit _ hS5
                  cases C3 with
                  | nil =>
                      obtain ⟨ho1f, ho2f, hEf⟩ := padvance_rel_nil hS7
                      refine ⟨by rw [hres2]; exact ho2f, ?_⟩
                      rw [hres1, hres2]
                      exact Or.inr hEf
                  | cons c3 C4 =>
                      obtain ⟨ho1f, ho2f, hSf, -⟩ := padvance_rel_cons hS7
                      refine ⟨by rw [hres2]; exact ho2f, ?_⟩
                      rw [hres1, hres2]
                      exact Or.inl ⟨C4, hSf⟩
                · exfalso
                  have hv2f : isValueType ((padvance ((padvance (pemit (.mapKey (toValue s)) s)).1)).1).current.typ = false := by
                    cases hb : isValueType ((padvance ((padvance (pemit (.mapKey (toValue s)) s)).1)).1).current.typ
                    · rfl
                    · exact absurd hb hv2
                  have hfalse : (parseDictPair s).2 = false := by
                    unfold parseDictPair
                    rw [hiv1]
                    simp only []
                    rw [show padvance (pemit (.mapKey (toValue s)) s) = (((padvance (pemit (.mapKey (toValue s)) s)).1), true) from Prod.ext rfl ho1]
                    simp only []
                    rw [hit1]
                    simp only []
                    rw [show padvance ((padvance (pemit (.mapKey (toValue s)) s)).1) = (((padvance ((padvance (pemit (.mapKey (toValue s)) s)).1)).1), true) from Prod.ext rfl ho1b]
                    simp only []
                    obtain ⟨msg, hivf⟩ := isValue_false hv2f
                    rw [hivf]
                  rw [hfalse] at hok
                  cases hok
          · exfalso
            have hfalse : (parseDictPair s).2 = false := by
              unfold parseDictPair
              rw [hiv1]
              simp only []
              rw [show padvance (pemit (.mapKey (toValue s)) s) = (((padvance (pemit (.mapKey (toValue s)) s)).1), true) from Prod.ext rfl ho1]
              simp only []
              obtain ⟨msg, hit⟩ := isToken_false (show ¬(((padvance (pemit (.mapKey (toValue s)) s)).1).hasToken = true ∧
                ((padvance (pemit (.mapKey (toValue s)) s)).1).current.typ = .pairSeparator) from hps)
              rw [hit]
            rw [hfalse] at hok
            cases hok
    · exfalso
      have hvf : isValueType s.current.typ = false := by
        cases hb : isValueType s.current.typ
        · rfl
        · exact absurd hb hv
      have hfalse : (parseDictPair s).2 = false := by
        unfold parseDictPair
        obtain ⟨msg, hivf⟩ := isValue_false hvf
        rw [hivf]
      rw [hfalse] at hok
      cases hok
  · exfalso
    have hcur : s.current = teof := hE.2.2.2.1
    have hfalse : (parseDictPair s).2 = false := by
      unfold parseDictPair
      obtain ⟨msg, hivf⟩ := isValue_false (show isValueType s.current.typ = false by
        rw [hcur, hteof]
        decide)
      rw [hivf]
    rw [hfalse] at hok
    cases hok

theorem parseDictEntry_rel {teof tsep teof2 : Token} (hteof : teof.typ = .eof)
    (htsep : tsep.typ = .fieldSeparator) {s s' : PState}
    (h : PostRel teof tsep teof2 s s')
    (hok : (parseDictEntry s).2 = true) :
    (parseDictEntry s').2 = true ∧
    PostRel teof tsep teof2 (parseDictEntry s).1 (parseDictEntry s').1 := by
  have hcond : (s'.current.typ = .booleanPrefix) ↔ (s.current.typ = .booleanPrefix) := by
    rcases h with ⟨C, hS⟩ | hE
    · rw [hS.2.2.2.1]
    · constructor
      · intro hq
        rw [hE.2.2.2.2.1, htsep] at hq
        exact absurd hq (by decide)
      · intro hq
        rw [hE.2.2.2.1, hteof] at hq
        exact absurd hq (by decide)
  by_cases hb : s.current.typ = .booleanPrefix
  · have hok2 : (parseBooleanPrefix s).2 = true := by
      unfold parseDictEntry at hok
      rwa [if_pos hb] at hok
    have hr := parseBooleanPrefix_rel hteof h hok2
    unfold parseDictEntry
    rw [if_pos hb, if_pos (hcond.mpr hb)]
    exact hr
  · have hok2 : (parseDictPair s).2 = true := by
      unfold parseDictEntry at hok
      rwa [if_neg hb] at hok
    have hr := parseDictPair_rel hteof h hok2
    unfold parseDictEntry
    rw [if_neg hb, if_neg (fun hq => hb (hcond.mp hq))]
    exact hr

theorem parseDictLoop_rel {teof tsep teof2 : Token} (hteof : teof.typ = .eof)
    (htsep : tsep.typ = .fieldSeparator) :
    ∀ (fuel fuel' : Nat), fuel ≤ fuel' → ∀ {s s' : PState},
    PostRel teof tsep teof2 s s' →
    (parseDictLoop fuel s).2 = true →
    (parseDictLoop fuel' s').2 = true ∧
    PostRel teof tsep teof2 (parseDictLoop fuel s).1 (parseDictLoop fuel' s').1 := by
  intro fuel
  induction fuel with
  | zero =>
      intro fuel' hf s s' h hok
      rw [show parseDictLoop 0 s = (s, false) from rfl] at hok
      cases hok
  | succ fuel ih =>
      intro fuel' hf s s' h hok
      cases fuel' with
      | zero => omega
      | succ fuel2 =>
          have hf2 : fuel ≤ fuel2 := by omega
          by_cases hls : s.current.typ = .listSeparator
          · rcases h with ⟨C, hS⟩ | hE
            · cases C with
              | nil =>
                  exfalso
                  obtain ⟨ho1, ho2, hE1⟩ := padvance_rel_nil hS
                  have hef : (parseDictEntry (padvance s).1).2 = false := by
                    unfold parseDictEntry
                    rw [if_neg (show ¬((padvance s).1.current.typ = .booleanPrefix) from
                      fun hq => by
                        rw [hE1.2.2.2.1, hteof] at hq
                        exact absurd hq (by decide))]
                    unfold parseDictPair
                    obtain ⟨msg, hivf⟩ := isValue_false
                      (show isValueType (padvance s).1.current.typ = false by
                        rw [hE1.2.2.2.1, hteof]
                        decide)
                    rw [hivf]
                  have hfalse : (parseDictLoop (fuel + 1) s).2 = false := by
                    unfold parseDictLoop
                    rw [if_pos hls]
                    rw [show padvance s = ((padvance s).1, true) from Prod.ext rfl ho1]
                    simp only []
                    rw [show parseDictEntry (padvance s).1 =
                      ((parseDictEntry (padvance s).1).1, false) from Prod.ext rfl hef]
                  rw [hfalse] at hok
                  cases hok
              | cons c C2 =>
                  obtain ⟨ho1, ho2, hS1, hcc⟩ := padvance_rel_cons hS
                  cases he1 : parseDictEntry (padvance s).1 with
                  | mk e1 okE =>
                      cases okE with
                      | false =>
                          exfalso
                          have hfalse : (parseDictLoop (fuel + 1) s).2 = false := by
                            unfold parseDictLoop
                            rw [if_pos hls]
                            rw [show padvance s = ((padvance s).1, true) from Prod.ext rfl ho1]
                            simp only []
                            rw [he1]
                          rw [hfalse] at hok
                          cases hok
                      | true =>
                          obtain ⟨hokE2, hPR2⟩ := parseDictEntry_rel hteof htsep
                            (Or.inl ⟨C2, hS1⟩) (by rw [he1])
                          rw [he1] at hPR2
                          simp only [] at hPR2
                          have he2 : parseDictEntry (padvance s').1 =
                              ((parseDictEntry (padvance s').1).1, true) := Prod.ext rfl hokE2
                          have hok1r : (parseDictLoop fuel e1).2 = true := by
                            have hstep : parseDictLoop (fuel + 1) s = parseDictLoop fuel e1 := by
                              conv_lhs => unfold parseDictLoop
                              rw [if_pos hls]
                              rw [show padvance s = ((padvance s).1, true) from Prod.ext rfl ho1]
                              simp only []
                              rw [he1]
                            rwa [hstep] at hok
                          obtain ⟨hokr2, hPRr⟩ := ih fuel2 hf2 hPR2 hok1r
                          have hstep1 : parseDictLoop (fuel + 1) s = parseDictLoop fuel e1 := by
                            conv_lhs => unfold parseDictLoop
                            rw [if_pos hls]
                            rw [show padvance s = ((padvance s).1, true) from Prod.ext rfl ho1]
                            simp only []
                            rw [he1]
                          have hstep2 : parseDictLoop (fuel2 + 1) s' =
                              parseDictLoop fuel2 (parseDictEntry (padvance s').1).1 := by
                            conv_lhs => unfold parseDictLoop
                            rw [if_pos (by rw [hS.2.2.2.1]; exact hls)]
                            rw [show padvance s' = ((padvance s').1, true) from Prod.ext rfl ho2]
                            simp only []
                            rw [he2]
                          rw [hstep1, hstep2]
                          exact ⟨hokr2, hPRr⟩
            · exfalso
              rw [hE.2.2.2.1, hteof] at hls
              exact absurd hls (by decide)
          · have hres1 : parseDictLoop (fuel + 1) s = (pemit .mapEnd s, true) := by
              unfold parseDictLoop
              rw [if_neg hls]
            have hls2 : ¬(s'.current.typ = .listSeparator) := by
              rcases h with ⟨C, hS⟩ | hE
              · rw [hS.2.2.2.1]
                exact hls
              · rw [hE.2.2.2.2.1, htsep]
                decide
            have hres2 : parseDictLoop (fuel2 + 1) s' = (pemit .mapEnd s', true) := by
              unfold parseDictLoop
              rw [if_neg hls2]
            rw [hres1, hres2]
            refine ⟨rfl, ?_⟩
            rcases h with ⟨C, hS⟩ | hE
            · exact Or.inl ⟨C, relS_pemit _ hS⟩
            · exact Or.inr (relE_pemit _ hE)

theorem parseDictValue_rel {teof tsep teof2 : Token} (hteof : teof.typ = .eof)
    (htsep : tsep.typ = .fieldSeparator) {fuel fuel' : Nat} (hf : fuel ≤ fuel')
    {s s' : PState} (h : PostRel teof tsep teof2 s s')
    (hok : (parseDictValue fuel s).2 = true) :
    (parseDictValue fuel' s').2 = true ∧
    PostRel teof tsep teof2 (parseDictValue fuel s).1 (parseDictValue fuel' s').1 := by
  have hPR1 : PostRel teof tsep teof2 (pemit .mapStart s) (pemit .mapStart s') := by
    rcases h with ⟨C, hS⟩ | hE
    · exact Or.inl ⟨C, relS_pemit _ hS⟩
    · exact Or.inr (relE_pemit _ hE)
  cases he1 : parseDictEntry (pemit .mapStart s) with
  | mk e1 okE =>
      cases okE with
      | false =>
          exfalso
          have hfalse : (parseDictValue fuel s).2 = false := by
            unfold parseDictValue
            simp only []
            rw [he1]
          rw [hfalse] at hok
          cases hok
      | true =>
          obtain ⟨hokE2, hPR2⟩ := parseDictEntry_rel hteof htsep hPR1 (by rw [he1])
          rw [he1] at hPR2
          simp only [] at hPR2
          have he2 : parseDictEntry (pemit .mapStart s') =
              ((parseDictEntry (pemit .mapStart s')).1, true) := Prod.ext rfl hokE2
          have hstep1 : parseDictValue fuel s = parseDictLoop fuel e1 := by
            unfold parseDictValue
            simp only []
            rw [he1]
          have hstep2 : parseDictValue fuel' s' =
              parseDictLoop fuel' (parseDictEntry (pemit .mapStart s')).1 := by
            unfold parseDictValue
            simp only []
            rw [he2]
          have hok1r : (parseDictLoop fuel e1).2 = true := by
            rwa [hstep1] at hok
          obtain ⟨hokr2, hPRr⟩ := parseDictLoop_rel hteof htsep fuel fuel' hf hPR2 hok1r
          rw [hstep1, hstep2]
          exact ⟨hokr2, hPRr⟩

theorem parseListLoop_rel {teof tsep teof2 : Token} (hteof : teof.typ = .eof)
    (htsep : tsep.typ = .fieldSeparator) :
    ∀ (fuel fuel' : Nat), fuel ≤ fuel' → ∀ {s s' : PState},
    PostRel teof tsep teof2 s s' →
    (parseListLoop fuel s).2 = true →
    (parseListLoop fuel' s').2 = true ∧
    PostRel teof tsep teof2 (parseListLoop fuel s).1 (parseListLoop fuel' s').1 := by
  intro fuel
  induction fuel with
  | zero =>
      intro fuel' hf s s' h hok
      rw [show parseListLoop 0 s = (s, false) from rfl] at hok
      cases hok
  | succ fuel ih =>
      intro fuel' hf s s' h hok
      cases fuel' with
      | zero => omega
      | succ fuel2 =>
          have hf2 : fuel ≤ fuel2 := by omega
          by_cases hls : (s.hasToken = true ∧ s.current.typ = .listSeparator)
          · rcases h with ⟨C, hS⟩ | hE
            · cases C with
              | nil =>
                  exfalso
                  obtain ⟨ho1, ho2, hE1⟩ := padvance_rel_nil hS
                  obtain ⟨msg, hivf⟩ := isValue_false
                    (show isValueType (padvance s).1.current.typ = false by
                      rw [hE1.2.2.2.1, hteof]
                      decide)
                  have hfalse : (parseListLoop (fuel + 1) s).2 = false := by
                    unfold parseListLoop
                    rw [if_pos hls]
                    rw [show padvance s = ((padvance s).1, true) from Prod.ext rfl ho1]
                    simp only []
                    rw [hivf]
                  rw [hfalse] at hok
                  cases hok
              | cons c C2 =>
                  obtain ⟨ho1, ho2, hS1, hcc⟩ := padvance_rel_cons hS
                  by_cases hv : isValueType (padvance s).1.current.typ = true
                  · have hiv1 : isValue (padvance s).1 = ((padvance s).1, true) :=
                      isValue_true hv
                    have hiv2 : isValue (padvance s').1 = ((padvance s').1, true) :=
                      isValue_true (by rw [hS1.2.2.2.1]; exact hv)
                    have htv : toValue (padvance s').1 = toValue (padvance s).1 :=
                      congrArg valueFromToken hS1.2.2.2.1
                    have hS3 : RelS teof tsep teof2 C2 (pemit (.value (toValue (padvance s).1)) (padvance s).1) (pemit (.value (toValue (padvance s).1)) (padvance s').1) :=
                      relS_pemit _ hS1
                    have hPR4 : PostRel teof tsep teof2 (padvance (pemit (.value (toValue (padvance s).1)) (padvance s).1)).1 (padvance (pemit (.value (toValue (padvance s).1)) (padvance s').1)).1 ∧
                        (padvance (pemit (.value (toValue (padvance s).1)) (padvance s).1)).2 = true ∧ (padvance (pemit (.value (toValue (padvance s).1)) (padvance s').1)).2 = true := by
                      cases C2 with
                      | nil =>
                          obtain ⟨hoa, hob, hEr⟩ := padvance_rel_nil hS3
                          exact ⟨Or.inr hEr, hoa, hob⟩
                      | cons c2 C3 =>
                          obtain ⟨hoa, hob, hSr, -⟩ := padvance_rel_cons hS3
                          exact ⟨Or.inl ⟨C3, hSr⟩, hoa, hob⟩
                    have hstep1 : parseListLoop (fuel + 1) s =
                        parseListLoop fuel (padvance (pemit (.value (toValue (padvance s).1)) (padvance s).1)).1 := by
                      conv_lhs => unfold parseListLoop
                      rw [if_pos hls]
                      rw [show padvance s = ((padvance s).1, true) from Prod.ext rfl ho1]
                      simp only []
                      rw [hiv1]
                    have hstep2 : parseListLoop (fuel2 + 1) s' =
                        parseListLoop fuel2 (padvance (pemit (.value (toValue (padvance s).1)) (padvance s').1)).1 := by
                      conv_lhs => unfold parseListLoop
                      rw [if_pos (show s'.hasToken = true ∧ s'.current.typ = .listSeparator by
                        rw [hS.2.2.2.2.1, hS.2.2.2.1]
                        exact hls)]
                      rw [show padvance s' = ((padvance s').1, true) from Prod.ext rfl ho2]
                      simp only []
                      rw [hiv2]
                      simp only []
                      rw [htv]
                    have hok1r : (parseListLoop fuel (padvance (pemit (.value (toValue (padvance s).1)) (padvance s).1)).1).2 = true := by
                      rwa [hstep1] at hok
                    obtain ⟨hokr2, hPRr⟩ := ih fuel2 hf2 hPR4.1 hok1r
                    rw [hstep1, hstep2]
                    exact ⟨hokr2, hPRr⟩
                  · exfalso
                    have hvf : isValueType (padvance s).1.current.typ = false := by
                      cases hb : isValueType (padvance s).1.current.typ
                      · rfl
                      · exact absurd hb hv
                    obtain ⟨msg, hivf⟩ := isValue_false hvf
                    have hfalse : (parseListLoop (fuel + 1) s).2 = false := by
                      unfold parseListLoop
                      rw [if_pos hls]
                      rw [show padvance s = ((padvance s).1, true) from Prod.ext rfl ho1]
                      simp only []
                      rw [hivf]
                    rw [hfalse] at hok
                    cases hok
            · exfalso
              have := hls.2
              rw [hE.2.2.2.1, hteof] at this
              exact absurd this (by decide)
          · have hls2 : ¬(s'.hasToken = true ∧ s'.current.typ = .listSeparator) := by
              rcases h with ⟨C, hS⟩ | hE
              · rw [hS.2.2.2.2.1, hS.2.2.2.1]
                exact hls
              · intro hq
                rw [hE.2.2.2.2.1, htsep] at hq
                exact absurd hq.2 (by decide)
            have hres1 : parseListLoop (fuel + 1) s = (pemit .listEnd s, true) := by
              unfold parseListLoop
              rw [if_neg hls]
            have hres2 : parseListLoop (fuel2 + 1) s' = (pemit .listEnd s', true) := by
              unfold parseListLoop
              rw [if_neg hls2]
            rw [hres1, hres2]
            refine ⟨rfl, ?_⟩
            rcases h with ⟨C, hS⟩ | hE
            · exact Or.inl ⟨C, relS_pemit _ hS⟩
            · exact Or.inr (relE_pemit _ hE)

theorem parseListValue_rel {teof tsep teof2 : Token} (hteof : teof.typ = .eof)
    (htsep : tsep.typ = .fieldSeparator) {fuel fuel' : Nat} (hf : fuel ≤ fuel')
    {C : List Token} {s s' : PState} (hS : RelS teof tsep teof2 C s s')
    (hok : (parseListValue fuel s).2 = true) :
    (parseListValue fuel' s').2 = true ∧
    PostRel teof tsep teof2 (parseListValue fuel s).1 (parseListValue fuel' s').1 := by
  have htv : toValue (pemit .listStart s') = toValue (pemit .listStart s) :=
    congrArg valueFromToken (by rw [pemit_current, pemit_current, hS.2.2.2.1])
  have hS2 : RelS teof tsep teof2 C
      (pemit (.value (toValue (pemit .listStart s))) (pemit .listStart s))
      (pemit (.value (toValue (pemit .listStart s))) (pemit .listStart s')) :=
    relS_pemit _ (relS_pemit _ hS)
  have hPR3 : PostRel teof tsep teof2
      (padvance (pemit (.value (toValue (pemit .listStart s))) (pemit .listStart s))).1
      (padvance (pemit (.value (toValue (pemit .listStart s))) (pemit .listStart s'))).1 := by
    cases C with
    | nil =>
        obtain ⟨hoa, hob, hEr⟩ := padvance_rel_nil hS2
        exact Or.inr hEr
    | cons c C2 =>
        obtain ⟨hoa, hob, hSr, -⟩ := padvance_rel_cons hS2
        exact Or.inl ⟨C2, hSr⟩
  have hstep1 : parseListValue fuel s = parseListLoop fuel
      (padvance (pemit (.value (toValue (pemit .listStart s))) (pemit .listStart s))).1 := by
    unfold parseListValue
    simp only []
  have hstep2 : parseListValue fuel' s' = parseListLoop fuel'
      (padvance (pemit (.value (toValue (pemit .listStart s))) (pemit .listStart s'))).1 := by
    unfold parseListValue
    simp only []
    rw [htv]
  have hok1r := hok
  rw [hstep1] at hok1r
  obtain ⟨hokr2, hPRr⟩ := parseListLoop_rel hteof htsep fuel fuel' hf hPR3 hok1r
  rw [hstep1, hstep2]
  exact ⟨hokr2, hPRr⟩

theorem parseValueContent_rel {teof tsep teof2 : Token} (hteof : teof.typ = .eof)
    (htsep : tsep.typ = .fieldSeparator) {fuel fuel' : Nat} (hf : fuel ≤ fuel')
    {s s' : PState} (h : PostRel teof tsep teof2 s s')
    (hok : (parseValueContent fuel s).2 = true) :
    (parseValueContent fuel' s').2 = true ∧
    PostRel teof tsep teof2 (parseValueContent fuel s).1 (parseValueContent fuel' s').1 := by
  rcases h with ⟨C, hS⟩ | hE
  · have hcu0 : s'.current = s.current := hS.2.2.2.1
    by_cases hbp : s.current.typ = .booleanPrefix
    · have hok1 : (parseDictValue fuel s).2 = true := by
        unfold parseValueContent at hok
        rwa [if_pos hbp] at hok
      obtain ⟨hok2, hPR⟩ := parseDictValue_rel hteof htsep hf (Or.inl ⟨C, hS⟩) hok1
      have hres1 : parseValueContent fuel s = parseDictValue fuel s := by
        unfold parseValueContent
        rw [if_pos hbp]
      have hres2 : parseValueContent fuel' s' = parseDictValue fuel' s' := by
        unfold parseValueContent
        rw [if_pos (by rw [hcu0]; exact hbp)]
      rw [hres1, hres2]
      exact ⟨hok2, hPR⟩
    · by_cases hv : isValueType s.current.typ = true
      · have hiv1 : isValue s = (s, true) := isValue_true hv
        have hiv2 : isValue s' = (s', true) := isValue_true (by rw [hcu0]; exact hv)
        obtain ⟨hbP, hSn1⟩ := isNext_rel [.pairSeparator] hS
          (by rw [hteof, htsep]; decide)
        cases hb1 : (isNext [.pairSeparator] s).1 with
        | true =>
            have hok1 : (parseDictValue fuel ((isNext [.pairSeparator] s).2)).2 = true := by
              unfold parseValueContent at hok
              rw [if_neg hbp, hiv1] at hok
              simp only [] at hok
              rw [show isNext [.pairSeparator] s = (true, ((isNext [.pairSeparator] s).2)) from
                Prod.ext hb1 rfl] at hok
              exact hok
            obtain ⟨hok2, hPR⟩ := parseDictValue_rel hteof htsep hf
              (Or.inl ⟨C, hSn1⟩) hok1
            have hres1 : parseValueContent fuel s = parseDictValue fuel ((isNext [.pairSeparator] s).2) := by
              unfold parseValueContent
              rw [if_neg hbp, hiv1]
              simp only []
              rw [show isNext [.pairSeparator] s = (true, ((isNext [.pairSeparator] s).2)) from Prod.ext hb1 rfl]
            have hres2 : parseValueContent fuel' s' = parseDictValue fuel' ((isNext [.pairSeparator] s').2) := by
              unfold parseValueContent
              rw [if_neg (by rw [hcu0]; exact hbp), hiv2]
              simp only []
              rw [show isNext [.pairSeparator] s' = (true, ((isNext [.pairSeparator] s').2)) from
                Prod.ext (by rw [hbP, hb1]) rfl]
            rw [hres1, hres2]
            exact ⟨hok2, hPR⟩
        | false =>
            obtain ⟨hbL, hSn2⟩ := isNext_rel [.listSeparator] hSn1
              (by rw [hteof, htsep]; decide)
            cases hb2 : (isNext [.listSeparator] ((isNext [.pairSeparator] s).2)).1 with
            | true =>
                have hok1 : (parseListValue fuel ((isNext [.listSeparator] ((isNext [.pairSeparator] s).2)).2)).2 = true := by
                  unfold parseValueContent at hok
                  rw [if_neg hbp, hiv1] at hok
                  simp only [] at hok
                  rw [show isNext [.pairSeparator] s = (false, ((isNext [.pairSeparator] s).2)) from
                    Prod.ext hb1 rfl] at hok
                  simp only [] at hok
                  rw [show isNext [.listSeparator] ((isNext [.pairSeparator] s).2) = (true, ((isNext [.listSeparator] ((isNext [.pairSeparator] s).2)).2)) from
                    Prod.ext hb2 rfl] at hok
                  exact hok
                obtain ⟨hok2, hPR⟩ := parseListValue_rel hteof htsep hf hSn2 hok1
                have hres1 : parseValueContent fuel s = parseListValue fuel ((isNext [.listSeparator] ((isNext [.pairSeparator] s).2)).2) := by
                  unfold parseValueContent
                  rw [if_neg hbp, hiv1]
                  simp only []
                  rw [show isNext [.pairSeparator] s = (false, ((isNext [.pairSeparator] s).2)) from Prod.ext hb1 rfl]
                  simp only []
                  rw [show isNext [.listSeparator] ((isNext [.pairSeparator] s).2) = (true, ((isNext [.listSeparator] ((isNext [.pairSeparator] s).2)).2)) from Prod.ext hb2 rfl]
                have hres2 : parseValueContent fuel' s' = parseListValue fuel' ((isNext [.listSeparator] ((isNext [.pairSeparator] s').2)).2) := by
                  unfold parseValueContent
                  rw [if_neg (by rw [hcu0]; exact hbp), hiv2]
                  simp only []
                  rw [show isNext [.pairSeparator] s' = (false, ((isNext [.pairSeparator] s').2)) from
                    Prod.ext (by rw [hbP, hb1]) rfl]
                  simp only []
                  rw [show isNext [.listSeparator] ((isNext [.pairSeparator] s').2) = (true, ((isNext [.listSeparator] ((isNext [.pairSeparator] s').2)).2)) from
                    Prod.ext (by rw [hbL, hb2]) rfl]
                rw [hres1, hres2]
                exact ⟨hok2, hPR⟩
            | false =>
                have htv : toValue ((isNext [.listSeparator] ((isNext [.pairSeparator] s').2)).2) = toValue ((isNext [.listSeparator] ((isNext [.pairSeparator] s).2)).2) :=
                  congrArg valueFromToken hSn2.2.2.2.1
                have hS4 : RelS teof tsep teof2 C (pemit (.value (toValue ((isNext [.listSeparator] ((isNext [.pairSeparator] s).2)).2))) ((isNext [.listSeparator] ((isNext [.pairSeparator] s).2)).2)) (pemit (.value (toValue ((isNext [.listSeparator] ((isNext [.pairSeparator] s).2)).2))) ((isNext [.listSeparator] ((isNext [.pairSeparator] s').2)).2)) :=
                  relS_pemit _ hSn2
                have hPR5 : PostRel teof tsep teof2 (padvance (pemit (.value (toValue ((isNext [.listSeparator] ((isNext [.pairSeparator] s).2)).2))) ((isNext [.listSeparator] ((isNext [.pairSeparator] s).2)).2))).1 (padvance (pemit (.value (toValue ((isNext [.listSeparator] ((isNext [.pairSeparator] s).2)).2))) ((isNext [.listSeparator] ((isNext [.pairSeparator] s').2)).2))).1 := by
                  cases C with
                  | nil =>
                      obtain ⟨hoa, hob, hEr⟩ := padvance_rel_nil hS4
                      exact Or.inr hEr
                  | cons c C2 =>
                      obtain ⟨hoa, hob, hSr, -⟩ := padvance_rel_cons hS4
                      exact Or.inl ⟨C2, hSr⟩
                have hres1 : parseValueContent fuel s = ((padvance (pemit (.value (toValue ((isNext [.listSeparator] ((isNext [.pairSeparator] s).2)).2))) ((isNext [.listSeparator] ((isNext [.pairSeparator] s).2)).2))).1, true) := by
                  unfold parseValueContent
                  rw [if_neg hbp, hiv1]
                  simp only []
                  rw [show isNext [.pairSeparator] s = (false, ((isNext [.pairSeparator] s).2)) from Prod.ext hb1 rfl]
                  simp only []
                  rw [show isNext [.listSeparator] ((isNext [.pairSeparator] s).2) = (false, ((isNext [.listSeparator] ((isNext [.pairSeparator] s).2)).2)) from Prod.ext hb2 rfl]
                have hres2 : parseValueContent fuel' s' = ((padvance (pemit (.value (toValue ((isNext [.listSeparator] ((isNext [.pairSeparator] s).2)).2))) ((isNext [.listSeparator] ((isNext [.pairSeparator] s').2)).2))).1, true) := by
                  unfold parseValueContent
                  rw [if_neg (by rw [hcu0]; exact hbp), hiv2]
                  simp only []
                  rw [show isNext [.pairSeparator] s' = (false, ((isNext [.pairSeparator] s').2)) from
                    Prod.ext (by rw [hbP, hb1]) rfl]
                  simp only []
                  rw [show isNext [.listSeparator] ((isNext [.pairSeparator] s').2) = (false, ((isNext [.listSeparator] ((isNext [.pairSeparator] s').2)).2)) from
                    Prod.ext (by rw [hbL, hb2]) rfl]
                  simp only []
                  rw [htv]
                rw [hres1, hres2]
                exact ⟨rfl, hPR5⟩
      · exfalso
        have hvf : isValueType s.current.typ = false := by
          cases hb : isValueType s.current.typ
          · rfl
          · exact absurd hb hv
        obtain ⟨msg, hivf⟩ := isValue_false hvf
        have hfalse : (parseValueContent fuel s).2 = false := by
          unfold parseValueContent
          rw [if_neg hbp, hivf]
        rw [hfalse] at hok
        cases hok
  · exfalso
    have hcur : s.current = teof := hE.2.2.2.1
    have hbp : ¬(s.current.typ = .booleanPrefix) := by
      rw [hcur, hteof]
      decide
    obtain ⟨msg, hivf⟩ := isValue_false (show isValueType s.current.typ = false by
      rw [hcur, hteof]
      decide)
    have hfalse : (parseValueContent fuel s).2 = false := by
      unfold parseValueContent
      rw [if_neg hbp, hivf]
    rw [hfalse] at hok
    cases hok

theorem parseAssignment_rel {teof tsep teof2 : Token} (hteof : teof.typ = .eof)
    (htsep : tsep.typ = .fieldSeparator) {fuel fuel' : Nat} (hf : fuel ≤ fuel')
    {s s' : PState} (h : PostRel teof tsep teof2 s s')
    (hok : (parseAssignment fuel s).2 = true) :
    (parseAssignment fuel' s').2 = true ∧
    PostRel teof tsep teof2 (parseAssignment fuel s).1 (parseAssignment fuel' s').1 := by
  rcases h with ⟨C, hS⟩ | hE
  · have hcu0 : s'.current = s.current := hS.2.2.2.1
    have htv0 : toValue s' = toValue s := congrArg valueFromToken hcu0
    have hS1 : RelS teof tsep teof2 C (pemit (.mapKey (toValue s)) s) (pemit (.mapKey (toValue s)) s') := relS_pemit _ hS
    cases C with
    | nil =>
        exfalso
        obtain ⟨ho1, ho2, hE2⟩ := padvance_rel_nil hS1
        have hsup2 : supply ((padvance (pemit (.mapKey (toValue s)) s)).1) = [] := hE2.2.2.2.2.2.2.2.1
        obtain ⟨hb3, hsupn, hen, hcn, hhn, hstn, haon⟩ :=
          isNext_spec [.fieldSeparator, .eof] ((padvance (pemit (.mapKey (toValue s)) s)).1)
        have hb3f : (isNext [.fieldSeparator, .eof] ((padvance (pemit (.mapKey (toValue s)) s)).1)).1 = false := by
          rw [hb3, hsup2]
          rfl
        have hsupn2 : supply ((isNext [.fieldSeparator, .eof] ((padvance (pemit (.mapKey (toValue s)) s)).1)).2) = [] := by
          rw [hsupn, hsup2]
        obtain ⟨hoA, hcA, hsA, heA, hstA, haoA, hhA⟩ := padvance_nil hsupn2
        have hfalse : (parseAssignment fuel s).2 = false := by
          unfold parseAssignment
          simp only []
          rw [show isNext [.fieldSeparator, .eof] ((padvance (pemit (.mapKey (toValue s)) s)).1) = (false, ((isNext [.fieldSeparator, .eof] ((padvance (pemit (.mapKey (toValue s)) s)).1)).2)) from
            Prod.ext hb3f rfl]
          simp only []
          rw [show padvance ((isNext [.fieldSeparator, .eof] ((padvance (pemit (.mapKey (toValue s)) s)).1)).2) = ((padvance ((isNext [.fieldSeparator, .eof] ((padvance (pemit (.mapKey (toValue s)) s)).1)).2)).1, false) from Prod.ext rfl hoA]
        rw [hfalse] at hok
        cases hok
    | cons c C2 =>
        obtain ⟨ho1, ho2, hS2rel, hcc⟩ := padvance_rel_cons hS1
        obtain ⟨hbN, hSn⟩ := isNext_rel [.fieldSeparator, .eof] hS2rel
          (by rw [hteof, htsep]; decide)
        cases hb1 : (isNext [.fieldSeparator, .eof] ((padvance (pemit (.mapKey (toValue s)) s)).1)).1 with
        | true =>
            have hPR4 : PostRel teof tsep teof2 (padvance ((isNext [.fieldSeparator, .eof] ((padvance (pemit (.mapKey (toValue s)) s)).1)).2)).1 (padvance ((isNext [.fieldSeparator, .eof] ((padvance (pemit (.mapKey (toValue s)) s')).1)).2)).1 := by
              cases C2 with
              | nil =>
                  obtain ⟨hoa, hob, hEr⟩ := padvance_rel_nil hSn
                  exact Or.inr hEr
              | cons c2 C3 =>
                  obtain ⟨hoa, hob, hSr, -⟩ := padvance_rel_cons hSn
                  exact Or.inl ⟨C3, hSr⟩
            have hres1 : parseAssignment fuel s =
                (pemit (.value (some .zeroValue)) (padvance ((isNext [.fieldSeparator, .eof] ((padvance (pemit (.mapKey (toValue s)) s)).1)).2)).1, true) := by
              unfold parseAssignment
              simp only []
              rw [show padvance (pemit (.mapKey (toValue s)) s) = (((padvance (pemit (.mapKey (toValue s)) s)).1), true) from Prod.ext rfl ho1]
              simp only []
              rw [show isNext [.fieldSeparator, .eof] ((padvance (pemit (.mapKey (toValue s)) s)).1) = (true, ((isNext [.fieldSeparator, .eof] ((padvance (pemit (.mapKey (toValue s)) s)).1)).2)) from
                Prod.ext hb1 rfl]
            have hres2 : parseAssignment fuel' s' =
                (pemit (.value (some .zeroValue)) (padvance ((isNext [.fieldSeparator, .eof] ((padvance (pemit (.mapKey (toValue s)) s')).1)).2)).1, true) := by
              unfold parseAssignment
              simp only []
              rw [htv0]
              rw [show padvance (pemit (.mapKey (toValue s)) s') = (((padvance (pemit (.mapKey (toValue s)) s')).1), true) from Prod.ext rfl ho2]
              simp only []
              rw [show isNext [.fieldSeparator, .eof] ((padvance (pemit (.mapKey (toValue s)) s')).1) = (true, ((isNext [.fieldSeparator, .eof] ((padvance (pemit (.mapKey (toValue s)) s')).1)).2)) from
                Prod.ext (by rw [hbN, hb1]) rfl]
            rw [hres1, hres2]
            refine ⟨rfl, ?_⟩
            rcases hPR4 with ⟨C4, hSr⟩ | hEr
            · exact Or.inl ⟨C4, relS_pemit _ hSr⟩
            · exact Or.inr (relE_pemit _ hEr)
        | false =>
            cases C2 with
            | nil =>
                obtain ⟨hoa, hob, hEr⟩ := padvance_rel_nil hSn
                have hok1 : (parseValueContent fuel (padvance ((isNext [.fieldSeparator, .eof] ((padvance (pemit (.mapKey (toValue s)) s)).1)).2)).1).2 = true := by
                  unfold parseAssignment at hok
                  simp only [] at hok
                  rw [show padvance (pemit (.mapKey (toValue s)) s) = (((padvance (pemit (.mapKey (toValue s)) s)).1), true) from Prod.ext rfl ho1] at hok
                  simp only [] at hok
                  rw [show isNext [.fieldSeparator, .eof] ((padvance (pemit (.mapKey (toValue s)) s)).1) = (false, ((isNext [.fieldSeparator, .eof] ((padvance (pemit (.mapKey (toValue s)) s)).1)).2)) from
                    Prod.ext hb1 rfl] at hok
                  simp only [] at hok
                  rw [show padvance ((isNext [.fieldSeparator, .eof] ((padvance (pemit (.mapKey (toValue s)) s)).1)).2) = ((padvance ((isNext [.fieldSeparator, .eof] ((padvance (pemit (.mapKey (toValue s)) s)).1)).2)).1, true) from
                    Prod.ext rfl hoa] at hok
                  exact hok
                obtain ⟨hok2, hPR⟩ := parseValueContent_rel hteof htsep hf
                  (Or.inr hEr) hok1
                have hres1 : parseAssignment fuel s =
                    parseValueContent fuel (padvance ((isNext [.fieldSeparator, .eof] ((padvance (pemit (.mapKey (toValue s)) s)).1)).2)).1 := by
                  unfold parseAssignment
                  simp only []
                  rw [show padvance (pemit (.mapKey (toValue s)) s) = (((padvance (pemit (.mapKey (toValue s)) s)).1), true) from Prod.ext rfl ho1]
                  simp only []
                  rw [show isNext [.fieldSeparator, .eof] ((padvance (pemit (.mapKey (toValue s)) s)).1) = (false, ((isNext [.fieldSeparator, .eof] ((padvance (pemit (.mapKey (toValue s)) s)).1)).2)) from
                    Prod.ext hb1 rfl]
                  simp only []
                  rw [show padvance ((isNext [.fieldSeparator, .eof] ((padvance (pemit (.mapKey (toValue s)) s)).1)).2) = ((padvance ((isNext [.fieldSeparator, .eof] ((padvance (pemit (.mapKey (toValue s)) s)).1)).2)).1, true) from Prod.ext rfl hoa]
                have hres2 : parseAssignment fuel' s' =
                    parseValueContent fuel' (padvance ((isNext [.fieldSeparator, .eof] ((padvance (pemit (.mapKey (toValue s)) s')).1)).2)).1 := by
                  unfold parseAssignment
                  simp only []
                  rw [htv0]
                  rw [show padvance (pemit (.mapKey (toValue s)) s') = (((padvance (pemit (.mapKey (toValue s)) s')).1), true) from Prod.ext rfl ho2]
                  simp only []
                  rw [show isNext [.fieldSeparator, .eof] ((padvance (pemit (.mapKey (toValue s)) s')).1) = (false, ((isNext [.fieldSeparator, .eof] ((padvance (pemit (.mapKey (toValue s)) s')).1)).2)) from
                    Prod.ext (by rw [hbN, hb1]) rfl]
                  simp only []
                  rw [show padvance ((isNext [.fieldSeparator, .eof] ((padvance (pemit (.mapKey (toValue s)) s')).1)).2) = ((padvance ((isNext [.fieldSeparator, .eof] ((padvance (pemit (.mapKey (toValue s)) s')).1)).2)).1, true) from
                    Prod.ext rfl hob]
                rw [hres1, hres2]
                exact ⟨hok2, hPR⟩
            | cons c2 C3 =>
                obtain ⟨hoa, hob, hSr, -⟩ := padvance_rel_cons hSn
                have hok1 : (parseValueContent fuel (padvance ((isNext [.fieldSeparator, .eof] ((padvance (pemit (.mapKey (toValue s)) s)).1)).2)).1).2 = true := by
                  unfold parseAssignment at hok
                  simp only [] at hok
                  rw [show padvance (pemit (.mapKey (toValue s)) s) = (((padvance (pemit (.mapKey (toValue s)) s)).1), true) from Prod.ext rfl ho1] at hok
                  simp only [] at hok
                  rw [show isNext [.fieldSeparator, .eof] ((padvance (pemit (.mapKey (toValue s)) s)).1) = (false, ((isNext [.fieldSeparator, .eof] ((padvance (pemit (.mapKey (toValue s)) s)).1)).2)) from
                    Prod.ext hb1 rfl] at hok
                  simp only [] at hok
                  rw [show padvance ((isNext [.fieldSeparator, .eof] ((padvance (pemit (.mapKey (toValue s)) s)).1)).2) = ((padvance ((isNext [.fieldSeparator, .eof] ((padvance (pemit (.mapKey (toValue s)) s)).1)).2)).1, true) from
                    Prod.ext rfl hoa] at hok
                  exact hok
                obtain ⟨hok2, hPR⟩ := parseValueContent_rel hteof htsep hf
                  (Or.inl ⟨C3, hSr⟩) hok1
                have hres1 : parseAssignment fuel s =
                    parseValueContent fuel (padvance ((isNext [.fieldSeparator, .eof] ((padvance (pemit (.mapKey (toValue s)) s)).1)).2)).1 := by
                  unfold parseAssignment
                  simp only []
                  rw [show padvance (pemit (.mapKey (toValue s)) s) = (((padvance (pemit (.mapKey (toValue s)) s)).1), true) from Prod.ext rfl ho1]
                  simp only []
                  rw [show isNext [.fieldSeparator, .eof] ((padvance (pemit (.mapKey (toValue s)) s)).1) = (false, ((isNext [.fieldSeparator, .eof] ((padvance (pemit (.mapKey (toValue s)) s)).1)).2)) from
                    Prod.ext hb1 rfl]
                  simp only []
                  rw [show padvance ((isNext [.fieldSeparator, .eof] ((padvance (pemit (.mapKey (toValue s)) s)).1)).2) = ((padvance ((isNext [.fieldSeparator, .eof] ((padvance (pemit (.mapKey (toValue s)) s)).1)).2)).1, true) from Prod.ext rfl hoa]
                have hres2 : parseAssignment fuel' s' =
                    parseValueContent fuel' (padvance ((isNext [.fieldSeparator, .eof] ((padvance (pemit (.mapKey (toValue s)) s')).1)).2)).1 := by
                  unfold parseAssignment
                  simp only []
                  rw [htv0]
                  rw [show padvance (pemit (.mapKey (toValue s)) s') = (((padvance (pemit (.mapKey (toValue s)) s')).1), true) from Prod.ext rfl ho2]
                  simp only []
                  rw [show isNext [.fieldSeparator, .eof] ((padvance (pemit (.mapKey (toValue s)) s')).1) = (false, ((isNext [.fieldSeparator, .eof] ((padvance (pemit (.mapKey (toValue s)) s')).1)).2)) from
                    Prod.ext (by rw [hbN, hb1]) rfl]
                  simp only []
                  rw [show padvance ((isNext [.fieldSeparator, .eof] ((padvance (pemit (.mapKey (toValue s)) s')).1)).2) = ((padvance ((isNext [.fieldSeparator, .eof] ((padvance (pemit (.mapKey (toValue s)) s')).1)).2)).1, true) from
                    Prod.ext rfl hob]
                rw [hres1, hres2]
                exact ⟨hok2, hPR⟩
  · exfalso
    have hsup : supply s = [] := hE.2.2.2.2.2.2.2.1
    have hsup1 : supply (pemit (.mapKey (toValue s)) s) = [] := by
      rw [supply_pemit, hsup]
    obtain ⟨ho1, hc1, hs1, he1, hst1, hao1, hht1⟩ := padvance_nil hsup1
    have hsup2 : supply ((padvance (pemit (.mapKey (toValue s)) s)).1) = [] := hs1
    obtain ⟨hb3, hsupn, hen, hcn, hhn, hstn, haon⟩ :=
      isNext_spec [.fieldSeparator, .eof] ((padvance (pemit (.mapKey (toValue s)) s)).1)
    have hb3f : (isNext [.fieldSeparator, .eof] ((padvance (pemit (.mapKey (toValue s)) s)).1)).1 = false := by
      rw [hb3, hsup2]
      rfl
    have hsupn2 : supply ((isNext [.fieldSeparator, .eof] ((padvance (pemit (.mapKey (toValue s)) s)).1)).2) = [] := by
      rw [hsupn, hsup2]
    obtain ⟨hoA, hcA, hsA, heA, hstA, haoA, hhA⟩ := padvance_nil hsupn2
    have hfalse : (parseAssignment fuel s).2 = false := by
      unfold parseAssignment
      simp only []
      rw [show isNext [.fieldSeparator, .eof] ((padvance (pemit (.mapKey (toValue s)) s)).1) = (false, ((isNext [.fieldSeparator, .eof] ((padvance (pemit (.mapKey (toValue s)) s)).1)).2)) from
        Prod.ext hb3f rfl]
      simp only []
      rw [show padvance ((isNext [.fieldSeparator, .eof] ((padvance (pemit (.mapKey (toValue s)) s)).1)).2) = ((padvance ((isNext [.fieldSeparator, .eof] ((padvance (pemit (.mapKey (toValue s)) s)).1)).2)).1, false) from Prod.ext rfl hoA]
    rw [hfalse] at hok
    cases hok

theorem parseFieldOrdered_rel {teof tsep teof2 : Token} (hteof : teof.typ = .eof)
    (htsep : tsep.typ = .fieldSeparator) {fuel fuel' : Nat} (hf : fuel ≤ fuel')
    {s s' : PState} (h : PostRel teof tsep teof2 s s')
    (hok : (parseFieldOrdered fuel s).2 = true) :
    (parseFieldOrdered fuel' s').2 = true ∧
    PostRel teof tsep teof2 (parseFieldOrdered fuel s).1 (parseFieldOrdered fuel' s').1 := by
  have hao0 : s'.allowOrdered = s.allowOrdered := by
    rcases h with ⟨C, hS⟩ | hE
    · exact hS.2.2.1
    · exact hE.2.2.1
  have hst0 : s'.state = s.state := by
    rcases h with ⟨C, hS⟩ | hE
    · exact hS.2.1
    · exact hE.2.1
  by_cases hord : ((!s.allowOrdered) = true ∨ s.state.toNat > ParserState.ordered.toNat)
  · exfalso
    have hfalse : (parseFieldOrdered fuel s).2 = false := by
      unfold parseFieldOrdered
      rw [if_pos (by
        simp only [Bool.or_eq_true, decide_eq_true_eq]
        rcases hord with hq | hq
        · exact Or.inl hq
        · exact Or.inr hq)]
    rw [hfalse] at hok
    cases hok
  · have hord2 : ¬(((!s'.allowOrdered) = true ∨ s'.state.toNat > ParserState.ordered.toNat)) := by
      rw [hao0, hst0]
      exact hord
    have hcond1 : ¬((!s.allowOrdered || decide (s.state.toNat > ParserState.ordered.toNat)) = true) := by
      simp only [Bool.or_eq_true, decide_eq_true_eq]
      exact hord
    have hcond2 : ¬((!s'.allowOrdered || decide (s'.state.toNat > ParserState.ordered.toNat)) = true) := by
      simp only [Bool.or_eq_true, decide_eq_true_eq]
      exact hord2
    rcases h with ⟨C, hS⟩ | hE
    · have hS1 : RelS teof tsep teof2 C (updateState .ordered s) (updateState .ordered s') :=
        relS_updateState _ hS
      by_cases hfs : (updateState .ordered s).current.typ = .fieldSeparator
      · have hres1 : parseFieldOrdered fuel s =
            (pemit (.value (some .zeroValue)) (updateState .ordered s), true) := by
          unfold parseFieldOrdered
          rw [if_neg hcond1]
          rw [if_pos hfs]
        have hres2 : parseFieldOrdered fuel' s' =
            (pemit (.value (some .zeroValue)) (updateState .ordered s'), true) := by
          unfold parseFieldOrdered
          rw [if_neg hcond2]
          rw [if_pos (by rw [updateState_current, hS.2.2.2.1, ← updateState_current .ordered s]; exact hfs)]
        rw [hres1, hres2]
        exact ⟨rfl, Or.inl ⟨C, relS_pemit _ hS1⟩⟩
      · have hok1 : (parseValueContent fuel (updateState .ordered s)).2 = true := by
          unfold parseFieldOrdered at hok
          rw [if_neg hcond1, if_neg hfs] at hok
          exact hok
        obtain ⟨hok2, hPR⟩ := parseValueContent_rel hteof htsep hf (Or.inl ⟨C, hS1⟩) hok1
        have hres1 : parseFieldOrdered fuel s = parseValueContent fuel (updateState .ordered s) := by
          unfold parseFieldOrdered
          rw [if_neg hcond1, if_neg hfs]
        have hres2 : parseFieldOrdered fuel' s' = parseValueContent fuel' (updateState .ordered s') := by
          unfold parseFieldOrdered
          rw [if_neg hcond2]
          rw [if_neg (by rw [updateState_current, hS.2.2.2.1, ← updateState_current .ordered s]; exact hfs)]
        rw [hres1, hres2]
        exact ⟨hok2, hPR⟩
    · exfalso
      have hE1 : RelE teof tsep teof2 (updateState .ordered s) (updateState .ordered s') :=
        relE_updateState _ hE
      have hfs1 : ¬((updateState .ordered s).current.typ = .fieldSeparator) := by
        rw [updateState_current, hE.2.2.2.1, hteof]
        decide
      obtain ⟨msg, hivf⟩ := isValue_false
        (show isValueType (updateState .ordered s).current.typ = false by
          rw [updateState_current, hE.2.2.2.1, hteof]
          decide)
      have hbp1 : ¬((updateState .ordered s).current.typ = .booleanPrefix) := by
        rw [updateState_current, hE.2.2.2.1, hteof]
        decide
      have hfalse : (parseFieldOrdered fuel s).2 = false := by
        unfold parseFieldOrdered
        rw [if_neg hcond1, if_neg hfs1]
        unfold parseValueContent
        rw [if_neg hbp1, hivf]
      rw [hfalse] at hok
      cases hok

theorem parseField_rel {teof tsep teof2 : Token} (hteof : teof.typ = .eof)
    (htsep : tsep.typ = .fieldSeparator) {fuel fuel' : Nat} (hf : fuel ≤ fuel')
    {s s' : PState} (h : PostRel teof tsep teof2 s s')
    (hok : (parseField fuel s).2 = true) :
    (parseField fuel' s').2 = true ∧
    PostRel teof tsep teof2 (parseField fuel s).1 (parseField fuel' s').1 := by
  rcases h with ⟨C, hS⟩ | hE
  · have hcu0 : s'.current = s.current := hS.2.2.2.1
    cases ht : s.current.typ with
    | booleanPrefix =>
        have hok1 : (parseBooleanPrefix (updateState .labeled s)).2 = true := by
          unfold parseField at hok
          rw [ht] at hok
          exact hok
        obtain ⟨hok2, hPR⟩ := parseBooleanPrefix_rel hteof
          (Or.inl ⟨C, relS_updateState .labeled hS⟩) hok1
        have hres1 : parseField fuel s = parseBooleanPrefix (updateState .labeled s) := by
          unfold parseField
          rw [ht]
        have hres2 : parseField fuel' s' = parseBooleanPrefix (updateState .labeled s') := by
          unfold parseField
          rw [hcu0, ht]
        rw [hres1, hres2]
        exact ⟨hok2, hPR⟩
    | identifier =>
        obtain ⟨hbN, hSn⟩ := isNext_rel [.assign] hS (by rw [hteof, htsep]; decide)
        cases hb1 : (isNext [.assign] s).1 with
        | true =>
            have hok1 : (parseAssignment fuel (updateState .labeled (isNext [.assign] s).2)).2 = true := by
              unfold parseField at hok
              rw [ht] at hok
              simp only [] at hok
              rw [show isNext [.assign] s = (true, (isNext [.assign] s).2) from
                Prod.ext hb1 rfl] at hok
              exact hok
            obtain ⟨hok2, hPR⟩ := parseAssignment_rel hteof htsep hf
              (Or.inl ⟨C, relS_updateState .labeled hSn⟩) hok1
            have hres1 : parseField fuel s =
                parseAssignment fuel (updateState .labeled (isNext [.assign] s).2) := by
              unfold parseField
              rw [ht]
              simp only []
              rw [show isNext [.assign] s = (true, (isNext [.assign] s).2) from
                Prod.ext hb1 rfl]
            have hres2 : parseField fuel' s' =
                parseAssignment fuel' (updateState .labeled (isNext [.assign] s').2) := by
              unfold parseField
              rw [hcu0, ht]
              simp only []
              rw [show isNext [.assign] s' = (true, (isNext [.assign] s').2) from
                Prod.ext (by rw [hbN, hb1]) rfl]
            rw [hres1, hres2]
            exact ⟨hok2, hPR⟩
        | false =>
            have hok1 : (parseFieldOrdered fuel (isNext [.assign] s).2).2 = true := by
              unfold parseField at hok
              rw [ht] at hok
              simp only [] at hok
              rw [show isNext [.assign] s = (false, (isNext [.assign] s).2) from
                Prod.ext hb1 rfl] at hok
              exact hok
            obtain ⟨hok2, hPR⟩ := parseFieldOrdered_rel hteof htsep hf
              (Or.inl ⟨C, hSn⟩) hok1
            have hres1 : parseField fuel s =
                parseFieldOrdered fuel (isNext [.assign] s).2 := by
              unfold parseField
              rw [ht]
              simp only []
              rw [show isNext [.assign] s = (false, (isNext [.assign] s).2) from
                Prod.ext hb1 rfl]
            have hres2 : parseField fuel' s' =
                parseFieldOrdered fuel' (isNext [.assign] s').2 := by
              unfold parseField
              rw [hcu0, ht]
              simp only []
              rw [show isNext [.assign] s' = (false, (isNext [.assign] s').2) from
                Prod.ext (by rw [hbN, hb1]) rfl]
            rw [hres1, hres2]
            exact ⟨hok2, hPR⟩
    | fieldSeparator =>
        have hok1 : (parseFieldOrdered fuel s).2 = true := by
          unfold parseField at hok
          rw [ht] at hok
          exact hok
        obtain ⟨hok2, hPR⟩ := parseFieldOrdered_rel hteof htsep hf (Or.inl ⟨C, hS⟩) hok1
        have hres1 : parseField fuel s = parseFieldOrdered fuel s := by
          unfold parseField
          rw [ht]
        have hres2 : parseField fuel' s' = parseFieldOrdered fuel' s' := by
          unfold parseField
          rw [hcu0, ht]
        rw [hres1, hres2]
        exact ⟨hok2, hPR⟩
    | string =>
        have hok1 : (parseFieldOrdered fuel s).2 = true := by
          unfold parseField at hok
          rw [ht] at hok
          exact hok
        obtain ⟨hok2, hPR⟩ := parseFieldOrdered_rel hteof htsep hf (Or.inl ⟨C, hS⟩) hok1
        have hres1 : parseField fuel s = parseFieldOrdered fuel s := by
          unfold parseField
          rw [ht]
        have hres2 : parseField fuel' s' = parseFieldOrdered fuel' s' := by
          unfold parseField
          rw [hcu0, ht]
        rw [hres1, hres2]
        exact ⟨hok2, hPR⟩
    | number =>
        have hok1 : (parseFieldOrdered fuel s).2 = true := by
          unfold parseField at hok
          rw [ht] at hok
          exact hok
        obtain ⟨hok2, hPR⟩ := parseFieldOrdered_rel hteof htsep hf (Or.inl ⟨C, hS⟩) hok1
        have hres1 : parseField fuel s = parseFieldOrdered fuel s := by
          unfold parseField
          rw [ht]
        have hres2 : parseField fuel' s' = parseFieldOrdered fuel' s' := by
          unfold parseField
          rw [hcu0, ht]
        rw [hres1, hres2]
        exact ⟨hok2, hPR⟩
    | trueKw =>
        have hok1 : (parseFieldOrdered fuel s).2 = true := by
          unfold parseField at hok
          rw [ht] at hok
          exact hok
        obtain ⟨hok2, hPR⟩ := parseFieldOrdered_rel hteof htsep hf (Or.inl ⟨C, hS⟩) hok1
        have hres1 : parseField fuel s = parseFieldOrdered fuel s := by
          unfold parseField
          rw [ht]
        have hres2 : parseField fuel' s' = parseFieldOrdered fuel' s' := by
          unfold parseField
          rw [hcu0, ht]
        rw [hres1, hres2]
        exact ⟨hok2, hPR⟩
    | falseKw =>
        have hok1 : (parseFieldOrdered fuel s).2 = true := by
          unfold parseField at hok
          rw [ht] at hok
          exact hok
        obtain ⟨hok2, hPR⟩ := parseFieldOrdered_rel hteof htsep hf (Or.inl ⟨C, hS⟩) hok1
        have hres1 : parseField fuel s = parseFieldOrdered fuel s := by
          unfold parseField
          rw [ht]
        have hres2 : parseField fuel' s' = parseFieldOrdered fuel' s' := by
          unfold parseField
          rw [hcu0, ht]
        rw [hres1, hres2]
        exact ⟨hok2, hPR⟩
    | nilKw =>
        have hok1 : (parseFieldOrdered fuel s).2 = true := by
          unfold parseField at hok
          rw [ht] at hok
          exact hok
        obtain ⟨hok2, hPR⟩ := parseFieldOrdered_rel hteof htsep hf (Or.inl ⟨C, hS⟩) hok1
        have hres1 : parseField fuel s = parseFieldOrdered fuel s := by
          unfold parseField
          rw [ht]
        have hres2 : parseField fuel' s' = parseFieldOrdered fuel' s' := by
          unfold parseField
          rw [hcu0, ht]
        rw [hres1, hres2]
        exact ⟨hok2, hPR⟩
    | error =>
        exfalso
        have hfalse : (parseField fuel s).2 = false := by
          unfold parseField
          rw [ht]
        rw [hfalse] at hok
        cases hok
    | eof =>
        exfalso
        have hfalse : (parseField fuel s).2 = false := by
          unfold parseField
          rw [ht]
        rw [hfalse] at hok
        cases hok
    | assign =>
        exfalso
        have hfalse : (parseField fuel s).2 = false := by
          unfold parseField
          rw [ht]
        rw [hfalse] at hok
        cases hok
    | pairSeparator =>
        exfalso
        have hfalse : (parseField fuel s).2 = false := by
          unfold parseField
          rw [ht]
        rw [hfalse] at hok
        cases hok
    | listSeparator =>
        exfalso
        have hfalse : (parseField fuel s).2 = false := by
          unfold parseField
          rw [ht]
        rw [hfalse] at hok
        cases hok
  · exfalso
    have hcur : s.current = teof := hE.2.2.2.1
    have hfalse : (parseField fuel s).2 = false := by
      unfold parseField
      rw [show s.current.typ = .eof by rw [hcur, hteof]]
    rw [hfalse] at hok
    cases hok

theorem parseFieldLoop_rel {teof tsep teof2 : Token} (hteof : teof.typ = .eof)
    (htsep : tsep.typ = .fieldSeparator) (hteof2 : teof2.typ = .eof) :
    ∀ (fuel fuel' : Nat), fuel ≤ fuel' → ∀ {s s' : PState},
    PostRel teof tsep teof2 s s' →
    (parseFieldLoop fuel s).2 = true →
    (parseFieldLoop fuel s).1.hasToken = false →
    (parseFieldLoop fuel' s').2 = true ∧
    (parseFieldLoop fuel' s').1.events = (parseFieldLoop fuel s).1.events ∧
    (parseFieldLoop fuel' s').1.state = (parseFieldLoop fuel s).1.state := by
  intro fuel
  induction fuel with
  | zero =>
      intro fuel' hfle s s' h hok hexh
      rw [show parseFieldLoop 0 s = (s, false) from rfl] at hok
      cases hok
  | succ fuel ih =>
      intro fuel' hfle s s' h hok hexh
      cases fuel' with
      | zero => omega
      | succ fuel2 =>
          have hf2 : fuel ≤ fuel2 := by omega
          rcases h with ⟨C, hS⟩ | hE
          · cases C with
            | nil =>
                exfalso
                obtain ⟨ho1, ho2, hE1⟩ := padvance_rel_nil hS
                have hres1 : parseFieldLoop (fuel + 1) s = ((padvance s).1, true) := by
                  unfold parseFieldLoop
                  rw [show padvance s = ((padvance s).1, true) from Prod.ext rfl ho1]
                  simp only []
                  rw [if_pos (show (padvance s).1.current.typ = .eof by
                    rw [hE1.2.2.2.1, hteof])]
                rw [hres1] at hexh
                have hht1 : (padvance s).1.hasToken = true := hE1.2.2.2.2.2.1
                rw [hht1] at hexh
                cases hexh
            | cons c C2 =>
                obtain ⟨ho1, ho2, hS1, hcc⟩ := padvance_rel_cons hS
                have hht1 : (padvance s).1.hasToken = true := by
                  obtain ⟨-, -, -, -, -, -, hht1⟩ := padvance_cons
                    (show supply s = c :: (C2 ++ [teof]) by
                      rw [hS.2.2.2.2.2.1]
                      rfl)
                  exact hht1
                by_cases heof : (padvance s).1.current.typ = .eof
                · exfalso
                  have hres1 : parseFieldLoop (fuel + 1) s = ((padvance s).1, true) := by
                    unfold parseFieldLoop
                    rw [show padvance s = ((padvance s).1, true) from Prod.ext rfl ho1]
                    simp only []
                    rw [if_pos heof]
                  rw [hres1] at hexh
                  rw [hht1] at hexh
                  cases hexh
                · have heof2 : ¬((padvance s').1.current.typ = .eof) := by
                    rw [hS1.2.2.2.1]
                    exact heof
                  cases hpf : parseField fuel (padvance s).1 with
                  | mk s2 okF =>
                      cases okF with
                      | false =>
                          exfalso
                          have hfalse : (parseFieldLoop (fuel + 1) s).2 = false := by
                            unfold parseFieldLoop
                            rw [show padvance s = ((padvance s).1, true) from Prod.ext rfl ho1]
                            simp only []
                            rw [if_neg heof]
                            rw [hpf]
                          rw [hfalse] at hok
                          cases hok
                      | true =>
                          obtain ⟨hokF2, hPR2⟩ := parseField_rel hteof htsep hf2
                            (Or.inl ⟨C2, hS1⟩) (by rw [hpf])
                          rw [hpf] at hPR2
                          simp only [] at hPR2
                          have hpf2 : parseField fuel2 (padvance s').1 =
                              ((parseField fuel2 (padvance s').1).1, true) :=
                            Prod.ext rfl hokF2
                          have hstep1 : parseFieldLoop (fuel + 1) s = parseFieldLoop fuel s2 := by
                            conv_lhs => unfold parseFieldLoop
                            rw [show padvance s = ((padvance s).1, true) from Prod.ext rfl ho1]
                            simp only []
                            rw [if_neg heof]
                            rw [hpf]
                          have hstep2 : parseFieldLoop (fuel2 + 1) s' =
                              parseFieldLoop fuel2 (parseField fuel2 (padvance s').1).1 := by
                            conv_lhs => unfold parseFieldLoop
                            rw [show padvance s' = ((padvance s').1, true) from Prod.ext rfl ho2]
                            simp only []
                            rw [if_neg heof2]
                            rw [hpf2]
                          have hok1r : (parseFieldLoop fuel s2).2 = true := by
                            rwa [hstep1] at hok
                          have hexh1r : (parseFieldLoop fuel s2).1.hasToken = false := by
                            rwa [hstep1] at hexh
                          obtain ⟨hokr2, hevr, hstr⟩ := ih fuel2 hf2 hPR2 hok1r hexh1r
                          rw [hstep1, hstep2]
                          exact ⟨hokr2, hevr, hstr⟩
          · have hsup : supply s = [] := hE.2.2.2.2.2.2.2.1
            have hsup2 : supply s' = [teof2] := hE.2.2.2.2.2.2.2.2
            obtain ⟨ho1, hc1, hs1, he1, hst1, hao1, hht1⟩ := padvance_nil hsup
            obtain ⟨ho2, hc2, hs2, he2, hst2, hao2, hht2⟩ := padvance_cons hsup2
            have hres1 : parseFieldLoop (fuel + 1) s = ((padvance s).1, true) := by
              unfold parseFieldLoop
              rw [show padvance s = ((padvance s).1, false) from Prod.ext rfl ho1]
            have hres2 : parseFieldLoop (fuel2 + 1) s' = ((padvance s').1, true) := by
              unfold parseFieldLoop
              rw [show padvance s' = ((padvance s').1, true) from Prod.ext rfl ho2]
              simp only []
              rw [if_pos (show (padvance s').1.current.typ = .eof by rw [hc2, hteof2])]
            rw [hres1, hres2]
            refine ⟨rfl, ?_, ?_⟩
            · rw [he1, he2]
              exact hE.1
            · rw [hst1, hst2]
              exact hE.2.1

theorem ParseTokens_trailing_rel (B : List Token) (teof tsep teof2 : Token)
    (hteof : teof.typ = .eof) (htsep : tsep.typ = .fieldSeparator)
    (hteof2 : teof2.typ = .eof) (ao : Bool)
    (hok : (parseFieldLoop ((B ++ [teof]).length + 1) (initPState ao (B ++ [teof]))).2 = true)
    (hexh : (parseFieldLoop ((B ++ [teof]).length + 1)
      (initPState ao (B ++ [teof]))).1.hasToken = false) :
    ParseTokens (B ++ [tsep, teof2]) ao = ParseTokens (B ++ [teof]) ao := by
  unfold ParseTokens parseFieldList
  have hrel : RelS teof tsep teof2 B (initPState ao (B ++ [teof]))
      (initPState ao (B ++ [tsep, teof2])) :=
    ⟨rfl, rfl, rfl, rfl, rfl, rfl, rfl⟩
  have hfle : (B ++ [teof]).length + 1 ≤ (B ++ [tsep, teof2]).length + 1 := by
    simp only [List.length_append, List.length_cons, List.length_nil]
    omega
  obtain ⟨hok2, hev, hst⟩ := parseFieldLoop_rel hteof htsep hteof2 _ _ hfle
    (Or.inl ⟨B, hrel⟩) hok hexh
  cases hl1 : parseFieldLoop ((B ++ [teof]).length + 1) (initPState ao (B ++ [teof])) with
  | mk t1 ok1 =>
      cases hl2 : parseFieldLoop ((B ++ [tsep, teof2]).length + 1)
          (initPState ao (B ++ [tsep, teof2])) with
      | mk t2 ok2 =>
          rw [hl1] at hok hev hst
          rw [hl2] at hok2 hev hst
          simp only [] at hok hok2 hev hst
          rw [hok, hok2]
          simp only []
          rw [updateState_events, updateState_events, hev, hst]
  
/-- C10 counterexample: the non-empty document "," ends with a single
trailing field separator, yet its events are a Zero value inside a
list, not the empty document's events; and appending a trailing comma
to the error-free document "1 2" adds a Zero value event.  The trailing
separator can therefore produce a Zero value and extra events. -/
theorem C10_trailing_separator_counterexample :
    Parse asciiLetter (List.nil ++ [',']) true ≠ Parse asciiLetter [] true ∧
    Parse asciiLetter ("1 2".data ++ [',']) true ≠ Parse asciiLetter "1 2".data true ∧
    (Parse asciiLetter "1 2".data true).any isErrEv = false ∧
    ParserEvent.value (some .zeroValue) ∈ Parse asciiLetter ("1 2".data ++ [',']) true ∧
    ParserEvent.value (some .zeroValue) ∉ Parse asciiLetter "1 2".data true :=
  ⟨by decide, by decide, by decide, by decide, by decide⟩

/-- C10 (amended): when the lexer reads the trailing comma as one extra
FieldSeparator token before EndOfInput, and the parser run on the
original document succeeds and consumes its whole token stream up to
and including EndOfInput, the document with the trailing separator
parses to exactly the same event sequence: no Zero value, no extra
event, and no error. -/
theorem C10_trailing_separator (letter : Char → Bool) (d : List Char) (ao : Bool)
    (B : List Token) (teof tsep teof2 : Token)
    (hlex1 : Lex letter d = B ++ [teof]) (hteof : teof.typ = .eof)
    (hlex2 : Lex letter (d ++ [',']) = B ++ [tsep, teof2])
    (htsep : tsep.typ = .fieldSeparator) (hteof2 : teof2.typ = .eof)
    (hok : (parseFieldLoop ((Lex letter d).length + 1)
      (initPState ao (Lex letter d))).2 = true)
    (hexh : (parseFieldLoop ((Lex letter d).length + 1)
      (initPState ao (Lex letter d))).1.hasToken = false) :
    Parse letter (d ++ [',']) ao = Parse letter d ao := by
  unfold Parse
  rw [hlex1, hlex2]
  rw [hlex1] at hok hexh
  exact ParseTokens_trailing_rel B teof tsep teof2 hteof htsep hteof2 ao hok hexh

/-- The trailing-separator equivalence at the concrete document a=1. -/
theorem C10_trailing_separator_witness :
    Parse asciiLetter ("a=1".data ++ [',']) true = Parse asciiLetter "a=1".data true :=
  C10_trailing_separator asciiLetter "a=1".data true
    [⟨.identifier, ⟨0, 1⟩, ['a']⟩, ⟨.assign, ⟨1, 2⟩, ['=']⟩, ⟨.number, ⟨2, 3⟩, ['1']⟩]
    ⟨.eof, ⟨3, 4⟩, []⟩ ⟨.fieldSeparator, ⟨3, 4⟩, [',']⟩ ⟨.eof, ⟨4, 5⟩, []⟩
    (by decide) rfl (by decide) rfl rfl (by decide) (by decide)

end TrailingSep

end Plainfields
